import Mathlib

/-!
# neofs-node: blob-store range reads, metabase cursor listing, network settings

A shallow embedding of

* `pkg/local_object_storage/blobstor/get_range.go` (`BlobStor.GetRange`,
  `getRangeBig`, `getRangeSmall`),
* `pkg/local_object_storage/metabase/list.go` (`ListWithCursor`,
  `listWithCursor`, `selectNFromBucket`), and
* `cmd/neofs-adm/internal/modules/morph/config.go` (`parseConfigPair`,
  `parseContractVersion`),

followed by the properties of these functions.

Conventions. Go strings and `[]byte` keys are lists of characters compared
lexicographically by code point (which is the byte order of their UTF-8 form);
`uint64` values are natural numbers reduced modulo `2^64` where the source can
wrap; a Go `(value, error)` pair is an `Except` value, or an explicit tuple where
the non-error components matter.
-/

/-- Go `string` and `[]byte` values. -/
abbrev GoString := List Char

/-- An object address: container identifier and object identifier, each kept in its
canonical string encoding. -/
structure Address where
  cid : GoString
  oid : GoString
  deriving DecidableEq, Repr

namespace Blobstor

/-- Go `[]byte` payload data. -/
abbrev Bytes := List Nat

/-- The size of the `uint64` value space. -/
def u64 : Nat := 2 ^ 64

/-- Go error values as far as `get_range.go` can tell them apart: the two API status
errors, the file-tree sentinel, any other leaf error, and `fmt.Errorf("...: %w", err)`
wrapping. -/
inductive GoError where
  | objectNotFound : GoError
  | objectOutOfRange : GoError
  | errFileNotFound : GoError
  | other : String → GoError
  | wrap : String → GoError → GoError
  deriving DecidableEq, Repr

/-- Go `errors.As(err, new(apistatus.ObjectNotFound))`: some error of the chain is an
`ObjectNotFound`. -/
def errorsAsObjectNotFound : GoError → Bool
  | .objectNotFound => true
  | .wrap _ inner => errorsAsObjectNotFound inner
  | _ => false

/-- Go `errors.Is(err, fstree.ErrFileNotFound)`: some error of the chain is the sentinel. -/
def errorsIsErrFileNotFound : GoError → Bool
  | .errFileNotFound => true
  | .wrap _ inner => errorsIsErrFileNotFound inner
  | _ => false

/-- An `objectSDK.Object` as read back from the large store; only the payload is used. -/
structure Object where
  payload : Bytes
  deriving DecidableEq, Repr

/-- The type `objectSDK.Range`: offset and length, both `uint64`. -/
structure Range where
  offset : Nat
  length : Nat
  deriving DecidableEq, Repr

/-- The type `common.GetRangePrm`. `StorageID` is a Go byte slice: `none` is the nil slice,
`some []` the empty non-nil slice. -/
structure GetRangePrm where
  address : Address
  range : Range
  storageID : Option Bytes
  deriving DecidableEq, Repr

/-- The type `common.GetRangeRes`. -/
structure GetRangeRes where
  data : Bytes
  deriving DecidableEq, Repr

/-- The sub-storages a call can touch. -/
inductive Probe where
  | fsTree : Probe
  | blobovniczas : Probe
  deriving DecidableEq, Repr

/-- The collaborators of `BlobStor` that `get_range.go` calls: the file tree, the
codec, object unmarshalling and the blobovnicza range read. They are external, so
they are arbitrary functions here. -/
structure BlobStor where
  fsTreeGet : Address → Except GoError Bytes
  decompress : Bytes → Except GoError Bytes
  unmarshal : Bytes → Except GoError Object
  blobovniczasGetRange : GetRangePrm → Except GoError GetRangeRes

/-- The result of a read together with the sub-storages that were called, in call
order. -/
abbrev Traced := Except GoError GetRangeRes × List Probe

/-- The bounds test of `getRangeBig`:
`ln+off < off || pLen < off || pLen < ln+off` on `uint64` values. -/
def outOfRangeTest (pLen ln off : Nat) : Bool :=
  decide ((ln + off) % u64 < off) || decide (pLen < off) || decide (pLen < (ln + off) % u64)

/-- The Go slice expression `payload[lo:hi]` for `lo <= hi <= len(payload)`. -/
def sliceFromTo (payload : Bytes) (lo hi : Nat) : Bytes :=
  (payload.take hi).drop lo

/-- The method `BlobStor.getRangeBig`: read the record from the file tree, decompress
it, unmarshal it and cut the range out of the payload. -/
def getRangeBig (b : BlobStor) (prm : GetRangePrm) : Traced :=
  match b.fsTreeGet prm.address with
  | .error err =>
    if errorsIsErrFileNotFound err then
      (.error .objectNotFound, [.fsTree])
    else
      (.error (.wrap "could not read object from fs tree" err), [.fsTree])
  | .ok data =>
    match b.decompress data with
    | .error err => (.error (.wrap "could not decompress object data" err), [.fsTree])
    | .ok data =>
      match b.unmarshal data with
      | .error err => (.error (.wrap "could not unmarshal the object" err), [.fsTree])
      | .ok obj =>
        let payload := obj.payload
        let ln := prm.range.length
        let off := prm.range.offset
        let pLen := payload.length % u64
        if outOfRangeTest pLen ln off then
          (.error .objectOutOfRange, [.fsTree])
        else
          (.ok ⟨sliceFromTo payload off ((off + ln) % u64)⟩, [.fsTree])

/-- The method `BlobStor.getRangeSmall`: the range read of the blobovniczas. -/
def getRangeSmall (b : BlobStor) (prm : GetRangePrm) : Traced :=
  (b.blobovniczasGetRange prm, [.blobovniczas])

/-- The method `BlobStor.GetRange`: with a nil `StorageID` the large store and, on
`ObjectNotFound`, the small store; with an empty one the large store; else the small
store. -/
def GetRange (b : BlobStor) (prm : GetRangePrm) : Traced :=
  match prm.storageID with
  | none =>
    match getRangeBig b prm with
    | (.ok res, tr) => (.ok res, tr)
    | (.error err, tr) =>
      if !errorsAsObjectNotFound err then
        (.error err, tr)
      else
        let r := getRangeSmall b prm
        (r.1, tr ++ r.2)
  | some sid =>
    if sid.length = 0 then getRangeBig b prm else getRangeSmall b prm

/-- A store over a fixed table of raw records with identity codec, used to evaluate
the definitions. -/
def demoStore (big : List (Address × Bytes)) (small : List (Address × Bytes)) : BlobStor where
  fsTreeGet := fun a =>
    match big.lookup a with
    | some d => .ok d
    | none => .error .errFileNotFound
  decompress := fun d => .ok d
  unmarshal := fun d => .ok ⟨d⟩
  blobovniczasGetRange := fun prm =>
    match small.lookup prm.address with
    | some d =>
      if outOfRangeTest (d.length % u64) prm.range.length prm.range.offset then
        .error .objectOutOfRange
      else .ok ⟨sliceFromTo d prm.range.offset ((prm.range.offset + prm.range.length) % u64)⟩
    | none => .error .objectNotFound

/-- An address used in examples. -/
def demoAddr : Address := ⟨['C', '1'], ['a', '1']⟩

end Blobstor

namespace Metabase

/-! ## The ordered key-value engine -/

/-- Byte-wise lexicographic order on keys, the key order of a bbolt bucket. -/
def strLt : GoString → GoString → Bool
  | [], [] => false
  | [], _ :: _ => true
  | _ :: _, [] => false
  | a :: as, b :: bs =>
    if a.toNat < b.toNat then true else if a = b then strLt as bs else false

/-- The keys at and after a bbolt cursor once `Seek(k)` was called on it: the first
key not below `k` and everything behind it. -/
def seek (keys : List GoString) (k : GoString) : List GoString :=
  keys.dropWhile (fun x => strLt x k)

/-- The keys at and after a cursor once `Next()` was called on it. -/
def next (keys : List GoString) : List GoString :=
  keys.drop 1

/-- A read transaction on the metabase: the top-level buckets in ascending name
order, each with its keys in ascending order, and the graveyard records (address
string and marker). -/
structure Tx where
  buckets : List (GoString × List GoString)
  graveyard : List (GoString × Nat)
  deriving DecidableEq, Repr

/-- The keys that `tx.Cursor()` walks: the names of the top-level buckets. -/
def Tx.names (tx : Tx) : List GoString :=
  tx.buckets.map Prod.fst

/-- The call `tx.Bucket(name)`: the keys of the named bucket, `none` for Go nil. -/
def Tx.bucket (tx : Tx) (name : GoString) : Option (List GoString) :=
  tx.buckets.lookup name

/-- The invariant the engine keeps: bucket names and the keys of each bucket are
strictly ascending. -/
def Tx.Sorted (tx : Tx) : Prop :=
  tx.names.Pairwise (fun a b => strLt a b = true) ∧
  ∀ b ∈ tx.buckets, b.2.Pairwise (fun a b => strLt a b = true)

/-! ## Helpers of the package that are declared outside `list.go` -/

/-- The key-space layout `list.go` relies on without defining it: which strings are
identifiers (`cid.ID.Parse`, `oid.ID.Parse`), which container a top-level key
belongs to (the parsing step of `parseContainerID`), and the names of the three
per-container buckets. -/
structure Layout where
  validID : GoString → Bool
  containerOf : GoString → Option GoString
  primaryBucketName : GoString → GoString
  tombstoneBucketName : GoString → GoString
  storageGroupBucketName : GoString → GoString

/-- Go `strings.Split(s, "/")`. -/
def splitSlash : GoString → List GoString
  | [] => [[]]
  | c :: rest =>
    if c = '/' then [] :: splitSlash rest
    else
      match splitSlash rest with
      | [] => [[c]]
      | p :: ps => (c :: p) :: ps

/-- The method `Address.String`: `<containerID>/<objectID>`. -/
def Address.String (a : Address) : GoString :=
  a.cid ++ '/' :: a.oid

/-- Modelled from the spec: `Address.Parse` belongs to the SDK and is not in this
slice. The string must split at `/` into exactly two parts, a container identifier
and an object identifier; the parser is the inverse of `Address.String`. -/
def parseAddress (L : Layout) (s : GoString) : Option Address :=
  match splitSlash s with
  | [c, o] => if L.validID c && L.validID o then some ⟨c, o⟩ else none
  | _ => none

/-- Modelled from the spec: `parseContainerID(name, unique)` is not in this slice.
It yields the container identifier of a top-level key unless that identifier is in
the seen-set, and nil when the key belongs to no container. -/
def parseContainerID (L : Layout) (name : GoString) (unique : List GoString) :
    Option GoString :=
  match L.containerOf name with
  | none => none
  | some cid => if cid ∈ unique then none else some cid

/-- Modelled from the spec: `inGraveyard(tx, addr)` is not in this slice. It yields
the marker recorded for the address in the graveyard, and 0 when there is none. -/
def inGraveyard (tx : Tx) (a : Address) : Nat :=
  (tx.graveyard.lookup (Address.String a)).getD 0

/-- Go `strings.Replace(s, old, "", 1)`: the first occurrence of `old` removed. -/
def stringsReplace1 (s old : GoString) : GoString :=
  if old.isPrefixOf s then s.drop old.length
  else
    match s with
    | [] => []
    | c :: rest => c :: stringsReplace1 rest old

/-! ## `list.go` -/

/-- The tag of the primary bucket in a cursor. -/
def cursorPrefixPrimary : Char := 'p'

/-- The tag of the tombstone bucket in a cursor. -/
def cursorPrefixTombstone : Char := 't'

/-- The tag of the storage-group bucket in a cursor. -/
def cursorPrefixSG : Char := 's'

/-- The errors of `listWithCursor`: the two cursor-format errors and the
end-of-listing sentinel `core.ErrEndOfListing`. -/
inductive ListError where
  | invalidCursorPrefix : Char → ListError
  | invalidCursorAddress : ListError
  | errEndOfListing : ListError
  deriving DecidableEq, Repr

/-- The loop of `selectNFromBucket` over the keys `ks` from the cursor position on.
`dst` (`to` in the source) is the listing result, `count` its tracked length and
`cursor` the last key visited. -/
def selectLoop (L : Layout) (tx : Tx) (pfx : GoString) (limit : Nat) :
    List GoString → List Address → Nat → GoString → List Address × GoString
  | [], dst, _, cursor => (dst, cursor)
  | k :: ks, dst, count, cursor =>
    if count ≥ limit then (dst, cursor)
    else
      let key := pfx ++ k
      match parseAddress L key with
      | none => (dst, key)
      | some a =>
        if inGraveyard tx a > 0 then selectLoop L tx pfx limit ks dst count key
        else selectLoop L tx pfx limit ks (dst ++ [a]) (count + 1) key

/-- The function `selectNFromBucket`: the keys of the named bucket from its first key,
or from behind the key a seek to the cursor lands on, go through the loop. -/
def selectNFromBucket (L : Layout) (tx : Tx) (name : GoString) (pfx : GoString)
    (dst : List Address) (limit : Nat) (cursor : GoString) (threshold : Bool) :
    List Address × GoString :=
  match tx.bucket name with
  | none => (dst, cursor)
  | some keys =>
    let ks := if !threshold then next (seek keys (stringsReplace1 cursor pfx)) else keys
    selectLoop L tx pfx limit ks dst dst.length cursor

/-- The local variables of `listWithCursor` that its loops update. -/
structure ScanState where
  result : List Address
  cursor : GoString
  cursorPrefix : Char
  threshold : Bool
  unique : List GoString
  deriving DecidableEq, Repr

/-- The array `lookupBuckets` of `listWithCursor`: bucket name and cursor tag. -/
def lookupBuckets (L : Layout) (containerID : GoString) : List (GoString × Char) :=
  [(L.primaryBucketName containerID, cursorPrefixPrimary),
   (L.tombstoneBucketName containerID, cursorPrefixTombstone),
   (L.storageGroupBucketName containerID, cursorPrefixSG)]

/-- The inner loop of `listWithCursor` over `lookupBuckets`. The flag of the result
tells whether `break loop` was taken. -/
def bucketsLoop (L : Layout) (tx : Tx) (count : Nat) (pfx : GoString) :
    List (GoString × Char) → ScanState → ScanState × Bool
  | [], st => (st, false)
  | lb :: lbs, st =>
    if !st.threshold && st.cursorPrefix != lb.2 then bucketsLoop L tx count pfx lbs st
    else
      let r := selectNFromBucket L tx lb.1 pfx st.result count st.cursor st.threshold
      if r.1.length ≥ count then
        (⟨r.1, r.2, lb.2, st.threshold, st.unique⟩, true)
      else
        bucketsLoop L tx count pfx lbs ⟨r.1, r.2, lb.2, true, st.unique⟩

/-- The outer loop of `listWithCursor` over the top-level keys from the cursor
position on. -/
def namesLoop (L : Layout) (tx : Tx) (count : Nat) :
    List GoString → ScanState → ScanState
  | [], st => st
  | name :: names, st =>
    match parseContainerID L name st.unique with
    | none => namesLoop L tx count names st
    | some containerID =>
      let st1 : ScanState :=
        ⟨st.result, st.cursor, st.cursorPrefix, st.threshold, containerID :: st.unique⟩
      let r := bucketsLoop L tx count (containerID ++ ['/']) (lookupBuckets L containerID) st1
      if r.2 then r.1 else namesLoop L tx count names r.1

/-- What Go returns from `listWithCursor`: the address list (`[]` for nil), the
cursor, and the error (`none` for nil). -/
abbrev ListOut := List Address × GoString × Option ListError

/-- The end of `listWithCursor`, after the loops. -/
def finish (st : ScanState) : ListOut :=
  if st.result.length = 0 then ([], [], some .errEndOfListing)
  else (st.result, st.cursorPrefix :: st.cursor, none)

/-- The state the loops of `listWithCursor` end in, for a cursor that passed the
checks: `none` for the empty cursor, else the tag and the parsed address with the
text it was parsed from. -/
def scan (L : Layout) (tx : Tx) (count : Nat) :
    Option (Char × GoString × Address) → ScanState
  | none => namesLoop L tx count tx.names ⟨[], [], Char.ofNat 0, true, []⟩
  | some (tag, text, a) => namesLoop L tx count (seek tx.names a.cid) ⟨[], text, tag, false, []⟩

/-- The method `DB.listWithCursor`: the checks of a non-empty cursor, the loops, and
the end-of-listing test. The first byte of the cursor is its first character here;
a first character outside ASCII is no tag in either reading. -/
def listWithCursor (L : Layout) (tx : Tx) (count : Nat) (cursor : GoString) : ListOut :=
  match cursor with
  | [] => finish (scan L tx count none)
  | cp :: rest =>
    if cp = cursorPrefixPrimary ∨ cp = cursorPrefixSG ∨ cp = cursorPrefixTombstone then
      match parseAddress L rest with
      | none => ([], [], some .invalidCursorAddress)
      | some a => finish (scan L tx count (some (cp, rest, a)))
    else ([], [], some (.invalidCursorPrefix cp))

/-- The type `ListPrm`. -/
structure ListPrm where
  count : Nat
  cursor : GoString

/-- The type `ListRes`. -/
structure ListRes where
  addrList : List Address
  cursor : GoString

/-- The method `DB.ListWithCursor`: the listing inside one read transaction. -/
def DB.ListWithCursor (L : Layout) (db : Tx) (prm : ListPrm) : ListRes × Option ListError :=
  let r := listWithCursor L db prm.count prm.cursor
  (⟨r.1, r.2.1⟩, r.2.2)

/-- The package function `ListWithCursor`. -/
def ListWithCursor (L : Layout) (db : Tx) (count : Nat) (cursor : GoString) : ListOut :=
  match DB.ListWithCursor L db ⟨count, cursor⟩ with
  | (_, some err) => ([], [], some err)
  | (r, none) => (r.addrList, r.cursor, none)

/-! ## A concrete layout and index for evaluation -/

/-- The base58 alphabet. -/
def base58Alphabet : GoString :=
  ['1', '2', '3', '4', '5', '6', '7', '8', '9',
   'A', 'B', 'C', 'D', 'E', 'F', 'G', 'H', 'J', 'K', 'L', 'M', 'N', 'P', 'Q', 'R', 'S', 'T',
   'U', 'V', 'W', 'X', 'Y', 'Z',
   'a', 'b', 'c', 'd', 'e', 'f', 'g', 'h', 'i', 'j', 'k', 'm', 'n', 'o', 'p', 'q', 'r', 's',
   't', 'u', 'v', 'w', 'x', 'y', 'z']

/-- Identifiers of the demo layout: non-empty base58 text (the length condition of
real identifiers is dropped to keep examples short). -/
def demoValidID (s : GoString) : Bool :=
  !s.isEmpty && s.all (fun c => c ∈ base58Alphabet)

/-- A layout with the bucket names `<CID>`, `<CID>_TS` and `<CID>_SG`, in which the
container of a top-level key is the text before the first `_`. -/
def demoLayout : Layout where
  validID := demoValidID
  containerOf := fun name =>
    let c := name.takeWhile (fun x => x != '_')
    if demoValidID c then some c else none
  primaryBucketName := fun c => c
  tombstoneBucketName := fun c => c ++ ['_', 'T', 'S']
  storageGroupBucketName := fun c => c ++ ['_', 'S', 'G']

/-- The index of the scenario: container `C1` with primary keys `a1 < a2 < a3` and
tombstone `t1`, container `C2` with primary key `b1`, and `C1/a2` inhumed. -/
def demoTx : Tx where
  buckets :=
    [(['C', '1'], [['a', '1'], ['a', '2'], ['a', '3']]),
     (['C', '1', '_', 'T', 'S'], [['t', '1']]),
     (['C', '2'], [['b', '1']]),
     (['_', 'G', 'r', 'a', 'v', 'e', 'y', 'a', 'r', 'd'], [['C', '1', '/', 'a', '2']])]
  graveyard := [(['C', '1', '/', 'a', '2'], 1)]

/-- An index with a key that is no identifier: container `C1` with primary keys
`!` and `a1`. -/
def demoTxMalformedFirst : Tx where
  buckets := [(['C', '1'], [['!'], ['a', '1']])]
  graveyard := []

/-- An index with a key that is no identifier behind the last address: container
`C1` with primary keys `a1` and `a~`. -/
def demoTxMalformedLast : Tx where
  buckets := [(['C', '1'], [['a', '1'], ['a', '~']])]
  graveyard := []

/-- An index whose last key is inhumed: container `C1` with primary keys `a1` and
`a2`, and `C1/a2` inhumed. -/
def demoTxInhumedLast : Tx where
  buckets := [(['C', '1'], [['a', '1'], ['a', '2']])]
  graveyard := [(['C', '1', '/', 'a', '2'], 1)]

/-- An index with a key that is no identifier before other keys: container `C1` with
primary keys `a1 < a~ < b1` and tombstone `t1`, container `C2` with primary key
`b1`. -/
def demoTxMalformedMiddle : Tx where
  buckets :=
    [(['C', '1'], [['a', '1'], ['a', '~'], ['b', '1']]),
     (['C', '1', '_', 'T', 'S'], [['t', '1']]),
     (['C', '2'], [['b', '1']])]
  graveyard := []

/-- An index for a cursor whose object is no key: container `C1` with primary keys
`a1 < a3 < a5`. -/
def demoTxGap : Tx where
  buckets := [(['C', '1'], [['a', '1'], ['a', '3'], ['a', '5']])]
  graveyard := []

/-- An index with a key in two partitions: `a1` is a key of the primary and of the
tombstone partition of container `C1`. -/
def demoTxTwice : Tx where
  buckets :=
    [(['C', '1'], [['a', '1']]),
     (['C', '1', '_', 'T', 'S'], [['a', '1']])]
  graveyard := []

/-- An index in which the identifier `C1` is a proper prefix of the identifier
`C1A`: container `C1` with primary key `a1` and tombstone key `t1`, container `C1A`
with primary key `b1`. The top-level key `C1A` lies between the two keys of `C1`. -/
def demoTxPrefix : Tx where
  buckets :=
    [(['C', '1'], [['a', '1']]),
     (['C', '1', 'A'], [['b', '1']]),
     (['C', '1', '_', 'T', 'S'], [['t', '1']])]
  graveyard := []

end Metabase

namespace Morph

/-! ## `cmd/neofs-adm/internal/modules/morph/config.go` -/

/-- A stack item as `parseContractVersion` looks at it: either `TryInteger` converts
it to the integer `v`, or `TryInteger` returns an error. -/
inductive Item where
  | integer (v : Int)
  | notInteger
  deriving DecidableEq, Repr

/-- Go `fmt` verb `%d` on an integer: decimal digits, with a leading minus sign for
a negative value. -/
def fmtInt : Int → GoString
  | Int.ofNat n => Nat.toDigits 10 n
  | Int.negSucc n => '-' :: Nat.toDigits 10 (n + 1)

/-- Go `big.Int.IsInt64`. -/
def isInt64 (v : Int) : Bool := decide (-(2 ^ 63 : Int) ≤ v) && decide (v ≤ 2 ^ 63 - 1)

/-- The text returned for a version that cannot be shown. -/
def unknownVersion : GoString := ['u', 'n', 'k', 'n', 'o', 'w', 'n']

/-- Function `parseContractVersion` of `config.go`. Go integer division and remainder
truncate towards zero. -/
def parseContractVersion (item : Item) : GoString :=
  match item with
  | .notInteger => unknownVersion
  | .integer bi =>
    if bi = 0 || !isInt64 bi then unknownVersion
    else
      let v := bi
      let major := v.tdiv 1000000
      let minor := (v.tmod 1000000).tdiv 1000
      let patch := v.tmod 1000
      'v' :: fmtInt major ++ '.' :: fmtInt minor ++ '.' :: fmtInt patch

/-- Go `strings.SplitN(s, "=", 2)`: the text before the first `=` and the text after
it, or the whole string alone when it has no `=`. -/
def splitN2 (s : GoString) : List GoString :=
  match s.dropWhile (fun c => c != '=') with
  | [] => [s]
  | _ :: rest => [s.takeWhile (fun c => c != '='), rest]

/-- The two errors of Go `strconv` number parsing. -/
inductive NumError where
  | errSyntax
  | errRange
  deriving DecidableEq, Repr

/-- The value of a decimal digit. -/
def digitVal (c : Char) : Option Nat :=
  if 48 ≤ c.toNat ∧ c.toNat ≤ 57 then some (c.toNat - 48) else none

/-- The number written by a string of decimal digits read after the value `acc`, or
`none` when a character is no decimal digit. -/
def parseDigits : List Char → Nat → Option Nat
  | [], acc => some acc
  | c :: rest, acc =>
    match digitVal c with
    | none => none
    | some d => parseDigits rest (acc * 10 + d)

/-- Go `strconv.ParseInt(s, 10, 64)`: an optional sign and at least one decimal digit;
a value outside the `int64` range is a range error returned with the nearest bound,
any other text a syntax error returned with zero. -/
def strconvParseInt (s : GoString) : Int × Option NumError :=
  match s with
  | [] => (0, some .errSyntax)
  | c :: rest =>
    let neg := c == '-'
    let ds := if c == '+' || c == '-' then rest else s
    match ds with
    | [] => (0, some .errSyntax)
    | _ :: _ =>
      match parseDigits ds 0 with
      | none => (0, some .errSyntax)
      | some un =>
        if !neg && decide (2 ^ 63 ≤ un) then (2 ^ 63 - 1, some .errRange)
        else if neg && decide (2 ^ 63 < un) then (-(2 ^ 63), some .errRange)
        else (if neg then -(un : Int) else (un : Int), none)

/-- Go `strconv.ParseBool`. -/
def strconvParseBool (s : GoString) : Bool × Option NumError :=
  if s ∈ [['1'], ['t'], ['T'], ['T', 'R', 'U', 'E'], ['t', 'r', 'u', 'e'],
      ['T', 'r', 'u', 'e']] then (true, none)
  else if s ∈ [['0'], ['f'], ['F'], ['F', 'A', 'L', 'S', 'E'], ['f', 'a', 'l', 's', 'e'],
      ['F', 'a', 'l', 's', 'e']] then (false, none)
  else (false, some .errSyntax)

/-- The names of the network settings that `parseConfigPair` knows. They are constants
of the package declared outside `config.go`, so they are taken as given;
`parseFloatFails` tells whether Go `strconv.ParseFloat(s, 64)` returns an error. -/
structure NetmapKeys where
  netmapAuditFeeKey : GoString
  netmapBasicIncomeRateKey : GoString
  netmapContainerFeeKey : GoString
  netmapContainerAliasFeeKey : GoString
  netmapEigenTrustIterationsKey : GoString
  netmapEpochKey : GoString
  netmapInnerRingCandidateFeeKey : GoString
  netmapMaxObjectSizeKey : GoString
  netmapWithdrawFeeKey : GoString
  netmapEigenTrustAlphaKey : GoString
  netmapHomomorphicHashDisabledKey : GoString
  parseFloatFails : GoString → Bool

/-- The settings of the first `case` of `parseConfigPair`: those with an integer
value. -/
def NetmapKeys.intKeys (K : NetmapKeys) : List GoString :=
  [K.netmapAuditFeeKey, K.netmapBasicIncomeRateKey, K.netmapContainerFeeKey,
   K.netmapContainerAliasFeeKey, K.netmapEigenTrustIterationsKey, K.netmapEpochKey,
   K.netmapInnerRingCandidateFeeKey, K.netmapMaxObjectSizeKey, K.netmapWithdrawFeeKey]

/-- All the settings `parseConfigPair` knows. -/
def NetmapKeys.wellKnown (K : NetmapKeys) : List GoString :=
  K.intKeys ++ [K.netmapEigenTrustAlphaKey, K.netmapHomomorphicHashDisabledKey]

/-- The `interface{}` value of a setting. -/
inductive ConfigValue where
  | null
  | int (v : Int)
  | bool (b : Bool)
  | str (s : GoString)
  deriving DecidableEq, Repr

/-- The errors of `parseConfigPair`. -/
inductive ConfigError where
  | invalidFormat (kvStr : GoString)
  | notInt (key valRaw : GoString) (cause : NumError)
  | notFloat (key valRaw : GoString)
  | notBool (key valRaw : GoString) (cause : NumError)
  | notWellKnown (key : GoString)
  deriving DecidableEq, Repr

/-- Function `parseConfigPair` of `config.go`. The three results are named in the
source, so a value assigned before a conversion error is returned along with the
error. -/
def parseConfigPair (K : NetmapKeys) (kvStr : GoString) (force : Bool) :
    GoString × ConfigValue × Option ConfigError :=
  match splitN2 kvStr with
  | [key, valRaw] =>
    if key ∈ K.intKeys then
      let r := strconvParseInt valRaw
      (key, .int r.1, r.2.map (ConfigError.notInt key valRaw))
    else if key = K.netmapEigenTrustAlphaKey then
      (key, .str valRaw, if K.parseFloatFails valRaw then some (.notFloat key valRaw) else none)
    else if key = K.netmapHomomorphicHashDisabledKey then
      let r := strconvParseBool valRaw
      (key, .bool r.1, r.2.map (ConfigError.notBool key valRaw))
    else if !force then ([], .null, some (.notWellKnown key))
    else (key, .str valRaw, none)
  | _ => ([], .null, some (.invalidFormat kvStr))

/-- The setting names of the scenario; the float test accepts the texts that
`strconvParseInt` accepts, which is enough for the integer and unknown settings the
scenario uses. -/
def demoKeys : NetmapKeys where
  netmapAuditFeeKey := ['A', 'u', 'd', 'i', 't', 'F', 'e', 'e']
  netmapBasicIncomeRateKey := ['B', 'a', 's', 'i', 'c', 'I', 'n', 'c', 'o', 'm', 'e', 'R', 'a', 't', 'e']
  netmapContainerFeeKey := ['C', 'o', 'n', 't', 'a', 'i', 'n', 'e', 'r', 'F', 'e', 'e']
  netmapContainerAliasFeeKey := ['C', 'o', 'n', 't', 'a', 'i', 'n', 'e', 'r', 'A', 'l', 'i', 'a', 's', 'F', 'e', 'e']
  netmapEigenTrustIterationsKey := ['E', 'i', 'g', 'e', 'n', 'T', 'r', 'u', 's', 't', 'I', 't', 'e', 'r', 'a', 't', 'i', 'o', 'n', 's']
  netmapEpochKey := ['E', 'p', 'o', 'c', 'h', 'D', 'u', 'r', 'a', 't', 'i', 'o', 'n']
  netmapInnerRingCandidateFeeKey := ['I', 'n', 'n', 'e', 'r', 'R', 'i', 'n', 'g', 'C', 'a', 'n', 'd', 'i', 'd', 'a', 't', 'e', 'F', 'e', 'e']
  netmapMaxObjectSizeKey := ['M', 'a', 'x', 'O', 'b', 'j', 'e', 'c', 't', 'S', 'i', 'z', 'e']
  netmapWithdrawFeeKey := ['W', 'i', 't', 'h', 'd', 'r', 'a', 'w', 'F', 'e', 'e']
  netmapEigenTrustAlphaKey := ['E', 'i', 'g', 'e', 'n', 'T', 'r', 'u', 's', 't', 'A', 'l', 'p', 'h', 'a']
  netmapHomomorphicHashDisabledKey := ['H', 'o', 'm', 'o', 'm', 'o', 'r', 'p', 'h', 'i', 'c', 'H', 'a', 's', 'h', 'i', 'n', 'g', 'D', 'i', 's', 'a', 'b', 'l', 'e', 'd']
  parseFloatFails := fun s => (strconvParseInt s).2.isSome

end Morph

namespace Metabase

/-! ## The listing as the specification describes it -/

/-- The keys of the named bucket; a missing bucket has none. -/
def Tx.keysOf (tx : Tx) (name : GoString) : List GoString :=
  (tx.bucket name).getD []

/-- The address a key of a partition contributes to a listing: the key, behind the
container text `pfx`, parses as an address, and that address has no positive
graveyard marker. -/
def liveKey (L : Layout) (tx : Tx) (pfx k : GoString) : Option Address :=
  match parseAddress L (pfx ++ k) with
  | none => none
  | some a => if inGraveyard tx a > 0 then none else some a

/-- The non-inhumed addresses among the keys `ks`, in key order. -/
def liveOf (L : Layout) (tx : Tx) (pfx : GoString) (ks : List GoString) : List Address :=
  ks.filterMap (liveKey L tx pfx)

/-- The containers in the order in which a walk over the top-level keys `names`
reaches them for the first time, `unique` being the containers seen before. -/
def visitOrder (L : Layout) : List GoString → List GoString → List GoString
  | [], _ => []
  | name :: names, unique =>
    match parseContainerID L name unique with
    | none => visitOrder L names unique
    | some cid => cid :: visitOrder L names (cid :: unique)

/-- The containers of the index in order of first appearance in the top-level key
space. -/
def containers (L : Layout) (tx : Tx) : List GoString :=
  visitOrder L tx.names []

/-- The non-inhumed addresses of the buckets `lbs` of container `c`, bucket after
bucket, each in key order. -/
def bucketsLive (L : Layout) (tx : Tx) (c : GoString) (lbs : List (GoString × Char)) :
    List Address :=
  lbs.flatMap (fun lb => liveOf L tx (c ++ ['/']) (tx.keysOf lb.1))

/-- The non-inhumed addresses of one container: primary, then tombstone, then
storage-group partition, each in key order. -/
def containerLive (L : Layout) (tx : Tx) (c : GoString) : List Address :=
  bucketsLive L tx c (lookupBuckets L c)

/-- Every non-inhumed address of the index in (container, partition, key) order. -/
def allLive (L : Layout) (tx : Tx) : List Address :=
  (containers L tx).flatMap (containerLive L tx)

/-- The non-inhumed addresses of the buckets `lbs` of container `c` behind the
cursor position (`tag`, `k`): in the tagged bucket the keys behind the one the seek
lands on, then the later buckets in full. -/
def bucketsLiveAfter (L : Layout) (tx : Tx) (c : GoString) (lbs : List (GoString × Char))
    (tag : Char) (k : GoString) : List Address :=
  match lbs.dropWhile (fun lb => lb.2 != tag) with
  | [] => []
  | lb :: rest =>
    liveOf L tx (c ++ ['/']) (next (seek (tx.keysOf lb.1) k)) ++ bucketsLive L tx c rest

/-- The non-inhumed addresses of container `c` behind the cursor position
(`tag`, `k`). -/
def containerLiveAfter (L : Layout) (tx : Tx) (c : GoString) (tag : Char) (k : GoString) :
    List Address :=
  bucketsLiveAfter L tx c (lookupBuckets L c) tag k

/-- The non-inhumed addresses behind the cursor position (`tag`, `c`, `k`) when the
containers are `cs`: the rest of container `c`, then the containers behind it. -/
def liveAfterIn (L : Layout) (tx : Tx) (cs : List GoString) (tag : Char) (c k : GoString) :
    List Address :=
  containerLiveAfter L tx c tag k ++
    ((cs.dropWhile (fun x => x != c)).drop 1).flatMap (containerLive L tx)

/-- The non-inhumed addresses of the index behind the cursor position
(`tag`, `c`, `k`). -/
def liveAfter (L : Layout) (tx : Tx) (tag : Char) (c k : GoString) : List Address :=
  liveAfterIn L tx (containers L tx) tag c k

/-- Every key of the three partitions of every container parses as an address. -/
def Tx.AllKeysParse (L : Layout) (tx : Tx) : Prop :=
  ∀ c ∈ containers L tx, ∀ lb ∈ lookupBuckets L c, ∀ k ∈ tx.keysOf lb.1,
    (parseAddress L (c ++ ['/'] ++ k)).isSome = true

/-- No key occurs twice among the keys of the three partitions of a container. -/
def Tx.DisjointPartitions (L : Layout) (tx : Tx) : Prop :=
  ∀ c ∈ containers L tx, ((lookupBuckets L c).flatMap (fun lb => tx.keysOf lb.1)).Nodup

/-- A seek to the identifier of a container lands on the first top-level key of
that container: walking on from there reaches that container and then the
containers behind it. -/
def Tx.SeekFindsContainer (L : Layout) (tx : Tx) : Prop :=
  ∀ c ∈ containers L tx,
    visitOrder L (seek tx.names c) [] = (containers L tx).dropWhile (fun x => x != c)

/-- The outer loop of `listWithCursor` as a walk over the containers it reaches. -/
def contsLoop (L : Layout) (tx : Tx) (count : Nat) : List GoString → ScanState → ScanState
  | [], st => st
  | c :: cs, st =>
    let r := bucketsLoop L tx count (c ++ ['/']) (lookupBuckets L c)
      ⟨st.result, st.cursor, st.cursorPrefix, st.threshold, c :: st.unique⟩
    if r.2 then r.1 else contsLoop L tx count cs r.1

/-- The buckets `lbs` hold no key. -/
def AllEmpty (tx : Tx) (lbs : List (GoString × Char)) : Prop :=
  ∀ lb ∈ lbs, tx.keysOf lb.1 = []

/-- What a run of the bucket loop of container `c` from state `st` to `out`
achieves when `lv` are the non-inhumed addresses it has before it, `amb` are the
buckets of the container, `empty` says that it has no key before it and `cpN` is
the tag of the last bucket it has before it. The result grows by the first
addresses of `lv`; when that fills it, the loops are left with the cursor on the
key of the last address, behind which the rest of `lv` lies; else the run ends with
the tag `cpN`, and either no key was met and the cursor is unchanged, or the cursor
is on the last key met and, read with the tag of the last bucket, has nothing
behind it. -/
def PostB (L : Layout) (tx : Tx) (n : Nat) (c : GoString) (amb : List (GoString × Char))
    (lv : List Address) (empty : Prop) (cpN : Char) (st : ScanState)
    (out : ScanState × Bool) : Prop :=
  out.1.result = st.result ++ lv.take (n - st.result.length) ∧
  out.1.unique = st.unique ∧
  (n ≤ st.result.length + lv.length →
    out.2 = true ∧ ∃ lb ∈ amb, ∃ k ∈ tx.keysOf lb.1,
      out.1.cursor = c ++ ['/'] ++ k ∧ out.1.cursorPrefix = lb.2 ∧
      bucketsLiveAfter L tx c amb lb.2 k = lv.drop (n - st.result.length)) ∧
  (st.result.length + lv.length < n →
    out.2 = false ∧ out.1.threshold = true ∧ out.1.cursorPrefix = cpN ∧
    ((empty ∧ out.1.cursor = st.cursor) ∨
      ∃ lb ∈ amb, ∃ k ∈ tx.keysOf lb.1, out.1.cursor = c ++ ['/'] ++ k ∧
        ∀ lastlb, amb.getLast? = some lastlb →
          bucketsLiveAfter L tx c amb lastlb.2 k = []))

/-- The containers `cs` hold no key in their three buckets. -/
def AllEmptyC (L : Layout) (tx : Tx) (cs : List GoString) : Prop :=
  ∀ c ∈ cs, AllEmpty tx (lookupBuckets L c)

/-- What a run of the container loop achieves, from a state with result `dst`,
cursor `cur0` and tag `cp0` to the state `out`, when `lv` are the non-inhumed
addresses it has before it, `amb` are the containers of the walk and `empty` says
that it has no key before it. The result grows by the first addresses of `lv`; when
that fills it, the cursor is on the key of the last address, with the tag of its
bucket, and the rest of `lv` lies behind it; else either no key was met and the
cursor is unchanged, or the cursor is on the last key met, with the storage-group
tag, and nothing lies behind it. -/
def PostC (L : Layout) (tx : Tx) (n : Nat) (amb : List GoString) (lv : List Address)
    (empty : Prop) (dst : List Address) (cur0 : GoString) (cp0 : Char)
    (out : ScanState) : Prop :=
  out.result = dst ++ lv.take (n - dst.length) ∧
  (n ≤ dst.length + lv.length →
    ∃ c ∈ amb, ∃ lb ∈ lookupBuckets L c, ∃ k ∈ tx.keysOf lb.1,
      out.cursor = c ++ ['/'] ++ k ∧ out.cursorPrefix = lb.2 ∧
      liveAfterIn L tx amb lb.2 c k = lv.drop (n - dst.length)) ∧
  (dst.length + lv.length < n →
    (empty ∧ out.cursor = cur0 ∧
        (out.cursorPrefix = cp0 ∨ out.cursorPrefix = cursorPrefixSG)) ∨
      ∃ c ∈ amb, ∃ lb ∈ lookupBuckets L c, ∃ k ∈ tx.keysOf lb.1,
        out.cursor = c ++ ['/'] ++ k ∧ out.cursorPrefix = cursorPrefixSG ∧
        liveAfterIn L tx amb cursorPrefixSG c k = [])

/-- A cursor position of the index: one of the three tags, a container of the index
and a key of one of its three buckets. -/
def IsPosition (L : Layout) (tx : Tx) (tag : Char) (c k : GoString) : Prop :=
  (tag = cursorPrefixPrimary ∨ tag = cursorPrefixSG ∨ tag = cursorPrefixTombstone) ∧
    c ∈ containers L tx ∧ ∃ lb ∈ lookupBuckets L c, k ∈ tx.keysOf lb.1

/-- The cursor `cursor` stands at a place of the index behind which the non-inhumed
addresses `rest` lie: the empty cursor before all of them, or the cursor of a
position of the index. -/
def CursorAt (L : Layout) (tx : Tx) (cursor : GoString) (rest : List Address) : Prop :=
  (cursor = [] ∧ rest = allLive L tx) ∨
    ∃ tag c k, IsPosition L tx tag c k ∧ cursor = tag :: (c ++ ['/'] ++ k) ∧
      rest = liveAfter L tx tag c k

instance (tx : Tx) : Decidable tx.Sorted := by
  unfold Tx.Sorted; infer_instance

instance (L : Layout) (tx : Tx) : Decidable (tx.AllKeysParse L) := by
  unfold Tx.AllKeysParse; infer_instance

instance (L : Layout) (tx : Tx) : Decidable (tx.DisjointPartitions L) := by
  unfold Tx.DisjointPartitions; infer_instance

instance (L : Layout) (tx : Tx) : Decidable (tx.SeekFindsContainer L) := by
  unfold Tx.SeekFindsContainer; infer_instance

/-- The layout takes the container of a top-level key from the text before the
first `_` of the key. -/
def Layout.SplitsAtUnderscore (L : Layout) : Prop :=
  ∀ name c, L.containerOf name = some c → c = name.takeWhile (fun x => x != '_')

/-- No container identifier of the index is a proper prefix of another. -/
def Tx.PrefixFree (L : Layout) (tx : Tx) : Prop :=
  ∀ c ∈ containers L tx, ∀ d ∈ containers L tx, c <+: d → c = d

/-- A client that follows cursors from `cursor` until `ErrEndOfListing`: the pages
it gets, `none` when a call fails otherwise or `fuel` calls do not reach the end. -/
def paginate (L : Layout) (tx : Tx) (n : Nat) : Nat → GoString → Option (List (List Address))
  | 0, _ => none
  | fuel + 1, cursor =>
    match ListWithCursor L tx n cursor with
    | (_, _, some .errEndOfListing) => some []
    | (_, _, some _) => none
    | (page, cur, none) => (paginate L tx n fuel cur).map (fun ps => page :: ps)

/-- The cursors a client gets when it starts from the empty cursor and follows the
cursors of successful calls with count `n`, each with the addresses returned up to
that cursor. -/
inductive Reach (L : Layout) (tx : Tx) (n : Nat) : GoString → List Address → Prop where
  | start : Reach L tx n [] []
  | step (cursor : GoString) (acc page : List Address) (cur : GoString) :
      Reach L tx n cursor acc → ListWithCursor L tx n cursor = (page, cur, none) →
      Reach L tx n cur (acc ++ page)

/-- What the listing guarantees of a result list: at most `count` addresses, none
of them with a positive graveyard marker. -/
def ResultOk (tx : Tx) (count : Nat) (res : List Address) : Prop :=
  res.length ≤ count ∧ ∀ a ∈ res, inGraveyard tx a = 0

/-- The two cursor-format errors. -/
def isCursorFormatError : ListError → Bool
  | .invalidCursorPrefix _ => true
  | .invalidCursorAddress => true
  | .errEndOfListing => false

end Metabase

namespace Metabase

/-! ## What a scan yields on any index -/

/-- The addresses a scan of the keys `ks` of a partition yields when the count does
not cut it short: the non-inhumed ones among the keys before the first key that
does not parse. -/
def scannedLive (L : Layout) (tx : Tx) (pfx : GoString) (ks : List GoString) : List Address :=
  liveOf L tx pfx (ks.takeWhile (fun k => (parseAddress L (pfx ++ k)).isSome))

/-- The addresses a scan of the buckets `lbs` of container `c` yields, bucket after
bucket. -/
def bucketsScanned (L : Layout) (tx : Tx) (c : GoString) (lbs : List (GoString × Char)) :
    List Address :=
  lbs.flatMap (fun lb => scannedLive L tx (c ++ ['/']) (tx.keysOf lb.1))

/-- The addresses a scan of the three partitions of container `c` yields. -/
def containerScanned (L : Layout) (tx : Tx) (c : GoString) : List Address :=
  bucketsScanned L tx c (lookupBuckets L c)

/-- The addresses a scan of the buckets `lbs` of container `c` yields when it resumes
at (`tag`, `k`): the buckets before the tagged one are skipped, the tagged bucket is
read behind the key a seek to `k` lands on, the later buckets from their first key. -/
def bucketsScannedAfter (L : Layout) (tx : Tx) (c : GoString) (lbs : List (GoString × Char))
    (tag : Char) (k : GoString) : List Address :=
  match lbs.dropWhile (fun lb => lb.2 != tag) with
  | [] => []
  | lb :: rest =>
    scannedLive L tx (c ++ ['/']) (next (seek (tx.keysOf lb.1) k)) ++ bucketsScanned L tx c rest

/-- The addresses a call yields when the count does not cut it short, for a cursor
that passed the checks: from the empty cursor every container in full; from a cursor
the first container the walk reaches behind the cursor position, then the later
containers in full. -/
def scanYield (L : Layout) (tx : Tx) : Option (Char × GoString × Address) → List Address
  | none => (containers L tx).flatMap (containerScanned L tx)
  | some (tag, text, a) =>
    match visitOrder L (seek tx.names a.cid) [] with
    | [] => []
    | c :: cs =>
      bucketsScannedAfter L tx c (lookupBuckets L c) tag (stringsReplace1 text (c ++ ['/'])) ++
        cs.flatMap (containerScanned L tx)

/-- The cursor text of `st` is the text of a key of a partition of a container
among `amb`. -/
def KeyCursor (L : Layout) (tx : Tx) (amb : List GoString) (st : ScanState) : Prop :=
  ∃ c ∈ amb, ∃ lb ∈ lookupBuckets L c, ∃ k ∈ tx.keysOf lb.1, st.cursor = c ++ ['/'] ++ k

/-- The state `st` holds `n` addresses, and the last one is the non-inhumed address
of a key of a partition of a container among `amb`; the cursor text is the text of
that key and the tag is the tag of that partition. -/
def FullPage (L : Layout) (tx : Tx) (amb : List GoString) (n : Nat) (st : ScanState) : Prop :=
  ∃ c ∈ amb, ∃ lb ∈ lookupBuckets L c, ∃ k ∈ tx.keysOf lb.1, ∃ a,
    parseAddress L (c ++ ['/'] ++ k) = some a ∧ inGraveyard tx a = 0 ∧
    st.result.getLast? = some a ∧ st.cursor = c ++ ['/'] ++ k ∧
    st.cursorPrefix = lb.2 ∧ st.result.length = n

/-- The state `st` holds fewer than `n` addresses, and if it holds any, the cursor
text is the text of a key of the index and the tag is the storage-group tag. -/
def ShortPage (L : Layout) (tx : Tx) (amb : List GoString) (n : Nat) (st : ScanState) : Prop :=
  st.result.length < n ∧
    (st.result ≠ [] → KeyCursor L tx amb st ∧ st.cursorPrefix = cursorPrefixSG)

/-- The cursor passes the checks of `listWithCursor` and is read as `dc`: the empty
cursor as `none`, a cursor of one of the three tags and a text that parses as an
address as that tag, text and address. -/
def CursorDecodes (L : Layout) (cursor : GoString)
    (dc : Option (Char × GoString × Address)) : Prop :=
  (cursor = [] ∧ dc = none) ∨
    ∃ cp rest a, cursor = cp :: rest ∧
      (cp = cursorPrefixPrimary ∨ cp = cursorPrefixSG ∨ cp = cursorPrefixTombstone) ∧
      parseAddress L rest = some a ∧ dc = some (cp, rest, a)

/-- The containers a call walks over: all of them from the empty cursor, else those
the walk reaches from the top-level key a seek to the container of the cursor lands
on. -/
def visited (L : Layout) (tx : Tx) : Option (Char × GoString × Address) → List GoString
  | none => containers L tx
  | some (_, _, a) => visitOrder L (seek tx.names a.cid) []

/-- The place of a partition in the scan of a container: primary, tombstone,
storage-group. -/
def tagRank (tag : Char) : Nat :=
  if tag = cursorPrefixPrimary then 0
  else if tag = cursorPrefixTombstone then 1
  else if tag = cursorPrefixSG then 2
  else 3

/-- The entries (container, partition tag, key) of the index whose address is not
inhumed, container after container, partition after partition, in key order. -/
def liveEntries (L : Layout) (tx : Tx) : List (GoString × Char × GoString) :=
  (containers L tx).flatMap (fun c =>
    (lookupBuckets L c).flatMap (fun lb =>
      ((tx.keysOf lb.1).filter (fun k => (liveKey L tx (c ++ ['/']) k).isSome)).map
        (fun k => (c, lb.2, k))))

/-- The place of the first occurrence of `c` in `l`, counted from 0; the length of
`l` when `c` does not occur. -/
def firstIndex : List GoString → GoString → Nat
  | [], _ => 0
  | x :: xs, c => if x = c then 0 else firstIndex xs c + 1

/-- The address of an entry. -/
def entryAddress (e : GoString × Char × GoString) : Address := ⟨e.1, e.2.2⟩

/-- The order of the listing on entries: by container in order of first appearance
among the top-level keys, then by partition, then by key. -/
def EntryLt (L : Layout) (tx : Tx) (e1 e2 : GoString × Char × GoString) : Prop :=
  firstIndex (containers L tx) e1.1 < firstIndex (containers L tx) e2.1 ∨
    (e1.1 = e2.1 ∧
      (tagRank e1.2.1 < tagRank e2.2.1 ∨ (e1.2.1 = e2.2.1 ∧ strLt e1.2.2 e2.2.2 = true)))

instance (L : Layout) (tx : Tx) (e1 e2 : GoString × Char × GoString) :
    Decidable (EntryLt L tx e1 e2) := by
  unfold EntryLt; infer_instance

/-- The last text of `l`, or `d` when `l` is empty. -/
def lastD (l : List GoString) (d : GoString) : GoString :=
  (l.getLast?).getD d

/-- The key texts `c/k` of the buckets `lbs` of container `c`, bucket after bucket,
in key order. -/
def bucketsTexts (tx : Tx) (c : GoString) (lbs : List (GoString × Char)) : List GoString :=
  lbs.flatMap (fun lb => (tx.keysOf lb.1).map (fun k => c ++ ['/'] ++ k))

/-- The key texts of the three partitions of container `c`. -/
def containerTexts (L : Layout) (tx : Tx) (c : GoString) : List GoString :=
  bucketsTexts tx c (lookupBuckets L c)

/-- The key texts of the buckets `lbs` of container `c` that a scan resumed at
(`tag`, `k`) goes through: in the tagged bucket the keys behind the one the seek
lands on, then the later buckets in full. -/
def bucketsTextsAfter (tx : Tx) (c : GoString) (lbs : List (GoString × Char))
    (tag : Char) (k : GoString) : List GoString :=
  match lbs.dropWhile (fun lb => lb.2 != tag) with
  | [] => []
  | lb :: rest =>
    (next (seek (tx.keysOf lb.1) k)).map (fun x => c ++ ['/'] ++ x) ++ bucketsTexts tx c rest

/-- The key texts a call goes through when neither the count nor a key that does
not parse cuts it short, in the order of the scan. -/
def scanTexts (L : Layout) (tx : Tx) : Option (Char × GoString × Address) → List GoString
  | none => (containers L tx).flatMap (containerTexts L tx)
  | some (tag, text, a) =>
    match visitOrder L (seek tx.names a.cid) [] with
    | [] => []
    | c :: cs =>
      bucketsTextsAfter tx c (lookupBuckets L c) tag (stringsReplace1 text (c ++ ['/'])) ++
        cs.flatMap (containerTexts L tx)

/-- The cursor text the loops of `listWithCursor` start with. -/
def startText : Option (Char × GoString × Address) → GoString
  | none => []
  | some (_, text, _) => text

end Metabase

/-! # Properties -/

namespace Blobstor

/-! ## Range reads -/

theorem getRangeBig_trace (b : BlobStor) (prm : GetRangePrm) :
    (getRangeBig b prm).2 = [.fsTree] := by
  unfold getRangeBig
  cases b.fsTreeGet prm.address with
  | error err => dsimp only; split <;> rfl
  | ok raw =>
    dsimp only
    cases b.decompress raw with
    | error err => rfl
    | ok data =>
      dsimp only
      cases b.unmarshal data with
      | error err => rfl
      | ok obj => dsimp only; split <;> rfl

theorem getRangeBig_small_irrelevant (b b2 : BlobStor) (prm : GetRangePrm)
    (h1 : b2.fsTreeGet = b.fsTreeGet) (h2 : b2.decompress = b.decompress)
    (h3 : b2.unmarshal = b.unmarshal) :
    getRangeBig b2 prm = getRangeBig b prm := by
  unfold getRangeBig
  rw [h1, h2, h3]

theorem outOfRangeTest_iff (pLen ln off : Nat) (hl : ln < u64)
    (ho : off < u64) :
    outOfRangeTest pLen ln off = true ↔ (u64 - 1 < off + ln ∨ pLen < off + ln) := by
  unfold outOfRangeTest
  simp only [Bool.or_eq_true, decide_eq_true_eq]
  unfold u64 at *
  by_cases hov : off + ln < 2 ^ 64
  · rw [Nat.add_comm ln off, Nat.mod_eq_of_lt hov]
    omega
  · have hmod : (ln + off) % 2 ^ 64 = ln + off - 2 ^ 64 := by
      rw [Nat.mod_eq_sub_mod (by omega)]
      exact Nat.mod_eq_of_lt (by omega)
    rw [hmod]
    omega

theorem getRangeBig_readable (b : BlobStor) (prm : GetRangePrm) (raw data : Bytes)
    (obj : Object) (hget : b.fsTreeGet prm.address = .ok raw)
    (hdec : b.decompress raw = .ok data) (hun : b.unmarshal data = .ok obj) :
    getRangeBig b prm =
      if outOfRangeTest (obj.payload.length % u64) prm.range.length prm.range.offset then
        (.error .objectOutOfRange, [.fsTree])
      else
        (.ok ⟨sliceFromTo obj.payload prm.range.offset
          ((prm.range.offset + prm.range.length) % u64)⟩, [.fsTree]) := by
  unfold getRangeBig
  rw [hget]; dsimp only
  rw [hdec]; dsimp only
  rw [hun]

theorem GetRange_of_big (b : BlobStor) (prm : GetRangePrm)
    (hsid : prm.storageID = none ∨ prm.storageID = some [])
    (hbig : ∀ err, (getRangeBig b prm).1 = .error err → errorsAsObjectNotFound err = false) :
    GetRange b prm = getRangeBig b prm := by
  unfold GetRange
  rcases hsid with h | h
  · rw [h]; dsimp only
    rcases hb : getRangeBig b prm with ⟨r, tr⟩
    cases r with
    | ok res => rfl
    | error err =>
      have := hbig err (by rw [hb])
      simp [this]
  · rw [h]; simp

/-- C1. Range correctness: when the large store holds a record for the address that
decompresses and unmarshals to an object with payload `P`, and the range `(o, l)`
satisfies `o + l <= len(P)`, then `GetRange` with the locator absent or
present-and-empty succeeds, touches the file tree only, and returns exactly
`P[o : o+l]`, which has length `l` (and is empty when `l = 0`). -/
theorem GetRange_valid_range (b : BlobStor) (prm : GetRangePrm) (raw data : Bytes)
    (obj : Object) (hget : b.fsTreeGet prm.address = .ok raw)
    (hdec : b.decompress raw = .ok data) (hun : b.unmarshal data = .ok obj)
    (hlen : obj.payload.length < u64)
    (hrange : prm.range.offset + prm.range.length ≤ obj.payload.length)
    (hsid : prm.storageID = none ∨ prm.storageID = some []) :
    GetRange b prm =
        (.ok ⟨(obj.payload.drop prm.range.offset).take prm.range.length⟩, [.fsTree]) ∧
      ((obj.payload.drop prm.range.offset).take prm.range.length).length = prm.range.length ∧
      (prm.range.length = 0 →
        (obj.payload.drop prm.range.offset).take prm.range.length = []) := by
  have htest : outOfRangeTest (obj.payload.length % u64) prm.range.length prm.range.offset
      = false := by
    rw [Bool.eq_false_iff]
    intro h
    rw [outOfRangeTest_iff _ _ _ (by omega) (by omega), Nat.mod_eq_of_lt hlen] at h
    omega
  have hbig := getRangeBig_readable b prm raw data obj hget hdec hun
  rw [htest] at hbig
  simp only [Bool.false_eq_true, if_false] at hbig
  have hslice : sliceFromTo obj.payload prm.range.offset
      ((prm.range.offset + prm.range.length) % u64)
      = (obj.payload.drop prm.range.offset).take prm.range.length := by
    unfold sliceFromTo
    rw [Nat.mod_eq_of_lt (by omega), List.drop_take]
    simp
  rw [hslice] at hbig
  refine ⟨?_, ?_, ?_⟩
  · rw [GetRange_of_big b prm hsid, hbig]
    intro err herr
    rw [hbig] at herr
    cases herr
  · rw [List.length_take, List.length_drop]
    omega
  · intro h0
    rw [h0, List.take_zero]

/-- The record table of the examples: one object with payload `[10, 20, 30, 40]`. -/
theorem GetRange_valid_range_witness :
    GetRange (demoStore [(demoAddr, [10, 20, 30, 40])] []) ⟨demoAddr, ⟨1, 2⟩, none⟩ =
      (.ok ⟨[20, 30]⟩, [.fsTree]) :=
  (GetRange_valid_range (demoStore [(demoAddr, [10, 20, 30, 40])] [])
    ⟨demoAddr, ⟨1, 2⟩, none⟩ [10, 20, 30, 40] [10, 20, 30, 40] ⟨[10, 20, 30, 40]⟩
    rfl rfl rfl (by unfold u64; decide) (by decide) (Or.inl rfl)).1

/-- C2. Range rejection: for an object readable from the large store with payload
`P` and `uint64` values `o`, `l`, the wrap-around test of the code holds exactly
when `o + l` exceeds `2^64 - 1` or `len(P)`; `getRangeBig`, and `GetRange` with the
locator absent or empty, fail with `ObjectOutOfRange` exactly in that case; that
error is not an `ObjectNotFound`, and the call touched the file tree only. -/
theorem GetRange_out_of_range_iff (b : BlobStor) (prm : GetRangePrm) (raw data : Bytes)
    (obj : Object) (hget : b.fsTreeGet prm.address = .ok raw)
    (hdec : b.decompress raw = .ok data) (hun : b.unmarshal data = .ok obj)
    (hlen : obj.payload.length < u64) (ho : prm.range.offset < u64)
    (hl : prm.range.length < u64)
    (hsid : prm.storageID = none ∨ prm.storageID = some []) :
    (outOfRangeTest (obj.payload.length % u64) prm.range.length prm.range.offset = true ↔
        (u64 - 1 < prm.range.offset + prm.range.length ∨
          obj.payload.length < prm.range.offset + prm.range.length)) ∧
      ((getRangeBig b prm).1 = .error .objectOutOfRange ↔
        (u64 - 1 < prm.range.offset + prm.range.length ∨
          obj.payload.length < prm.range.offset + prm.range.length)) ∧
      ((GetRange b prm).1 = .error .objectOutOfRange ↔
        (u64 - 1 < prm.range.offset + prm.range.length ∨
          obj.payload.length < prm.range.offset + prm.range.length)) ∧
      ((u64 - 1 < prm.range.offset + prm.range.length ∨
          obj.payload.length < prm.range.offset + prm.range.length) →
        GetRange b prm = (.error .objectOutOfRange, [.fsTree])) ∧
      errorsAsObjectNotFound .objectOutOfRange = false ∧
      GoError.objectOutOfRange ≠ GoError.objectNotFound := by
  have htest := outOfRangeTest_iff (obj.payload.length % u64) prm.range.length
    prm.range.offset hl ho
  rw [Nat.mod_eq_of_lt hlen] at htest
  have hbig := getRangeBig_readable b prm raw data obj hget hdec hun
  rw [Nat.mod_eq_of_lt hlen] at hbig ⊢
  have hG : GetRange b prm = getRangeBig b prm := by
    apply GetRange_of_big b prm hsid
    intro err herr
    rw [hbig] at herr
    split at herr
    · cases herr; rfl
    · cases herr
  have hbigiff : (getRangeBig b prm).1 = .error .objectOutOfRange ↔
      (u64 - 1 < prm.range.offset + prm.range.length ∨
        obj.payload.length < prm.range.offset + prm.range.length) := by
    rw [← htest, hbig]
    by_cases ht : outOfRangeTest obj.payload.length prm.range.length prm.range.offset = true
    · simp [ht]
    · simp [ht]
  refine ⟨htest, hbigiff, ?_, ?_, rfl, by decide⟩
  · rw [hG]; exact hbigiff
  · intro hcond
    rw [hG, hbig, if_pos (htest.2 hcond)]

/-- The range `(3, 2)` on a payload of four bytes is rejected; so is a range whose
sum wraps around. -/
theorem GetRange_out_of_range_iff_witness :
    GetRange (demoStore [(demoAddr, [10, 20, 30, 40])] []) ⟨demoAddr, ⟨3, 2⟩, none⟩ =
      (.error .objectOutOfRange, [.fsTree]) :=
  (GetRange_out_of_range_iff (demoStore [(demoAddr, [10, 20, 30, 40])] [])
    ⟨demoAddr, ⟨3, 2⟩, none⟩ [10, 20, 30, 40] [10, 20, 30, 40] ⟨[10, 20, 30, 40]⟩
    rfl rfl rfl (by unfold u64; decide) (by unfold u64; decide) (by unfold u64; decide)
    (Or.inl rfl)).2.2.2.1 (Or.inr (by decide))

/-- C3. No masking: with the locator absent, when the large-store read path fails
with an error that is not an `ObjectNotFound`, `GetRange` returns that error, only
the file tree was touched, and the result is the same whatever the small store is.
This covers a file-tree error other than file-not-found, a decompression failure
and an unmarshal failure (their cause not being an `ObjectNotFound`), and
`ObjectOutOfRange`. -/
theorem GetRange_no_masking (b : BlobStor) (prm : GetRangePrm)
    (hsid : prm.storageID = none) :
    (∀ err, (getRangeBig b prm).1 = .error err → errorsAsObjectNotFound err = false →
        GetRange b prm = (.error err, [.fsTree]) ∧
        ∀ small, GetRange ⟨b.fsTreeGet, b.decompress, b.unmarshal, small⟩ prm
          = (.error err, [.fsTree])) ∧
      (∀ cause, b.fsTreeGet prm.address = .error cause →
        errorsIsErrFileNotFound cause = false → errorsAsObjectNotFound cause = false →
        GetRange b prm =
          (.error (.wrap "could not read object from fs tree" cause), [.fsTree])) ∧
      (∀ raw cause, b.fsTreeGet prm.address = .ok raw → b.decompress raw = .error cause →
        errorsAsObjectNotFound cause = false →
        GetRange b prm =
          (.error (.wrap "could not decompress object data" cause), [.fsTree])) ∧
      (∀ raw data cause, b.fsTreeGet prm.address = .ok raw → b.decompress raw = .ok data →
        b.unmarshal data = .error cause → errorsAsObjectNotFound cause = false →
        GetRange b prm =
          (.error (.wrap "could not unmarshal the object" cause), [.fsTree])) ∧
      ((getRangeBig b prm).1 = .error .objectOutOfRange →
        GetRange b prm = (.error .objectOutOfRange, [.fsTree])) := by
  have key : ∀ (b : BlobStor) err, (getRangeBig b prm).1 = .error err →
      errorsAsObjectNotFound err = false → GetRange b prm = (.error err, [.fsTree]) := by
    intro b err herr hnf
    have htr := getRangeBig_trace b prm
    unfold GetRange
    rw [hsid]; dsimp only
    rcases hb : getRangeBig b prm with ⟨r, tr⟩
    rw [hb] at herr htr
    dsimp only at herr htr
    subst herr; subst htr
    simp [hnf]
  refine ⟨?_, ?_, ?_, ?_, ?_⟩
  · intro err herr hnf
    refine ⟨key b err herr hnf, ?_⟩
    intro small
    apply key _ err _ hnf
    rw [getRangeBig_small_irrelevant b ⟨b.fsTreeGet, b.decompress, b.unmarshal, small⟩ prm
      rfl rfl rfl]
    exact herr
  · intro cause hget his hnf
    apply key b
    · unfold getRangeBig; rw [hget]; simp [his]
    · simpa [errorsAsObjectNotFound] using hnf
  · intro raw cause hget hdec hnf
    apply key b
    · unfold getRangeBig; rw [hget]; dsimp only; rw [hdec]
    · simpa [errorsAsObjectNotFound] using hnf
  · intro raw data cause hget hdec hun hnf
    apply key b
    · unfold getRangeBig; rw [hget]; dsimp only; rw [hdec]; dsimp only; rw [hun]
    · simpa [errorsAsObjectNotFound] using hnf
  · intro h
    exact key b _ h rfl

/-- A store whose codec rejects every record, with the address also present in the
small store: the decompression error comes back and the small store is not read. -/
theorem GetRange_no_masking_witness :
    GetRange ⟨fun _ => .ok [1], fun _ => .error (.other "corrupt"), fun d => .ok ⟨d⟩,
        fun _ => .ok ⟨[7]⟩⟩ ⟨demoAddr, ⟨0, 1⟩, none⟩ =
      (.error (.wrap "could not decompress object data" (.other "corrupt")), [.fsTree]) :=
  (GetRange_no_masking ⟨fun _ => .ok [1], fun _ => .error (.other "corrupt"),
    fun d => .ok ⟨d⟩, fun _ => .ok ⟨[7]⟩⟩ ⟨demoAddr, ⟨0, 1⟩, none⟩ rfl).2.2.1
    [1] (.other "corrupt") rfl rfl rfl

/-- C4. Fallback: with the locator absent, when the large-store read path reports
the address missing (its error is an `ObjectNotFound`, as it is when the file tree
answers file-not-found), `GetRange` returns exactly what the small store returns
for the same request, after the file tree and then the small store were called; so
an address missing from both fails with `ObjectNotFound`, and an address held only
by the small store succeeds with the bytes of the small store. -/
theorem GetRange_fallback (b : BlobStor) (prm : GetRangePrm)
    (hsid : prm.storageID = none) :
    (∀ err, (getRangeBig b prm).1 = .error err → errorsAsObjectNotFound err = true →
        GetRange b prm = (b.blobovniczasGetRange prm, [.fsTree, .blobovniczas])) ∧
      (∀ cause, b.fsTreeGet prm.address = .error cause →
        errorsIsErrFileNotFound cause = true →
        getRangeBig b prm = (.error .objectNotFound, [.fsTree]) ∧
        GetRange b prm = (b.blobovniczasGetRange prm, [.fsTree, .blobovniczas]) ∧
        (b.blobovniczasGetRange prm = .error .objectNotFound →
          GetRange b prm = (.error .objectNotFound, [.fsTree, .blobovniczas])) ∧
        (∀ res, b.blobovniczasGetRange prm = .ok res →
          GetRange b prm = (.ok res, [.fsTree, .blobovniczas]))) := by
  have key : ∀ err, (getRangeBig b prm).1 = .error err →
      errorsAsObjectNotFound err = true →
      GetRange b prm = (b.blobovniczasGetRange prm, [.fsTree, .blobovniczas]) := by
    intro err herr hnf
    have htr := getRangeBig_trace b prm
    unfold GetRange
    rw [hsid]; dsimp only
    rcases hb : getRangeBig b prm with ⟨r, tr⟩
    rw [hb] at herr htr
    dsimp only at herr htr
    subst herr; subst htr
    simp [hnf, getRangeSmall]
  refine ⟨key, ?_⟩
  intro cause hmiss his
  have hbig : getRangeBig b prm = (.error .objectNotFound, [.fsTree]) := by
    unfold getRangeBig; rw [hmiss]; simp [his]
  have hG := key .objectNotFound (by rw [hbig]) rfl
  refine ⟨hbig, hG, ?_, ?_⟩
  · intro h; rw [hG, h]
  · intro res h; rw [hG, h]

/-- An address held only by the small store is read from it after the file tree
reported it missing. -/
theorem GetRange_fallback_witness :
    GetRange (demoStore [] [(demoAddr, [10, 20, 30, 40])]) ⟨demoAddr, ⟨1, 2⟩, none⟩ =
      (.ok ⟨[20, 30]⟩, [.fsTree, .blobovniczas]) :=
  ((GetRange_fallback (demoStore [] [(demoAddr, [10, 20, 30, 40])])
    ⟨demoAddr, ⟨1, 2⟩, none⟩ rfl).2 .errFileNotFound rfl rfl).2.2.2 ⟨[20, 30]⟩ rfl

/-- C5. With a locator present one sub-storage is tried. An empty locator gives the
result of the large-store read path, file tree only, whatever the small store is
(also when that result is `ObjectNotFound`); a non-empty locator gives the result of
the small store, small store only, whatever the file tree, codec and unmarshalling
are (also when that result is `ObjectNotFound`). -/
theorem GetRange_locator_present (b : BlobStor) (addr : Address) (rng : Range) :
    (GetRange b ⟨addr, rng, some []⟩ = getRangeBig b ⟨addr, rng, some []⟩ ∧
        (GetRange b ⟨addr, rng, some []⟩).2 = [.fsTree] ∧
        ∀ small, GetRange ⟨b.fsTreeGet, b.decompress, b.unmarshal, small⟩
          ⟨addr, rng, some []⟩ = GetRange b ⟨addr, rng, some []⟩) ∧
      (∀ x xs,
        GetRange b ⟨addr, rng, some (x :: xs)⟩ =
          (b.blobovniczasGetRange ⟨addr, rng, some (x :: xs)⟩, [.blobovniczas]) ∧
        ∀ get dec unm, GetRange ⟨get, dec, unm, b.blobovniczasGetRange⟩
          ⟨addr, rng, some (x :: xs)⟩ = GetRange b ⟨addr, rng, some (x :: xs)⟩) := by
  have hE : ∀ b : BlobStor, GetRange b ⟨addr, rng, some []⟩
      = getRangeBig b ⟨addr, rng, some []⟩ := by
    intro b; unfold GetRange; simp
  have hN : ∀ (b : BlobStor) x xs, GetRange b ⟨addr, rng, some (x :: xs)⟩
      = (b.blobovniczasGetRange ⟨addr, rng, some (x :: xs)⟩, [.blobovniczas]) := by
    intro b x xs; unfold GetRange; simp [getRangeSmall]
  refine ⟨⟨hE b, ?_, ?_⟩, ?_⟩
  · rw [hE]; exact getRangeBig_trace b _
  · intro small
    rw [hE, hE]
    exact getRangeBig_small_irrelevant b ⟨b.fsTreeGet, b.decompress, b.unmarshal, small⟩ _
      rfl rfl rfl
  · intro x xs
    refine ⟨hN b x xs, ?_⟩
    intro get dec unm
    rw [hN, hN]

end Blobstor

namespace Metabase

/-! ## Cursor listing: one call -/

theorem ListWithCursor_eq (L : Layout) (tx : Tx) (count : Nat) (cursor : GoString) :
    ListWithCursor L tx count cursor = listWithCursor L tx count cursor := by
  have hfin : ∀ st, (finish st).2.2 = none ∨ finish st = ([], [], (finish st).2.2) := by
    intro st; unfold finish; split <;> simp
  unfold ListWithCursor DB.ListWithCursor
  rcases h : listWithCursor L tx count cursor with ⟨page, cur, err⟩
  cases err with
  | none => rfl
  | some e =>
    dsimp only
    have : page = [] ∧ cur = [] := by
      unfold listWithCursor at h
      split at h
      · rcases hfin (scan L tx count none) with h1 | h1
        · rw [h] at h1; cases h1
        · rw [h] at h1; simp at h1; exact h1
      · split at h
        · split at h
          · simp at h; exact ⟨h.1, h.2.1⟩
          · rename_i a _
            rcases hfin (scan L tx count (some (_, _, a))) with h1 | h1
            · rw [h] at h1; cases h1
            · rw [h] at h1; simp at h1; exact h1
        · simp at h; exact ⟨h.1, h.2.1⟩
    rw [this.1, this.2]

theorem selectLoop_full (L : Layout) (tx : Tx) (pfx : GoString) (limit : Nat)
    (ks : List GoString) (dst : List Address) (count : Nat) (cursor : GoString)
    (h : limit ≤ count) :
    selectLoop L tx pfx limit ks dst count cursor = (dst, cursor) := by
  cases ks with
  | nil => rfl
  | cons k ks => simp [selectLoop, h]

theorem liveKey_not_inhumed (L : Layout) (tx : Tx) (pfx k : GoString) (a : Address)
    (h : liveKey L tx pfx k = some a) :
    parseAddress L (pfx ++ k) = some a ∧ inGraveyard tx a = 0 := by
  unfold liveKey at h
  split at h
  · cases h
  · split at h
    · cases h
    · cases h
      rename_i hp hg
      exact ⟨hp, by omega⟩

/-- The result of the loop of `selectNFromBucket`: the keys up to the first one that
does not parse are filtered by the graveyard and appended up to the limit. -/
theorem selectLoop_result (L : Layout) (tx : Tx) (pfx : GoString) (limit : Nat)
    (ks : List GoString) (dst : List Address) (cursor : GoString) :
    (selectLoop L tx pfx limit ks dst dst.length cursor).1 =
      dst ++ (liveOf L tx pfx
        (ks.takeWhile (fun k => (parseAddress L (pfx ++ k)).isSome))).take
          (limit - dst.length) := by
  induction ks generalizing dst cursor with
  | nil => simp [selectLoop, liveOf]
  | cons k ks ih =>
    by_cases hfull : limit ≤ dst.length
    · rw [selectLoop_full _ _ _ _ _ _ _ _ hfull]
      simp [Nat.sub_eq_zero_of_le hfull]
    · have hlt : dst.length < limit := by omega
      unfold selectLoop
      simp only [ge_iff_le, hfull, if_false]
      cases hp : parseAddress L (pfx ++ k) with
      | none => simp [hp, liveOf]
      | some a =>
        simp only [List.takeWhile_cons, hp, Option.isSome_some, if_true]
        by_cases hg : inGraveyard tx a > 0
        · simp only [hg, if_true]
          rw [ih]
          simp [liveOf, liveKey, hp, hg]
        · simp only [hg, if_false]
          have hlen : dst.length + 1 = (dst ++ [a]).length := by simp
          rw [hlen, ih]
          have hm : limit - dst.length = (limit - (dst ++ [a]).length) + 1 := by
            simp; omega
          rw [hm]
          simp [liveOf, liveKey, hp, hg]

theorem selectLoop_ok (L : Layout) (tx : Tx) (pfx : GoString) (limit : Nat)
    (ks : List GoString) (dst : List Address) (cursor : GoString)
    (h : ResultOk tx limit dst) :
    ResultOk tx limit (selectLoop L tx pfx limit ks dst dst.length cursor).1 := by
  rw [selectLoop_result]
  refine ⟨?_, ?_⟩
  · have := h.1
    simp only [List.length_append, List.length_take]
    omega
  · intro a ha
    rcases List.mem_append.1 ha with ha | ha
    · exact h.2 a ha
    · have ha2 := List.mem_of_mem_take ha
      unfold liveOf at ha2
      rcases List.mem_filterMap.1 ha2 with ⟨k, _, hk⟩
      exact (liveKey_not_inhumed L tx pfx k a hk).2

theorem selectNFromBucket_ok (L : Layout) (tx : Tx) (name pfx : GoString)
    (dst : List Address) (limit : Nat) (cursor : GoString) (threshold : Bool)
    (h : ResultOk tx limit dst) :
    ResultOk tx limit (selectNFromBucket L tx name pfx dst limit cursor threshold).1 := by
  unfold selectNFromBucket
  split
  · exact h
  · exact selectLoop_ok L tx pfx limit _ dst cursor h

theorem bucketsLoop_ok (L : Layout) (tx : Tx) (count : Nat) (pfx : GoString)
    (lbs : List (GoString × Char)) (st : ScanState) (h : ResultOk tx count st.result) :
    ResultOk tx count (bucketsLoop L tx count pfx lbs st).1.result := by
  induction lbs generalizing st with
  | nil => exact h
  | cons lb lbs ih =>
    unfold bucketsLoop
    split
    · exact ih st h
    · have hsel := selectNFromBucket_ok L tx lb.1 pfx st.result count st.cursor
        st.threshold h
      dsimp only
      split
      · exact hsel
      · exact ih _ hsel

theorem namesLoop_ok (L : Layout) (tx : Tx) (count : Nat) (names : List GoString)
    (st : ScanState) (h : ResultOk tx count st.result) :
    ResultOk tx count (namesLoop L tx count names st).result := by
  induction names generalizing st with
  | nil => exact h
  | cons name names ih =>
    unfold namesLoop
    split
    · exact ih st h
    · rename_i cid _
      dsimp only
      have hb := bucketsLoop_ok L tx count (cid ++ ['/']) (lookupBuckets L cid)
        ⟨st.result, st.cursor, st.cursorPrefix, st.threshold, cid :: st.unique⟩ h
      split
      · exact hb
      · exact ih _ hb

theorem scan_ok (L : Layout) (tx : Tx) (count : Nat)
    (c : Option (Char × GoString × Address)) :
    ResultOk tx count (scan L tx count c).result := by
  have h0 : ResultOk tx count [] := ⟨Nat.zero_le _, by simp⟩
  unfold scan
  split
  · exact namesLoop_ok L tx count _ _ h0
  · exact namesLoop_ok L tx count _ _ h0

/-- The shape of what `listWithCursor` returns: an error with nil list and empty
cursor, or the non-empty result of the loops with tag and cursor. -/
theorem listWithCursor_shape (L : Layout) (tx : Tx) (count : Nat) (cursor : GoString) :
    (∃ err, listWithCursor L tx count cursor = ([], [], some err)) ∨
      ∃ c, listWithCursor L tx count cursor =
          ((scan L tx count c).result,
            (scan L tx count c).cursorPrefix :: (scan L tx count c).cursor, none) ∧
        (scan L tx count c).result ≠ [] := by
  have hfin : ∀ c, (finish (scan L tx count c) = ([], [], some .errEndOfListing)) ∨
      (finish (scan L tx count c) = ((scan L tx count c).result,
            (scan L tx count c).cursorPrefix :: (scan L tx count c).cursor, none) ∧
        (scan L tx count c).result ≠ []) := by
    intro c
    unfold finish
    split
    · exact Or.inl rfl
    · rename_i h
      refine Or.inr ⟨rfl, ?_⟩
      intro h0; rw [h0] at h; exact h rfl
  unfold listWithCursor
  split
  · rcases hfin none with h | h
    · exact Or.inl ⟨_, h⟩
    · exact Or.inr ⟨none, h⟩
  · split
    · split
      · exact Or.inl ⟨_, rfl⟩
      · rename_i a _
        rcases hfin (some (_, _, a)) with h | h
        · exact Or.inl ⟨_, h⟩
        · exact Or.inr ⟨_, h⟩
    · exact Or.inl ⟨_, rfl⟩

/-! ## Keys, seeks and address text -/

theorem strLt_irrefl (s : GoString) : strLt s s = false := by
  induction s with
  | nil => rfl
  | cons a s ih => simp [strLt, ih]

theorem seek_next_exact (front post : List GoString) (k : GoString)
    (h : (front ++ k :: post).Pairwise (fun a b => strLt a b = true)) :
    next (seek (front ++ k :: post) k) = post := by
  unfold next seek
  induction front with
  | nil => simp [List.dropWhile_cons, strLt_irrefl]
  | cons f front ih =>
    have hf : strLt f k = true := by
      have := (List.pairwise_cons.1 h).1 k (by simp)
      exact this
    simp only [List.cons_append, List.dropWhile_cons, hf, if_true]
    exact ih (List.pairwise_cons.1 h).2

theorem seek_next_suffix (keys : List GoString) (k : GoString) :
    ∃ front, keys = front ++ next (seek keys k) := by
  unfold next seek
  have hsuf : ((keys.dropWhile (fun x => strLt x k)).drop 1) <:+ keys :=
    (List.drop_suffix _ _).trans (List.dropWhile_suffix _)
  rcases hsuf with ⟨fr, hfr⟩
  exact ⟨fr, hfr.symm⟩

theorem stringsReplace1_append (pfx k : GoString) : stringsReplace1 (pfx ++ k) pfx = k := by
  have hp : pfx.isPrefixOf (pfx ++ k) = true := by
    rw [List.isPrefixOf_iff_prefix]
    exact List.prefix_append _ _
  cases hpk : pfx ++ k with
  | nil =>
    have : pfx = [] ∧ k = [] := List.append_eq_nil.1 hpk
    rw [this.1, this.2]
    simp [stringsReplace1]
  | cons a rest =>
    rw [stringsReplace1, ← hpk, if_pos hp]
    simp

theorem splitSlash_ne_nil (s : GoString) : splitSlash s ≠ [] := by
  cases s with
  | nil => simp [splitSlash]
  | cons c rest =>
    unfold splitSlash
    split
    · simp
    · split <;> simp

theorem splitSlash_single (s y : GoString) (h : splitSlash s = [y]) : y = s := by
  induction s generalizing y with
  | nil => simp [splitSlash] at h; exact h
  | cons c rest ih =>
    unfold splitSlash at h
    split at h
    · simp at h
      exact absurd h.2 (splitSlash_ne_nil rest)
    · split at h
      · simp at h; rename_i h0; exact absurd h0 (splitSlash_ne_nil rest)
      · rename_i p ps hps
        simp at h
        rw [h.2] at hps
        rw [← h.1, ih p hps]

theorem splitSlash_sep_length (a b : GoString) : 2 ≤ (splitSlash (a ++ '/' :: b)).length := by
  induction a with
  | nil =>
    have := splitSlash_ne_nil b
    simp only [List.nil_append, splitSlash, if_true, List.length_cons]
    have := List.length_pos.2 this
    omega
  | cons c a ih =>
    simp only [List.cons_append]
    unfold splitSlash
    split
    · simp; omega
    · split
      · rename_i h0; rw [h0] at ih; simp at ih
      · rename_i p ps hps
        rw [hps] at ih
        simpa using ih

theorem splitSlash_pair (c k x y : GoString) (h : splitSlash (c ++ '/' :: k) = [x, y]) :
    x = c ∧ y = k := by
  induction c generalizing x with
  | nil =>
    simp only [List.nil_append, splitSlash, if_true] at h
    simp at h
    exact ⟨h.1, splitSlash_single k y h.2⟩
  | cons a c ih =>
    simp only [List.cons_append] at h
    unfold splitSlash at h
    split at h
    · simp at h
      have := splitSlash_sep_length c k
      rw [h.2] at this
      simp at this
    · split at h
      · simp at h
      · rename_i p ps hps
        simp at h
        rw [h.2] at hps
        have := ih p hps
        exact ⟨by rw [← h.1, this.1], this.2⟩

theorem parseAddress_text (L : Layout) (c k : GoString) (a : Address)
    (h : parseAddress L (c ++ ['/'] ++ k) = some a) : a = ⟨c, k⟩ := by
  unfold parseAddress at h
  split at h
  · rename_i x y hxy
    have hxy2 : splitSlash (c ++ '/' :: k) = [x, y] := by simpa using hxy
    have := splitSlash_pair c k x y hxy2
    split at h
    · cases h; rw [this.1, this.2]
    · cases h
  · cases h

/-! ## The loops -/

theorem bucketsLoop_unique (L : Layout) (tx : Tx) (count : Nat) (pfx : GoString)
    (lbs : List (GoString × Char)) (st : ScanState) :
    (bucketsLoop L tx count pfx lbs st).1.unique = st.unique := by
  induction lbs generalizing st with
  | nil => rfl
  | cons lb lbs ih =>
    unfold bucketsLoop
    split
    · exact ih st
    · dsimp only
      split
      · rfl
      · exact ih _

theorem namesLoop_eq_contsLoop (L : Layout) (tx : Tx) (count : Nat) (names : List GoString)
    (st : ScanState) :
    namesLoop L tx count names st = contsLoop L tx count (visitOrder L names st.unique) st := by
  induction names generalizing st with
  | nil => rfl
  | cons name names ih =>
    unfold namesLoop visitOrder
    cases hp : parseContainerID L name st.unique with
    | none => exact ih st
    | some cid =>
      dsimp only
      unfold contsLoop
      dsimp only
      split
      · rfl
      · rw [ih, bucketsLoop_unique]

theorem selectNFromBucket_true (L : Layout) (tx : Tx) (name pfx : GoString)
    (dst : List Address) (limit : Nat) (cursor : GoString) :
    selectNFromBucket L tx name pfx dst limit cursor true =
      selectLoop L tx pfx limit (tx.keysOf name) dst dst.length cursor := by
  unfold selectNFromBucket Tx.keysOf
  cases tx.bucket name with
  | none => simp [selectLoop]
  | some keys => simp

theorem selectNFromBucket_false (L : Layout) (tx : Tx) (name pfx : GoString)
    (dst : List Address) (limit : Nat) (cursor : GoString) :
    selectNFromBucket L tx name pfx dst limit cursor false =
      selectLoop L tx pfx limit (next (seek (tx.keysOf name) (stringsReplace1 cursor pfx)))
        dst dst.length cursor := by
  unfold selectNFromBucket Tx.keysOf
  cases tx.bucket name with
  | none => simp [selectLoop, next, seek]
  | some keys => simp

theorem getLast_cursor_cons (f : GoString → GoString) (k : GoString) (ks : List GoString)
    (cur : GoString) :
    (((k :: ks).getLast?).map f).getD cur = ((ks.getLast?).map f).getD (f k) := by
  cases ks with
  | nil => simp
  | cons k2 t =>
    rw [List.getLast?_cons_cons]
    cases h : (k2 :: t).getLast? with
    | none => simp at h
    | some x => simp

theorem liveOf_cons_parsed (L : Layout) (tx : Tx) (pfx k : GoString) (ks : List GoString)
    (a : Address) (hp : parseAddress L (pfx ++ k) = some a) :
    liveOf L tx pfx (k :: ks) =
      if inGraveyard tx a > 0 then liveOf L tx pfx ks else a :: liveOf L tx pfx ks := by
  unfold liveOf
  by_cases hg : inGraveyard tx a > 0
  · simp [liveKey, hp, hg]
  · simp [liveKey, hp, hg]

/-- The loop of `selectNFromBucket` on keys that all parse, when the limit is not
reached: every non-inhumed address is appended and the cursor is the last key. -/
theorem selectLoop_short (L : Layout) (tx : Tx) (pfx : GoString) (n : Nat)
    (ks : List GoString) (dst : List Address) (cur : GoString)
    (hp : ∀ k ∈ ks, (parseAddress L (pfx ++ k)).isSome = true)
    (hlt : dst.length + (liveOf L tx pfx ks).length < n) :
    selectLoop L tx pfx n ks dst dst.length cur =
      (dst ++ liveOf L tx pfx ks, ((ks.getLast?).map (fun k => pfx ++ k)).getD cur) := by
  induction ks generalizing dst cur with
  | nil => simp [selectLoop, liveOf]
  | cons k ks ih =>
    have hd : ¬ n ≤ dst.length := by omega
    obtain ⟨a, ha⟩ := Option.isSome_iff_exists.1 (hp k (by simp))
    have hp2 : ∀ k ∈ ks, (parseAddress L (pfx ++ k)).isSome = true :=
      fun x hx => hp x (by simp [hx])
    rw [getLast_cursor_cons]
    rw [liveOf_cons_parsed L tx pfx k ks a ha] at hlt ⊢
    unfold selectLoop
    simp only [ge_iff_le, hd, if_false, ha]
    by_cases hg : inGraveyard tx a > 0
    · simp only [hg, if_true] at hlt ⊢
      exact ih dst (pfx ++ k) hp2 hlt
    · simp only [hg, if_false] at hlt ⊢
      have hlen : dst.length + 1 = (dst ++ [a]).length := by simp
      rw [hlen, ih (dst ++ [a]) (pfx ++ k) hp2 (by simp at hlt ⊢; omega)]
      simp

/-- The loop of `selectNFromBucket` on keys that all parse, when the limit is
reached: it stops at the key of the address that fills the result, and that key is
the cursor. -/
theorem selectLoop_fills (L : Layout) (tx : Tx) (pfx : GoString) (n : Nat)
    (ks : List GoString) (dst : List Address) (cur : GoString)
    (hp : ∀ k ∈ ks, (parseAddress L (pfx ++ k)).isSome = true)
    (hd : dst.length < n)
    (hge : n ≤ dst.length + (liveOf L tx pfx ks).length) :
    ∃ kpre k kpost, ks = kpre ++ k :: kpost ∧
      selectLoop L tx pfx n ks dst dst.length cur =
        (dst ++ (liveOf L tx pfx ks).take (n - dst.length), pfx ++ k) ∧
      liveOf L tx pfx kpost = (liveOf L tx pfx ks).drop (n - dst.length) := by
  induction ks generalizing dst cur with
  | nil => simp [liveOf] at hge; omega
  | cons k ks ih =>
    have hd2 : ¬ n ≤ dst.length := by omega
    obtain ⟨a, ha⟩ := Option.isSome_iff_exists.1 (hp k (by simp))
    have hp2 : ∀ k ∈ ks, (parseAddress L (pfx ++ k)).isSome = true :=
      fun x hx => hp x (by simp [hx])
    rw [liveOf_cons_parsed L tx pfx k ks a ha] at hge ⊢
    unfold selectLoop
    simp only [ge_iff_le, hd2, if_false, ha]
    by_cases hg : inGraveyard tx a > 0
    · simp only [hg, if_true] at hge ⊢
      obtain ⟨kpre, k2, kpost, hsplit, hsel, hpost⟩ := ih dst (pfx ++ k) hp2 hd hge
      exact ⟨k :: kpre, k2, kpost, by rw [hsplit]; rfl, hsel, hpost⟩
    · simp only [hg, if_false] at hge ⊢
      have hlen : dst.length + 1 = (dst ++ [a]).length := by simp
      have hm : n - dst.length = (n - (dst ++ [a]).length) + 1 := by simp; omega
      by_cases hfull : (dst ++ [a]).length < n
      · obtain ⟨kpre, k2, kpost, hsplit, hsel, hpost⟩ :=
          ih (dst ++ [a]) (pfx ++ k) hp2 hfull (by simp at hge ⊢; omega)
        refine ⟨k :: kpre, k2, kpost, by rw [hsplit]; rfl, ?_, ?_⟩
        · rw [hlen, hsel, hm]; simp
        · rw [hpost, hm]; simp
      · have hn : n ≤ (dst ++ [a]).length := by omega
        refine ⟨[], k, ks, rfl, ?_, ?_⟩
        · rw [hlen, selectLoop_full _ _ _ _ _ _ _ _ hn]
          have : n - dst.length = 1 := by simp at hn; omega
          rw [this]; simp
        · have : n - dst.length = 1 := by simp at hn; omega
          rw [this]; simp

/-! ## The buckets of one container -/

theorem bucketsLive_of_allEmpty (L : Layout) (tx : Tx) (c : GoString)
    (lbs : List (GoString × Char)) (h : AllEmpty tx lbs) : bucketsLive L tx c lbs = [] := by
  unfold bucketsLive
  induction lbs with
  | nil => rfl
  | cons lb lbs ih =>
    rw [List.flatMap_cons, h lb (by simp), ih (fun x hx => h x (by simp [hx]))]
    simp [liveOf]

theorem bucketsLiveAfter_of_allEmpty (L : Layout) (tx : Tx) (c : GoString)
    (lbs : List (GoString × Char)) (tag : Char) (k : GoString) (h : AllEmpty tx lbs) :
    bucketsLiveAfter L tx c lbs tag k = [] := by
  unfold bucketsLiveAfter
  have hsuf : lbs.dropWhile (fun lb => lb.2 != tag) <:+ lbs := List.dropWhile_suffix _
  split
  · rfl
  · rename_i lb rest hdw
    rw [hdw] at hsuf
    have hlb : tx.keysOf lb.1 = [] := h lb (hsuf.subset (by simp))
    have hrest : AllEmpty tx rest := fun x hx => h x (hsuf.subset (by simp [hx]))
    rw [hlb, bucketsLive_of_allEmpty L tx c rest hrest]
    simp [liveOf, next, seek]

theorem bucketsLiveAfter_skip (L : Layout) (tx : Tx) (c : GoString)
    (pre lbs : List (GoString × Char)) (tag : Char) (k : GoString)
    (h : ∀ x ∈ pre, x.2 ≠ tag) :
    bucketsLiveAfter L tx c (pre ++ lbs) tag k = bucketsLiveAfter L tx c lbs tag k := by
  induction pre with
  | nil => rfl
  | cons x pre ih =>
    have hx : (x.2 != tag) = true := by simpa using h x (by simp)
    unfold bucketsLiveAfter at ih ⊢
    rw [List.cons_append, List.dropWhile_cons, if_pos hx]
    exact ih (fun y hy => h y (by simp [hy]))

theorem bucketsLiveAfter_head (L : Layout) (tx : Tx) (c : GoString)
    (lb : GoString × Char) (rest : List (GoString × Char)) (k : GoString) :
    bucketsLiveAfter L tx c (lb :: rest) lb.2 k =
      liveOf L tx (c ++ ['/']) (next (seek (tx.keysOf lb.1) k)) ++ bucketsLive L tx c rest := by
  unfold bucketsLiveAfter
  simp [List.dropWhile_cons]

theorem getLast?_append_cons {α : Type} (xs : List α) (y : α) (ys : List α) :
    (xs ++ y :: ys).getLast? = (y :: ys).getLast? := by
  rw [List.getLast?_append]
  cases h : (y :: ys).getLast? with
  | none => simp at h
  | some z => simp

theorem lastTag_cons (lb : GoString × Char) (rest : List (GoString × Char)) (d : Char) :
    (((lb :: rest).getLast?).map Prod.snd).getD d = ((rest.getLast?).map Prod.snd).getD lb.2 := by
  cases rest with
  | nil => simp
  | cons x t =>
    rw [List.getLast?_cons_cons]
    cases h : (x :: t).getLast? with
    | none => simp at h
    | some y => simp

/-- One bucket and then the buckets behind it: the step of the bucket loop, for a
bucket entered at the keys `ks0`, a tail of its keys. -/
theorem step_bucket (L : Layout) (tx : Tx) (n : Nat) (c : GoString)
    (pre : List (GoString × Char)) (lb : GoString × Char) (rest : List (GoString × Char))
    (front ks0 : List GoString) (st : ScanState) (thr : Bool)
    (hnodup : ((pre ++ lb :: rest).map Prod.snd).Nodup)
    (hkeys : tx.keysOf lb.1 = front ++ ks0)
    (hsorted : (tx.keysOf lb.1).Pairwise (fun a b => strLt a b = true))
    (hparse : ∀ k ∈ tx.keysOf lb.1, (parseAddress L (c ++ ['/'] ++ k)).isSome = true)
    (hd : st.result.length < n)
    (HR : ∀ st2 : ScanState, st2.threshold = true → st2.result.length < n →
      PostB L tx n c (pre ++ lb :: rest) (bucketsLive L tx c rest) (AllEmpty tx rest)
        (((rest.getLast?).map Prod.snd).getD st2.cursorPrefix) st2
        (bucketsLoop L tx n (c ++ ['/']) rest st2)) :
    PostB L tx n c (pre ++ lb :: rest)
      (liveOf L tx (c ++ ['/']) ks0 ++ bucketsLive L tx c rest)
      (ks0 = [] ∧ AllEmpty tx rest)
      ((((lb :: rest).getLast?).map Prod.snd).getD lb.2) st
      (if (selectLoop L tx (c ++ ['/']) n ks0 st.result st.result.length st.cursor).1.length ≥ n
        then
          (⟨(selectLoop L tx (c ++ ['/']) n ks0 st.result st.result.length st.cursor).1,
            (selectLoop L tx (c ++ ['/']) n ks0 st.result st.result.length st.cursor).2,
            lb.2, thr, st.unique⟩, true)
        else
          bucketsLoop L tx n (c ++ ['/']) rest
            ⟨(selectLoop L tx (c ++ ['/']) n ks0 st.result st.result.length st.cursor).1,
              (selectLoop L tx (c ++ ['/']) n ks0 st.result st.result.length st.cursor).2,
              lb.2, true, st.unique⟩) := by
  have hparse0 : ∀ k ∈ ks0, (parseAddress L (c ++ ['/'] ++ k)).isSome = true :=
    fun k hk => hparse k (by rw [hkeys]; simp [hk])
  have hpre : ∀ x ∈ pre, x.2 ≠ lb.2 := by
    intro x hx heq
    rw [List.map_append, List.nodup_append] at hnodup
    exact hnodup.2.2 (List.mem_map_of_mem Prod.snd hx)
      (by rw [heq]; simp)
  have hrestne : ∀ x ∈ rest, x.2 ≠ lb.2 := by
    intro x hx heq
    rw [List.map_append, List.nodup_append] at hnodup
    have := hnodup.2.1
    rw [List.map_cons, List.nodup_cons] at this
    exact this.1 (by rw [← heq]; exact List.mem_map_of_mem Prod.snd hx)
  have hprerest : ∀ x ∈ pre, ∀ y ∈ rest, x.2 ≠ y.2 := by
    intro x hx y hy heq
    rw [List.map_append, List.nodup_append] at hnodup
    exact hnodup.2.2 (List.mem_map_of_mem Prod.snd hx)
      (by rw [heq]; simp [List.mem_map_of_mem Prod.snd hy])
  by_cases hfill : n ≤ st.result.length + (liveOf L tx (c ++ ['/']) ks0).length
  · -- the result is filled inside this bucket
    obtain ⟨kpre, k, kpost, hsplit, hsel, hpost⟩ :=
      selectLoop_fills L tx (c ++ ['/']) n ks0 st.result st.cursor hparse0 hd hfill
    have hlen : n ≤ (st.result ++
        (liveOf L tx (c ++ ['/']) ks0).take (n - st.result.length)).length := by
      simp only [List.length_append, List.length_take]; omega
    rw [hsel]
    simp only [ge_iff_le, hlen, if_true]
    have hm : n - st.result.length ≤ (liveOf L tx (c ++ ['/']) ks0).length := by omega
    refine ⟨?_, rfl, ?_, ?_⟩
    · simp only [List.take_append_of_le_length hm]
    · intro _
      refine ⟨rfl, lb, by simp, k, by rw [hkeys, hsplit]; simp, rfl, rfl, ?_⟩
      rw [bucketsLiveAfter_skip L tx c pre _ _ _ hpre, bucketsLiveAfter_head]
      have hk : tx.keysOf lb.1 = (front ++ kpre) ++ k :: kpost := by
        rw [hkeys, hsplit]; simp
      have hs := hsorted
      rw [hk] at hs
      rw [hk, seek_next_exact _ _ _ hs, hpost, List.drop_append_of_le_length hm]
    · intro hcontra
      simp only [List.length_append] at hcontra
      omega
  · -- the bucket is exhausted before the result is full
    have hshort : st.result.length + (liveOf L tx (c ++ ['/']) ks0).length < n := by omega
    have hsel := selectLoop_short L tx (c ++ ['/']) n ks0 st.result st.cursor hparse0 hshort
    have hlen : ¬ n ≤ (st.result ++ liveOf L tx (c ++ ['/']) ks0).length := by
      simp only [List.length_append]; omega
    rw [hsel]
    simp only [ge_iff_le, hlen, if_false]
    have hpost := HR ⟨st.result ++ liveOf L tx (c ++ ['/']) ks0,
      ((ks0.getLast?).map (fun k => c ++ ['/'] ++ k)).getD st.cursor, lb.2, true, st.unique⟩
      rfl (by simp only [List.length_append]; omega)
    obtain ⟨hres, huniq, hF, hN⟩ := hpost
    dsimp only at hres huniq hF hN
    have hle : (liveOf L tx (c ++ ['/']) ks0).length ≤ n - st.result.length := by omega
    have hl2 : (st.result ++ liveOf L tx (c ++ ['/']) ks0).length =
        st.result.length + (liveOf L tx (c ++ ['/']) ks0).length := List.length_append _ _
    have hsub : n - (st.result ++ liveOf L tx (c ++ ['/']) ks0).length =
        n - st.result.length - (liveOf L tx (c ++ ['/']) ks0).length := by omega
    rw [hsub] at hres hF
    rw [hl2] at hF hN
    refine ⟨?_, huniq, ?_, ?_⟩
    · refine hres.trans ?_
      rw [List.take_append_eq_append_take, List.take_of_length_le hle, List.append_assoc]
    · intro hge
      rw [List.length_append] at hge
      obtain ⟨hb, lb2, hlb2, k, hk, hcur, hcp, hafter⟩ := hF (by omega)
      refine ⟨hb, lb2, hlb2, k, hk, hcur, hcp, ?_⟩
      rw [hafter, List.drop_append_eq_append_drop, List.drop_of_length_le hle,
        List.nil_append]
    · intro hlt
      rw [List.length_append] at hlt
      obtain ⟨hb, hthr, hcp, hcases⟩ := hN (by omega)
      refine ⟨hb, hthr, ?_, ?_⟩
      · exact hcp.trans (lastTag_cons lb rest lb.2).symm
      · rcases hcases with ⟨hempty, hcur⟩ | hB
        · -- nothing was met behind this bucket
          rcases Option.eq_none_or_eq_some (ks0.getLast?) with hks | ⟨klast, hks⟩
          · have : ks0 = [] := List.getLast?_eq_none_iff.1 hks
            left
            refine ⟨⟨this, hempty⟩, ?_⟩
            refine hcur.trans ?_
            rw [hks]; rfl
          · right
            obtain ⟨kinit, hkinit⟩ : ∃ kinit, ks0 = kinit ++ [klast] := by
              rcases List.getLast?_eq_some_iff.1 hks with ⟨ys, hys⟩
              exact ⟨ys, hys⟩
            refine ⟨lb, by simp, klast, by rw [hkeys, hkinit]; simp, ?_, ?_⟩
            · refine hcur.trans ?_
              rw [hks]; rfl
            · intro lastlb hlast
              cases hrest : rest with
              | nil =>
                rw [hrest] at hlast
                have hl : lastlb = lb := by simpa using hlast.symm
                rw [hl, bucketsLiveAfter_skip L tx c pre _ _ _ hpre, bucketsLiveAfter_head]
                have hk : tx.keysOf lb.1 = (front ++ kinit) ++ klast :: [] := by
                  rw [hkeys, hkinit]; simp
                have hs := hsorted
                rw [hk] at hs
                rw [hk, seek_next_exact _ _ _ hs]
                simp [liveOf, bucketsLive]
              | cons r0 rs =>
                have hmem : lastlb ∈ rest := by
                  have : (pre ++ lb :: rest).getLast? = rest.getLast? := by
                    rw [hrest, getLast?_append_cons, List.getLast?_cons_cons]
                  rw [this] at hlast
                  exact List.mem_of_getLast?_eq_some hlast
                have h1 : ∀ x ∈ pre ++ [lb], x.2 ≠ lastlb.2 := by
                  intro x hx
                  rcases List.mem_append.1 hx with hx | hx
                  · exact hprerest x hx lastlb hmem
                  · simp at hx; subst hx
                    exact fun heq => hrestne lastlb hmem heq.symm
                have h2 : pre ++ lb :: rest = (pre ++ [lb]) ++ rest := by simp
                rw [← hrest, h2, bucketsLiveAfter_skip L tx c _ _ _ _ h1]
                exact bucketsLiveAfter_of_allEmpty L tx c rest _ _ hempty
        · exact Or.inr hB

theorem PostB_weaken (L : Layout) (tx : Tx) (n : Nat) (c : GoString)
    (amb : List (GoString × Char)) (lv : List Address) (e1 e2 : Prop) (cpN : Char)
    (st : ScanState) (out : ScanState × Bool) (he : e1 → e2)
    (h : PostB L tx n c amb lv e1 cpN st out) : PostB L tx n c amb lv e2 cpN st out := by
  obtain ⟨h1, h2, h3, h4⟩ := h
  refine ⟨h1, h2, h3, ?_⟩
  intro hlt
  obtain ⟨a, b, d, e⟩ := h4 hlt
  refine ⟨a, b, d, ?_⟩
  rcases e with ⟨x, y⟩ | e
  · exact Or.inl ⟨he x, y⟩
  · exact Or.inr e

/-- The bucket loop with the threshold flag set, on the buckets `lbs` that end the
bucket list `pre ++ lbs` of container `c`. -/
theorem bucketsLoop_post (L : Layout) (tx : Tx) (n : Nat) (c : GoString)
    (lbs : List (GoString × Char)) :
    ∀ (pre : List (GoString × Char)) (st : ScanState), st.threshold = true →
      st.result.length < n → ((pre ++ lbs).map Prod.snd).Nodup →
      (∀ lb ∈ lbs, (tx.keysOf lb.1).Pairwise (fun a b => strLt a b = true)) →
      (∀ lb ∈ lbs, ∀ k ∈ tx.keysOf lb.1,
        (parseAddress L (c ++ ['/'] ++ k)).isSome = true) →
      PostB L tx n c (pre ++ lbs) (bucketsLive L tx c lbs) (AllEmpty tx lbs)
        (((lbs.getLast?).map Prod.snd).getD st.cursorPrefix) st
        (bucketsLoop L tx n (c ++ ['/']) lbs st) := by
  induction lbs with
  | nil =>
    intro pre st hthr hd _ _ _
    refine ⟨by simp [bucketsLoop, bucketsLive], rfl, ?_, ?_⟩
    · intro h; simp [bucketsLive] at h; omega
    · intro _
      exact ⟨rfl, hthr, rfl, Or.inl ⟨by intro x hx; simp at hx, rfl⟩⟩
  | cons lb rest ih =>
    intro pre st hthr hd hnodup hsorted hparse
    have hamb : pre ++ lb :: rest = (pre ++ [lb]) ++ rest := by simp
    have HR : ∀ st2 : ScanState, st2.threshold = true → st2.result.length < n →
        PostB L tx n c (pre ++ lb :: rest) (bucketsLive L tx c rest) (AllEmpty tx rest)
          (((rest.getLast?).map Prod.snd).getD st2.cursorPrefix) st2
          (bucketsLoop L tx n (c ++ ['/']) rest st2) := by
      intro st2 h1 h2
      rw [hamb]
      exact ih (pre ++ [lb]) st2 h1 h2 (by rw [← hamb]; exact hnodup)
        (fun x hx => hsorted x (by simp [hx])) (fun x hx => hparse x (by simp [hx]))
    have hstep := step_bucket L tx n c pre lb rest [] (tx.keysOf lb.1) st st.threshold
      hnodup rfl (hsorted lb (by simp)) (hparse lb (by simp)) hd HR
    have hloop : bucketsLoop L tx n (c ++ ['/']) (lb :: rest) st =
        (if (selectLoop L tx (c ++ ['/']) n (tx.keysOf lb.1) st.result st.result.length
            st.cursor).1.length ≥ n
        then
          (⟨(selectLoop L tx (c ++ ['/']) n (tx.keysOf lb.1) st.result st.result.length
              st.cursor).1,
            (selectLoop L tx (c ++ ['/']) n (tx.keysOf lb.1) st.result st.result.length
              st.cursor).2,
            lb.2, st.threshold, st.unique⟩, true)
        else
          bucketsLoop L tx n (c ++ ['/']) rest
            ⟨(selectLoop L tx (c ++ ['/']) n (tx.keysOf lb.1) st.result st.result.length
                st.cursor).1,
              (selectLoop L tx (c ++ ['/']) n (tx.keysOf lb.1) st.result st.result.length
                st.cursor).2,
              lb.2, true, st.unique⟩) := by
      rw [bucketsLoop]
      simp only [hthr, Bool.not_true, Bool.false_and, Bool.false_eq_true, if_false]
      rw [selectNFromBucket_true]
    rw [hloop]
    have hlv : bucketsLive L tx c (lb :: rest) =
        liveOf L tx (c ++ ['/']) (tx.keysOf lb.1) ++ bucketsLive L tx c rest := by
      simp [bucketsLive]
    rw [hlv, lastTag_cons lb rest st.cursorPrefix, ← lastTag_cons lb rest lb.2]
    refine PostB_weaken L tx n c _ _ _ _ _ st _ ?_ hstep
    intro ⟨h1, h2⟩ x hx
    rcases List.mem_cons.1 hx with hx | hx
    · rw [hx]; exact h1
    · exact h2 x hx

theorem bucketsLoop_skip (L : Layout) (tx : Tx) (n : Nat) (pfx : GoString)
    (pre lbs : List (GoString × Char)) (st : ScanState) (hthr : st.threshold = false)
    (hpre : ∀ x ∈ pre, x.2 ≠ st.cursorPrefix) :
    bucketsLoop L tx n pfx (pre ++ lbs) st = bucketsLoop L tx n pfx lbs st := by
  induction pre with
  | nil => rfl
  | cons x pre ih =>
    have hx : (st.cursorPrefix != x.2) = true := by
      have := hpre x (by simp)
      simpa using fun h => this h.symm
    rw [List.cons_append, bucketsLoop]
    simp only [hthr, Bool.not_false, Bool.true_and, hx, if_true]
    exact ih (fun y hy => hpre y (by simp [hy]))

/-- The bucket loop of the container named by the cursor: the buckets before the
tagged one are passed over, the tagged one is entered behind the key the seek lands
on, and the later ones are read in full. -/
theorem bucketsLoop_first (L : Layout) (tx : Tx) (n : Nat) (c k0 : GoString)
    (pre : List (GoString × Char)) (lb : GoString × Char) (rest : List (GoString × Char))
    (st : ScanState) (hthr : st.threshold = false) (hcp : st.cursorPrefix = lb.2)
    (hcur : st.cursor = c ++ ['/'] ++ k0)
    (hd : st.result.length < n) (hnodup : ((pre ++ lb :: rest).map Prod.snd).Nodup)
    (hsorted : ∀ x ∈ lb :: rest, (tx.keysOf x.1).Pairwise (fun a b => strLt a b = true))
    (hparse : ∀ x ∈ lb :: rest, ∀ k ∈ tx.keysOf x.1,
      (parseAddress L (c ++ ['/'] ++ k)).isSome = true) :
    PostB L tx n c (pre ++ lb :: rest)
      (bucketsLiveAfter L tx c (pre ++ lb :: rest) lb.2 k0)
      (next (seek (tx.keysOf lb.1) k0) = [] ∧ AllEmpty tx rest)
      ((((lb :: rest).getLast?).map Prod.snd).getD lb.2) st
      (bucketsLoop L tx n (c ++ ['/']) (pre ++ lb :: rest) st) := by
  have hpre : ∀ x ∈ pre, x.2 ≠ lb.2 := by
    intro x hx heq
    rw [List.map_append, List.nodup_append] at hnodup
    exact hnodup.2.2 (List.mem_map_of_mem Prod.snd hx) (by rw [heq]; simp)
  have hamb : pre ++ lb :: rest = (pre ++ [lb]) ++ rest := by simp
  have HR : ∀ st2 : ScanState, st2.threshold = true → st2.result.length < n →
      PostB L tx n c (pre ++ lb :: rest) (bucketsLive L tx c rest) (AllEmpty tx rest)
        (((rest.getLast?).map Prod.snd).getD st2.cursorPrefix) st2
        (bucketsLoop L tx n (c ++ ['/']) rest st2) := by
    intro st2 h1 h2
    rw [hamb]
    exact bucketsLoop_post L tx n c rest (pre ++ [lb]) st2 h1 h2
      (by rw [← hamb]; exact hnodup)
      (fun x hx => hsorted x (by simp [hx])) (fun x hx => hparse x (by simp [hx]))
  obtain ⟨front, hfront⟩ := seek_next_suffix (tx.keysOf lb.1) k0
  have hstep := step_bucket L tx n c pre lb rest front (next (seek (tx.keysOf lb.1) k0)) st
    st.threshold hnodup hfront (hsorted lb (by simp)) (hparse lb (by simp)) hd HR
  have hloop : bucketsLoop L tx n (c ++ ['/']) (pre ++ lb :: rest) st =
      (if (selectLoop L tx (c ++ ['/']) n (next (seek (tx.keysOf lb.1) k0)) st.result
          st.result.length st.cursor).1.length ≥ n
      then
        (⟨(selectLoop L tx (c ++ ['/']) n (next (seek (tx.keysOf lb.1) k0)) st.result
            st.result.length st.cursor).1,
          (selectLoop L tx (c ++ ['/']) n (next (seek (tx.keysOf lb.1) k0)) st.result
            st.result.length st.cursor).2,
          lb.2, st.threshold, st.unique⟩, true)
      else
        bucketsLoop L tx n (c ++ ['/']) rest
          ⟨(selectLoop L tx (c ++ ['/']) n (next (seek (tx.keysOf lb.1) k0)) st.result
              st.result.length st.cursor).1,
            (selectLoop L tx (c ++ ['/']) n (next (seek (tx.keysOf lb.1) k0)) st.result
              st.result.length st.cursor).2,
            lb.2, true, st.unique⟩) := by
    rw [bucketsLoop_skip L tx n _ pre _ st hthr (by rw [hcp]; exact hpre), bucketsLoop]
    simp only [hthr, hcp, bne_self_eq_false, Bool.and_false, Bool.false_eq_true, if_false]
    rw [selectNFromBucket_false, hcur, stringsReplace1_append]
  rw [hloop, bucketsLiveAfter_skip L tx c pre _ _ _ hpre, bucketsLiveAfter_head]
  exact hstep

/-! ## The containers -/

theorem containerLive_of_allEmptyC (L : Layout) (tx : Tx) (cs : List GoString)
    (h : AllEmptyC L tx cs) : cs.flatMap (containerLive L tx) = [] := by
  induction cs with
  | nil => rfl
  | cons c cs ih =>
    rw [List.flatMap_cons, ih (fun x hx => h x (by simp [hx]))]
    unfold containerLive
    rw [bucketsLive_of_allEmpty L tx c _ (h c (by simp))]
    rfl

theorem dropWhile_ne_head (pre : List GoString) (c : GoString) (cs : List GoString)
    (h : c ∉ pre) : (pre ++ c :: cs).dropWhile (fun x => x != c) = c :: cs := by
  induction pre with
  | nil => simp [List.dropWhile_cons]
  | cons x pre ih =>
    have hx : (x != c) = true := by
      have : x ≠ c := fun heq => h (by simp [heq])
      simpa using this
    rw [List.cons_append, List.dropWhile_cons, if_pos hx]
    exact ih (fun hc => h (by simp [hc]))

theorem liveAfterIn_head (L : Layout) (tx : Tx) (pre : List GoString) (c : GoString)
    (cs : List GoString) (tag : Char) (k : GoString) (h : c ∉ pre) :
    liveAfterIn L tx (pre ++ c :: cs) tag c k =
      containerLiveAfter L tx c tag k ++ cs.flatMap (containerLive L tx) := by
  unfold liveAfterIn
  rw [dropWhile_ne_head pre c cs h]
  rfl

theorem lookupBuckets_lastTag (L : Layout) (c : GoString) (d : Char) :
    ((((lookupBuckets L c).getLast?).map Prod.snd).getD d) = cursorPrefixSG := by
  simp [lookupBuckets]

theorem lookupBuckets_getLast (L : Layout) (c : GoString) :
    (lookupBuckets L c).getLast? = some (L.storageGroupBucketName c, cursorPrefixSG) := by
  simp [lookupBuckets]

theorem lookupBuckets_nodup (L : Layout) (c : GoString) :
    ((lookupBuckets L c).map Prod.snd).Nodup := by
  simp [lookupBuckets, cursorPrefixPrimary, cursorPrefixTombstone, cursorPrefixSG]

/-- One container and then the containers behind it: the step of the container
loop, for a container whose bucket loop has the addresses `lv0` before it. -/
theorem step_container (L : Layout) (tx : Tx) (n : Nat) (preC : List GoString)
    (c0 : GoString) (cs : List GoString) (lv0 : List Address) (e0 : Prop)
    (st1 : ScanState) (out0 : ScanState × Bool)
    (hnodup : (preC ++ c0 :: cs).Nodup)
    (hd : st1.result.length < n)
    (h0 : PostB L tx n c0 (lookupBuckets L c0) lv0 e0 cursorPrefixSG st1 out0)
    (HR : ∀ st2 : ScanState, st2.threshold = true → st2.result.length < n →
      PostC L tx n (preC ++ c0 :: cs) (cs.flatMap (containerLive L tx)) (AllEmptyC L tx cs)
        st2.result st2.cursor st2.cursorPrefix (contsLoop L tx n cs st2)) :
    PostC L tx n (preC ++ c0 :: cs) (lv0 ++ cs.flatMap (containerLive L tx))
      (e0 ∧ AllEmptyC L tx cs) st1.result st1.cursor st1.cursorPrefix
      (if out0.2 then out0.1 else contsLoop L tx n cs out0.1) := by
  have hc0 : c0 ∉ preC := by
    intro hmem
    rw [List.nodup_append] at hnodup
    exact hnodup.2.2 hmem (by simp)
  obtain ⟨hres0, _, hF0, hN0⟩ := h0
  by_cases hfill : n ≤ st1.result.length + lv0.length
  · obtain ⟨hb, lb, hlb, k, hk, hcur, hcp, hafter⟩ := hF0 hfill
    have hm : n - st1.result.length ≤ lv0.length := by omega
    rw [hb]
    simp only [if_true]
    refine ⟨?_, ?_, ?_⟩
    · rw [hres0, List.take_append_of_le_length hm]
    · intro _
      refine ⟨c0, by simp, lb, hlb, k, hk, hcur, hcp, ?_⟩
      rw [liveAfterIn_head L tx preC c0 cs _ _ hc0]
      unfold containerLiveAfter
      rw [hafter, List.drop_append_of_le_length hm]
    · intro hcontra
      rw [List.length_append] at hcontra
      omega
  · have hshort : st1.result.length + lv0.length < n := by omega
    obtain ⟨hb, hthr, hcp0, hcases0⟩ := hN0 hshort
    have hle : lv0.length ≤ n - st1.result.length := by omega
    rw [List.take_of_length_le hle] at hres0
    rw [hb]
    simp only [Bool.false_eq_true, if_false]
    have hpost := HR out0.1 hthr (by rw [hres0, List.length_append]; omega)
    obtain ⟨hres, hF, hN⟩ := hpost
    rw [hres0] at hres hF hN
    have hsub : n - (st1.result ++ lv0).length = n - st1.result.length - lv0.length := by
      rw [List.length_append]; omega
    rw [hsub] at hres hF
    rw [List.length_append] at hF hN
    refine ⟨?_, ?_, ?_⟩
    · rw [hres, List.take_append_eq_append_take, List.take_of_length_le hle,
        List.append_assoc]
    · intro hge
      rw [List.length_append] at hge
      obtain ⟨c, hc, lb, hlb, k, hk, hcur, hcp, hafter⟩ := hF (by omega)
      refine ⟨c, hc, lb, hlb, k, hk, hcur, hcp, ?_⟩
      rw [hafter, List.drop_append_eq_append_drop, List.drop_of_length_le hle,
        List.nil_append]
    · intro hlt
      rw [List.length_append] at hlt
      rcases hN (by omega) with ⟨hempty, hcur, hcp⟩ | hB
      · have hcp2 : (contsLoop L tx n cs out0.1).cursorPrefix = cursorPrefixSG := by
          rcases hcp with h | h
          · rw [h, hcp0]
          · exact h
        rcases hcases0 with ⟨he0, hcur0⟩ | ⟨lb, hlb, k, hk, hcur0, hlast⟩
        · exact Or.inl ⟨⟨he0, hempty⟩, hcur.trans hcur0, Or.inr hcp2⟩
        · right
          refine ⟨c0, by simp, lb, hlb, k, hk, hcur.trans hcur0, hcp2, ?_⟩
          rw [liveAfterIn_head L tx preC c0 cs _ _ hc0,
            containerLive_of_allEmptyC L tx cs hempty]
          unfold containerLiveAfter
          rw [hlast _ (lookupBuckets_getLast L c0)]
          rfl
      · exact Or.inr hB

/-- The container loop with the threshold flag set, on the containers `cs` that end
the walk `preC ++ cs`. -/
theorem contsLoop_post (L : Layout) (tx : Tx) (n : Nat) (cs : List GoString) :
    ∀ (preC : List GoString) (st : ScanState), st.threshold = true →
      st.result.length < n → (preC ++ cs).Nodup →
      (∀ c ∈ cs, ∀ lb ∈ lookupBuckets L c,
        (tx.keysOf lb.1).Pairwise (fun a b => strLt a b = true)) →
      (∀ c ∈ cs, ∀ lb ∈ lookupBuckets L c, ∀ k ∈ tx.keysOf lb.1,
        (parseAddress L (c ++ ['/'] ++ k)).isSome = true) →
      PostC L tx n (preC ++ cs) (cs.flatMap (containerLive L tx)) (AllEmptyC L tx cs)
        st.result st.cursor st.cursorPrefix (contsLoop L tx n cs st) := by
  induction cs with
  | nil =>
    intro preC st _ hd _ _ _
    refine ⟨by simp [contsLoop], ?_, ?_⟩
    · intro h; simp at h; omega
    · intro _
      exact Or.inl ⟨by intro x hx; simp at hx, rfl, Or.inl rfl⟩
  | cons c0 cs ih =>
    intro preC st hthr hd hnodup hsorted hparse
    have hamb : preC ++ c0 :: cs = (preC ++ [c0]) ++ cs := by simp
    have HR : ∀ st2 : ScanState, st2.threshold = true → st2.result.length < n →
        PostC L tx n (preC ++ c0 :: cs) (cs.flatMap (containerLive L tx))
          (AllEmptyC L tx cs) st2.result st2.cursor st2.cursorPrefix
          (contsLoop L tx n cs st2) := by
      intro st2 h1 h2
      rw [hamb]
      exact ih (preC ++ [c0]) st2 h1 h2 (by rw [← hamb]; exact hnodup)
        (fun x hx => hsorted x (by simp [hx])) (fun x hx => hparse x (by simp [hx]))
    have h0 := bucketsLoop_post L tx n c0 (lookupBuckets L c0) []
      ⟨st.result, st.cursor, st.cursorPrefix, st.threshold, c0 :: st.unique⟩ hthr hd
      (lookupBuckets_nodup L c0) (hsorted c0 (by simp)) (hparse c0 (by simp))
    rw [lookupBuckets_lastTag, List.nil_append] at h0
    have hstep := step_container L tx n preC c0 cs _ _
      ⟨st.result, st.cursor, st.cursorPrefix, st.threshold, c0 :: st.unique⟩ _ hnodup hd h0 HR
    rw [contsLoop, List.flatMap_cons]
    refine ⟨hstep.1, hstep.2.1, ?_⟩
    intro hlt
    rcases hstep.2.2 hlt with ⟨⟨he0, he⟩, h2⟩ | hB
    · left
      refine ⟨?_, h2⟩
      intro x hx
      rcases List.mem_cons.1 hx with hx | hx
      · rw [hx]; exact he0
      · exact he x hx
    · exact Or.inr hB

/-! ## One call on a well-formed index -/

theorem visitOrder_nodup (L : Layout) (names : List GoString) :
    ∀ unique : List GoString,
      (visitOrder L names unique).Nodup ∧ ∀ c ∈ visitOrder L names unique, c ∉ unique := by
  induction names with
  | nil => intro unique; simp [visitOrder]
  | cons name names ih =>
    intro unique
    unfold visitOrder
    cases hp : parseContainerID L name unique with
    | none => exact ih unique
    | some cid =>
      dsimp only
      have hcid : cid ∉ unique := by
        unfold parseContainerID at hp
        split at hp
        · cases hp
        · split at hp
          · cases hp
          · rename_i h; cases hp; exact h
      obtain ⟨hnd, hnot⟩ := ih (cid :: unique)
      refine ⟨List.nodup_cons.2 ⟨fun hmem => hnot cid hmem (by simp), hnd⟩, ?_⟩
      intro c hc
      rcases List.mem_cons.1 hc with hc | hc
      · rw [hc]; exact hcid
      · exact fun hu => hnot c hc (by simp [hu])

theorem containers_nodup (L : Layout) (tx : Tx) : (containers L tx).Nodup :=
  (visitOrder_nodup L tx.names []).1

theorem keysOf_sorted (tx : Tx) (hs : tx.Sorted) (name : GoString) :
    (tx.keysOf name).Pairwise (fun a b => strLt a b = true) := by
  unfold Tx.keysOf Tx.bucket
  have key : ∀ (bs : List (GoString × List GoString)),
      (∀ b ∈ bs, b.2.Pairwise (fun a b => strLt a b = true)) →
      ((bs.lookup name).getD []).Pairwise (fun a b => strLt a b = true) := by
    intro bs
    induction bs with
    | nil => intro _; simp
    | cons b bs ih =>
      intro h
      obtain ⟨bn, bk⟩ := b
      rw [List.lookup_cons]
      split
      · exact h (bn, bk) (by simp)
      · exact ih (fun x hx => h x (by simp [hx]))
  exact key tx.buckets hs.2

theorem lookupBuckets_tag (L : Layout) (c : GoString) (lb : GoString × Char)
    (h : lb ∈ lookupBuckets L c) :
    lb.2 = cursorPrefixPrimary ∨ lb.2 = cursorPrefixSG ∨ lb.2 = cursorPrefixTombstone := by
  simp only [lookupBuckets, List.mem_cons, List.mem_singleton, List.not_mem_nil,
    or_false] at h
  rcases h with h | h | h <;> rw [h] <;> simp

theorem lookupBuckets_split (L : Layout) (c : GoString) (tag : Char)
    (h : tag = cursorPrefixPrimary ∨ tag = cursorPrefixSG ∨ tag = cursorPrefixTombstone) :
    ∃ pre lb rest, lookupBuckets L c = pre ++ lb :: rest ∧ lb.2 = tag := by
  rcases h with h | h | h
  · exact ⟨[], (L.primaryBucketName c, cursorPrefixPrimary), _, rfl, h.symm⟩
  · exact ⟨[(L.primaryBucketName c, cursorPrefixPrimary),
      (L.tombstoneBucketName c, cursorPrefixTombstone)],
      (L.storageGroupBucketName c, cursorPrefixSG), [], rfl, h.symm⟩
  · exact ⟨[(L.primaryBucketName c, cursorPrefixPrimary)],
      (L.tombstoneBucketName c, cursorPrefixTombstone), _, rfl, h.symm⟩

/-- From the state the loops end in to what `listWithCursor` returns. -/
theorem finish_of_postC (L : Layout) (tx : Tx) (n : Nat) (hn : 1 ≤ n)
    (lv : List Address) (e : Prop) (cur0 : GoString) (cp0 : Char) (out : ScanState)
    (he : e → lv = [])
    (h : PostC L tx n (containers L tx) lv e [] cur0 cp0 out) :
    (lv = [] → finish out = ([], [], some .errEndOfListing)) ∧
      (lv ≠ [] → ∃ tag c k, IsPosition L tx tag c k ∧
        finish out = (lv.take n, tag :: (c ++ ['/'] ++ k), none) ∧
        liveAfter L tx tag c k = lv.drop n) := by
  obtain ⟨hres, hF, hN⟩ := h
  simp only [List.nil_append, List.length_nil, Nat.sub_zero, Nat.zero_add] at hres hF hN
  refine ⟨?_, ?_⟩
  · intro h0
    rw [h0] at hres
    simp [finish, hres]
  · intro hne
    have hpos : 0 < lv.length := List.length_pos.2 hne
    have hresne : out.result.length ≠ 0 := by
      rw [hres, List.length_take]; omega
    have hfin : finish out = (lv.take n, out.cursorPrefix :: out.cursor, none) := by
      unfold finish
      rw [if_neg hresne, hres]
    by_cases hfill : n ≤ lv.length
    · obtain ⟨c, hc, lb, hlb, k, hk, hcur, hcp, hafter⟩ := hF hfill
      refine ⟨lb.2, c, k, ⟨lookupBuckets_tag L c lb hlb, hc, lb, hlb, hk⟩, ?_, hafter⟩
      rw [hfin, hcur, hcp]
    · rcases hN (by omega) with ⟨hempty, _, _⟩ | ⟨c, hc, lb, hlb, k, hk, hcur, hcp, hafter⟩
      · exact absurd (he hempty) hne
      · refine ⟨cursorPrefixSG, c, k, ⟨Or.inr (Or.inl rfl), hc, lb, hlb, hk⟩, ?_, ?_⟩
        · rw [hfin, hcur, hcp]
        · unfold liveAfter
          rw [hafter, List.drop_of_length_le (by omega)]

/-- A call with the empty cursor on an index whose keys are sorted and parse: the
first `n` non-inhumed addresses of the index and a cursor behind which the others
lie, or `ErrEndOfListing` when there is none. -/
theorem listWithCursor_start (L : Layout) (tx : Tx) (n : Nat) (hn : 1 ≤ n)
    (hs : tx.Sorted) (hp : tx.AllKeysParse L) :
    (allLive L tx = [] → listWithCursor L tx n [] = ([], [], some .errEndOfListing)) ∧
      (allLive L tx ≠ [] → ∃ tag c k, IsPosition L tx tag c k ∧
        listWithCursor L tx n [] =
          ((allLive L tx).take n, tag :: (c ++ ['/'] ++ k), none) ∧
        liveAfter L tx tag c k = (allLive L tx).drop n) := by
  have hpost := contsLoop_post L tx n (containers L tx) []
    ⟨[], [], Char.ofNat 0, true, []⟩ rfl (by simp; omega)
    (by simpa using containers_nodup L tx)
    (fun c _ lb _ => keysOf_sorted tx hs lb.1) hp
  have hscan : scan L tx n none = contsLoop L tx n (containers L tx)
      ⟨[], [], Char.ofNat 0, true, []⟩ := by
    simp only [scan]
    rw [namesLoop_eq_contsLoop]
    rfl
  have hlw : listWithCursor L tx n [] = finish (scan L tx n none) := rfl
  rw [hlw, hscan]
  rw [List.nil_append] at hpost
  exact finish_of_postC L tx n hn _ _ _ _ _
    (fun he => containerLive_of_allEmptyC L tx _ he) hpost

theorem bucketsLiveAfter_split (L : Layout) (tx : Tx) (c : GoString)
    (pre : List (GoString × Char)) (lb : GoString × Char) (rest : List (GoString × Char))
    (k : GoString) (hnodup : ((pre ++ lb :: rest).map Prod.snd).Nodup) :
    bucketsLiveAfter L tx c (pre ++ lb :: rest) lb.2 k =
      liveOf L tx (c ++ ['/']) (next (seek (tx.keysOf lb.1) k)) ++ bucketsLive L tx c rest := by
  have hpre : ∀ x ∈ pre, x.2 ≠ lb.2 := by
    intro x hx heq
    rw [List.map_append, List.nodup_append] at hnodup
    exact hnodup.2.2 (List.mem_map_of_mem Prod.snd hx) (by rw [heq]; simp)
  rw [bucketsLiveAfter_skip L tx c pre _ _ _ hpre, bucketsLiveAfter_head]

/-- A call with the cursor of a position of the index, on an index whose keys are
sorted and parse and in which a seek finds the containers: the first `n`
non-inhumed addresses behind the position and a cursor behind which the others lie,
or `ErrEndOfListing` when there is none. -/
theorem listWithCursor_resume (L : Layout) (tx : Tx) (n : Nat) (hn : 1 ≤ n)
    (hs : tx.Sorted) (hp : tx.AllKeysParse L) (hr : tx.SeekFindsContainer L)
    (tag : Char) (c k : GoString) (hpos : IsPosition L tx tag c k) :
    (liveAfter L tx tag c k = [] →
        listWithCursor L tx n (tag :: (c ++ ['/'] ++ k)) =
          ([], [], some .errEndOfListing)) ∧
      (liveAfter L tx tag c k ≠ [] → ∃ tag2 c2 k2, IsPosition L tx tag2 c2 k2 ∧
        listWithCursor L tx n (tag :: (c ++ ['/'] ++ k)) =
          ((liveAfter L tx tag c k).take n, tag2 :: (c2 ++ ['/'] ++ k2), none) ∧
        liveAfter L tx tag2 c2 k2 = (liveAfter L tx tag c k).drop n) := by
  obtain ⟨htag, hc, lb0, hlb0, hk0⟩ := hpos
  obtain ⟨a, ha⟩ := Option.isSome_iff_exists.1 (hp c hc lb0 hlb0 k hk0)
  have haeq : a = ⟨c, k⟩ := parseAddress_text L c k a ha
  have hlw : listWithCursor L tx n (tag :: (c ++ ['/'] ++ k)) =
      finish (scan L tx n (some (tag, c ++ ['/'] ++ k, a))) := by
    simp only [listWithCursor, htag, if_true, ha]
  obtain ⟨preC, later, hdecomp⟩ := List.append_of_mem hc
  have hnd : (preC ++ c :: later).Nodup := by rw [← hdecomp]; exact containers_nodup L tx
  have hnotin : c ∉ preC := by
    intro hmem
    rw [List.nodup_append] at hnd
    exact hnd.2.2 hmem (by simp)
  have hscan : scan L tx n (some (tag, c ++ ['/'] ++ k, a)) =
      contsLoop L tx n (c :: later) ⟨[], c ++ ['/'] ++ k, tag, false, []⟩ := by
    simp only [scan]
    rw [namesLoop_eq_contsLoop, haeq]
    dsimp only
    rw [hr c hc, hdecomp, dropWhile_ne_head preC c later hnotin]
  obtain ⟨pre, lb, rest, hsplit, hlbtag⟩ := lookupBuckets_split L c tag htag
  have hnodupB : ((pre ++ lb :: rest).map Prod.snd).Nodup := by
    rw [← hsplit]; exact lookupBuckets_nodup L c
  have hmemB : ∀ x ∈ lb :: rest, x ∈ lookupBuckets L c := by
    intro x hx; rw [hsplit]; exact List.mem_append_right _ hx
  have h0 := bucketsLoop_first L tx n c k pre lb rest
    ⟨[], c ++ ['/'] ++ k, tag, false, [c]⟩ rfl hlbtag.symm rfl (by simp; omega) hnodupB
    (fun x _ => keysOf_sorted tx hs x.1) (fun x hx => hp c hc x (hmemB x hx))
  have hlast : ((((lb :: rest).getLast?).map Prod.snd).getD lb.2) = cursorPrefixSG := by
    rw [← getLast?_append_cons pre lb rest, ← hsplit]
    exact lookupBuckets_lastTag L c lb.2
  rw [hlast, ← hsplit, hlbtag] at h0
  have hamb : preC ++ c :: later = (preC ++ [c]) ++ later := by simp
  have HR : ∀ st2 : ScanState, st2.threshold = true → st2.result.length < n →
      PostC L tx n (preC ++ c :: later) (later.flatMap (containerLive L tx))
        (AllEmptyC L tx later) st2.result st2.cursor st2.cursorPrefix
        (contsLoop L tx n later st2) := by
    intro st2 h1 h2
    rw [hamb]
    exact contsLoop_post L tx n later (preC ++ [c]) st2 h1 h2 (by rw [← hamb]; exact hnd)
      (fun x _ lb _ => keysOf_sorted tx hs lb.1)
      (fun x hx => hp x (by rw [hdecomp]; simp [hx]))
  have hstep := step_container L tx n preC c later _ _
    ⟨[], c ++ ['/'] ++ k, tag, false, [c]⟩ _ hnd (by simp; omega) h0 HR
  have hloop : contsLoop L tx n (c :: later) ⟨[], c ++ ['/'] ++ k, tag, false, []⟩ =
      (if (bucketsLoop L tx n (c ++ ['/']) (lookupBuckets L c)
          ⟨[], c ++ ['/'] ++ k, tag, false, [c]⟩).2
        then (bucketsLoop L tx n (c ++ ['/']) (lookupBuckets L c)
          ⟨[], c ++ ['/'] ++ k, tag, false, [c]⟩).1
        else contsLoop L tx n later (bucketsLoop L tx n (c ++ ['/']) (lookupBuckets L c)
          ⟨[], c ++ ['/'] ++ k, tag, false, [c]⟩).1) := by
    rw [contsLoop]
  have hlv : bucketsLiveAfter L tx c (lookupBuckets L c) tag k ++
      later.flatMap (containerLive L tx) = liveAfter L tx tag c k := by
    unfold liveAfter
    rw [hdecomp, liveAfterIn_head L tx preC c later tag k hnotin]
    rfl
  rw [hlw, hscan, hloop]
  rw [hlv, ← hdecomp] at hstep
  refine finish_of_postC L tx n hn _ _ _ _ _ ?_ hstep
  intro ⟨⟨he1, he2⟩, he3⟩
  rw [← hlv, containerLive_of_allEmptyC L tx later he3, hsplit, ← hlbtag,
    bucketsLiveAfter_split L tx c pre lb rest k hnodupB, he1,
    bucketsLive_of_allEmpty L tx c rest he2]
  simp [liveOf]

/-! ## Every entry once -/

theorem liveKey_text (L : Layout) (tx : Tx) (c k : GoString) (a : Address)
    (h : liveKey L tx (c ++ ['/']) k = some a) : a = ⟨c, k⟩ :=
  parseAddress_text L c k a (liveKey_not_inhumed L tx _ k a h).1

theorem liveOf_sublist (L : Layout) (tx : Tx) (c : GoString) (ks : List GoString) :
    List.Sublist (liveOf L tx (c ++ ['/']) ks) (ks.map (fun k => (⟨c, k⟩ : Address))) := by
  induction ks with
  | nil => simp [liveOf]
  | cons k ks ih =>
    unfold liveOf at ih ⊢
    rw [List.filterMap_cons, List.map_cons]
    cases h : liveKey L tx (c ++ ['/']) k with
    | none => exact List.Sublist.cons _ ih
    | some a =>
      dsimp only
      rw [liveKey_text L tx c k a h]
      exact List.Sublist.cons₂ _ ih

theorem bucketsLive_sublist (L : Layout) (tx : Tx) (c : GoString)
    (lbs : List (GoString × Char)) :
    List.Sublist (bucketsLive L tx c lbs)
      ((lbs.flatMap (fun lb => tx.keysOf lb.1)).map (fun k => (⟨c, k⟩ : Address))) := by
  induction lbs with
  | nil => simp [bucketsLive]
  | cons lb lbs ih =>
    unfold bucketsLive at ih ⊢
    rw [List.flatMap_cons, List.flatMap_cons, List.map_append]
    exact List.Sublist.append (liveOf_sublist L tx c _) ih

theorem containerLive_cid (L : Layout) (tx : Tx) (c : GoString) (a : Address)
    (h : a ∈ containerLive L tx c) : a.cid = c := by
  have := (bucketsLive_sublist L tx c (lookupBuckets L c)).subset h
  rcases List.mem_map.1 this with ⟨k, _, hk⟩
  rw [← hk]

/-- On an index in which no key occurs twice among the partitions of a container,
the list of its non-inhumed addresses has no address twice. -/
theorem allLive_nodup (L : Layout) (tx : Tx) (hd : tx.DisjointPartitions L) :
    (allLive L tx).Nodup := by
  unfold allLive
  rw [List.nodup_flatMap]
  refine ⟨?_, ?_⟩
  · intro c hc
    refine (bucketsLive_sublist L tx c (lookupBuckets L c)).nodup ?_
    refine List.Nodup.map ?_ (hd c hc)
    intro k1 k2 h
    simpa using h
  · refine (containers_nodup L tx).pairwise_of_forall_ne ?_
    intro c1 _ c2 _ hne a h1 h2
    exact hne ((containerLive_cid L tx c1 a h1).symm.trans (containerLive_cid L tx c2 a h2))

end Metabase

namespace Metabase

/-! ## When a seek finds the container -/

theorem strLt_trans (a b c : GoString) (h1 : strLt a b = true) (h2 : strLt b c = true) :
    strLt a c = true := by
  induction a generalizing b c with
  | nil =>
    cases b with
    | nil => simp [strLt] at h1
    | cons y b =>
      cases c with
      | nil => simp [strLt] at h2
      | cons z c => simp [strLt]
  | cons x a ih =>
    cases b with
    | nil => simp [strLt] at h1
    | cons y b =>
      cases c with
      | nil => simp [strLt] at h2
      | cons z c =>
        simp only [strLt] at h1 h2 ⊢
        by_cases hxy : x.toNat < y.toNat
        · by_cases hyz : y.toNat < z.toNat
          · simp [Nat.lt_trans hxy hyz]
          · simp only [hyz, if_false] at h2
            by_cases hyz2 : y = z
            · subst hyz2; simp [hxy]
            · simp [hyz2] at h2
        · simp only [hxy, if_false] at h1
          by_cases hxy2 : x = y
          · subst hxy2
            simp only [if_true] at h1
            by_cases hyz : x.toNat < z.toNat
            · simp [hyz]
            · simp only [hyz, if_false] at h2 ⊢
              by_cases hyz2 : x = z
              · subst hyz2
                simp only [if_true] at h2 ⊢
                exact ih b c h1 h2
              · simp [hyz2] at h2
          · simp [hxy2] at h1

theorem strLt_prefix (p s : GoString) (h : p <+: s) : strLt s p = false := by
  induction p generalizing s with
  | nil => cases s <;> simp [strLt]
  | cons x p ih =>
    cases s with
    | nil => simp at h
    | cons y s =>
      rw [List.cons_prefix_cons] at h
      obtain ⟨hxy, hps⟩ := h
      subst hxy
      simp [strLt, ih s hps]

/-- The keys with a given prefix lie together in the key order. -/
theorem prefix_convex (p a b x : GoString) (ha : p <+: a) (hb : p <+: b)
    (hax : strLt x a = false) (hxb : strLt b x = false) : p <+: x := by
  induction p generalizing a b x with
  | nil => simp
  | cons h p ih =>
    cases a with
    | nil => simp at ha
    | cons a0 a =>
      cases b with
      | nil => simp at hb
      | cons b0 b =>
        rw [List.cons_prefix_cons] at ha hb
        obtain ⟨ha0, ha⟩ := ha
        obtain ⟨hb0, hb⟩ := hb
        subst ha0; subst hb0
        cases x with
        | nil => simp [strLt] at hax
        | cons y x =>
          simp only [strLt] at hax hxb
          have h1 : ¬ y.toNat < h.toNat := by
            intro hlt; simp [hlt] at hax
          have h2 : ¬ h.toNat < y.toNat := by
            intro hlt; simp [hlt] at hxb
          have hyh : y = h := by
            have : y.toNat = h.toNat := by omega
            rw [← Char.ofNat_toNat y, ← Char.ofNat_toNat h, this]
          subst hyh
          simp only [lt_self_iff_false, if_false, if_true] at hax hxb
          rw [List.cons_prefix_cons]
          exact ⟨rfl, ih a b x ha hb hax hxb⟩

theorem seek_split (names : List GoString) (c : GoString)
    (hs : names.Pairwise (fun a b => strLt a b = true)) :
    ∃ front, names = front ++ seek names c ∧ (∀ n ∈ front, strLt n c = true) ∧
      ∀ n ∈ seek names c, strLt n c = false := by
  unfold seek
  refine ⟨names.takeWhile (fun x => strLt x c), (List.takeWhile_append_dropWhile _ _).symm,
    fun n hn => @List.mem_takeWhile_imp _ (fun x => strLt x c) names n hn, ?_⟩
  intro n hn
  cases hdw : names.dropWhile (fun x => strLt x c) with
  | nil => rw [hdw] at hn; simp at hn
  | cons b0 rest =>
    have hb0 : strLt b0 c = false := by
      have := List.head_dropWhile_not (fun x => strLt x c) names
        (by rw [hdw]; simp)
      simpa [hdw] using this
    rw [hdw] at hn
    rcases List.mem_cons.1 hn with hn | hn
    · rw [hn]; exact hb0
    · have hsub : (b0 :: rest).Pairwise (fun a b => strLt a b = true) := by
        rw [← hdw]
        exact hs.sublist (List.dropWhile_sublist _)
      have hlt : strLt b0 n = true := (List.pairwise_cons.1 hsub).1 n hn
      cases hnc : strLt n c with
      | false => rfl
      | true =>
        have := strLt_trans b0 n c hlt hnc
        rw [hb0] at this
        cases this

theorem mem_visitOrder (L : Layout) (names : List GoString) :
    ∀ (unique : List GoString) (c : GoString),
      c ∈ visitOrder L names unique ↔
        (∃ n ∈ names, L.containerOf n = some c) ∧ c ∉ unique := by
  induction names with
  | nil => intro unique c; simp [visitOrder]
  | cons name names ih =>
    intro unique c
    unfold visitOrder parseContainerID
    cases hco : L.containerOf name with
    | none =>
      simp only [ih unique c, List.mem_cons, exists_eq_or_imp, hco]
      simp
    | some d =>
      dsimp only
      by_cases hd : d ∈ unique
      · simp only [hd, if_true, ih unique c, List.mem_cons, exists_eq_or_imp, hco,
          Option.some.injEq]
        constructor
        · rintro ⟨h1, h2⟩; exact ⟨Or.inr h1, h2⟩
        · rintro ⟨h1 | h1, h2⟩
          · rw [← h1] at h2; exact absurd hd h2
          · exact ⟨h1, h2⟩
      · simp only [hd, if_false, List.mem_cons, ih (d :: unique) c, exists_eq_or_imp, hco,
          Option.some.injEq, not_or]
        constructor
        · rintro (h | ⟨h1, h2, h3⟩)
          · rw [h]; exact ⟨Or.inl rfl, hd⟩
          · exact ⟨Or.inr h1, h3⟩
        · rintro ⟨h1 | h1, h2⟩
          · exact Or.inl h1.symm
          · by_cases hcd : c = d
            · exact Or.inl hcd
            · exact Or.inr ⟨h1, hcd, h2⟩

theorem visitOrder_ignore (L : Layout) (names : List GoString) :
    ∀ (w u : List GoString),
      (∀ n ∈ names, ∀ c, L.containerOf n = some c → c ∉ u) →
      visitOrder L names (w ++ u) = visitOrder L names w := by
  induction names with
  | nil => intro w u _; rfl
  | cons name names ih =>
    intro w u h
    unfold visitOrder parseContainerID
    cases hco : L.containerOf name with
    | none => exact ih w u (fun n hn => h n (by simp [hn]))
    | some d =>
      dsimp only
      have hdu : d ∉ u := h name (by simp) d hco
      by_cases hd : d ∈ w
      · simp only [List.mem_append, hd, true_or, if_true]
        exact ih w u (fun n hn => h n (by simp [hn]))
      · simp only [List.mem_append, hd, hdu, or_self, if_false]
        rw [← List.cons_append, ih (d :: w) u (fun n hn => h n (by simp [hn]))]

theorem visitOrder_cons_none (L : Layout) (name : GoString) (names unique : List GoString)
    (h : parseContainerID L name unique = none) :
    visitOrder L (name :: names) unique = visitOrder L names unique := by
  rw [visitOrder, h]

theorem visitOrder_cons_some (L : Layout) (name : GoString) (names unique : List GoString)
    (d : GoString) (h : parseContainerID L name unique = some d) :
    visitOrder L (name :: names) unique = d :: visitOrder L names (d :: unique) := by
  rw [visitOrder, h]

theorem visitOrder_append (L : Layout) (front back : List GoString) :
    ∀ unique : List GoString, ∃ w,
      (∀ x, x ∈ w ↔ x ∈ visitOrder L front unique ∨ x ∈ unique) ∧
      visitOrder L (front ++ back) unique =
        visitOrder L front unique ++ visitOrder L back w := by
  induction front with
  | nil => intro unique; exact ⟨unique, by simp [visitOrder], by simp [visitOrder]⟩
  | cons name front ih =>
    intro unique
    rw [List.cons_append]
    cases hp : parseContainerID L name unique with
    | none =>
      rw [visitOrder_cons_none L name _ unique hp, visitOrder_cons_none L name _ unique hp]
      exact ih unique
    | some d =>
      rw [visitOrder_cons_some L name _ unique d hp,
        visitOrder_cons_some L name _ unique d hp]
      obtain ⟨w, hw, heq⟩ := ih (d :: unique)
      refine ⟨w, ?_, by rw [heq]; rfl⟩
      intro x
      rw [hw x]
      simp only [List.mem_cons]
      tauto

theorem takeWhile_prefix_of (p rest : GoString) (f : Char → Bool)
    (h : ∀ x ∈ p, f x = true) : p <+: (p ++ rest).takeWhile f := by
  induction p with
  | nil => simp
  | cons x p ih =>
    rw [List.cons_append, List.takeWhile_cons, if_pos (h x (by simp)),
      List.cons_prefix_cons]
    exact ⟨rfl, ih (fun y hy => h y (by simp [hy]))⟩

/-- In a layout that takes the container from the text before the first `_`, on an
index with sorted top-level keys in which no container identifier is a proper prefix
of another, a seek to a container identifier finds that container. -/
theorem seekFindsContainer_of_prefixFree (L : Layout) (tx : Tx)
    (hL : L.SplitsAtUnderscore) (hs : tx.names.Pairwise (fun a b => strLt a b = true))
    (hpf : tx.PrefixFree L) : tx.SeekFindsContainer L := by
  intro c hc
  obtain ⟨front, hsplit, hfront, hback⟩ := seek_split tx.names c hs
  have hpre : ∀ n d, L.containerOf n = some d → d <+: n := by
    intro n d hnd
    rw [hL n d hnd]
    exact List.takeWhile_prefix _
  have hmemC : ∀ n ∈ tx.names, ∀ d, L.containerOf n = some d → d ∈ containers L tx := by
    intro n hn d hnd
    exact (mem_visitOrder L tx.names [] d).2 ⟨⟨n, hn, hnd⟩, by simp⟩
  -- no key before the seek position belongs to `c`
  have hF1 : ∀ n ∈ front, L.containerOf n ≠ some c := by
    intro n hn hnc
    have := strLt_prefix c n (hpre n c hnc)
    rw [hfront n hn] at this
    cases this
  -- a container with a key before the seek position has none behind it
  have hF2 : ∀ n ∈ seek tx.names c, ∀ d, L.containerOf n = some d →
      ∀ m ∈ front, L.containerOf m ≠ some d := by
    intro n hn d hnd m hm hmd
    have hdc : d <+: c := prefix_convex d m n c (hpre m d hmd) (hpre n d hnd)
      (by
        cases h : strLt c m with
        | false => rfl
        | true =>
          have := strLt_trans c m c h (hfront m hm)
          rw [strLt_irrefl] at this; cases this)
      (hback n hn)
    have hd : d ∈ containers L tx :=
      hmemC m (by rw [hsplit]; exact List.mem_append_left _ hm) d hmd
    have := hpf d hd c hc hdc
    rw [this] at hmd
    exact hF1 m hm hmd
  obtain ⟨w, hw, happ⟩ := visitOrder_append L front (seek tx.names c) []
  have hign : visitOrder L (seek tx.names c) w = visitOrder L (seek tx.names c) [] := by
    have := visitOrder_ignore L (seek tx.names c) [] w (by
      intro n hn d hnd hdw
      rcases (hw d).1 hdw with h | h
      · obtain ⟨⟨m, hm, hmd⟩, _⟩ := (mem_visitOrder L front [] d).1 h
        exact hF2 n hn d hnd m hm hmd
      · simp at h)
    simpa using this
  have hcfront : c ∉ visitOrder L front [] := by
    intro h
    obtain ⟨⟨m, hm, hmc⟩, _⟩ := (mem_visitOrder L front [] c).1 h
    exact hF1 m hm hmc
  -- the first container met from the seek position on is `c`
  obtain ⟨⟨nc, hnc, hncc⟩, _⟩ := (mem_visitOrder L tx.names [] c).1 hc
  have hncback : nc ∈ seek tx.names c := by
    rw [hsplit] at hnc
    rcases List.mem_append.1 hnc with h | h
    · exact absurd hncc (hF1 nc h)
    · exact h
  have hcnous : ∀ x ∈ c, (x != '_') = true := by
    intro x hx
    rw [hL nc c hncc] at hx
    exact @List.mem_takeWhile_imp _ (fun x => x != '_') nc x hx
  have hsortedB : (seek tx.names c).Pairwise (fun a b => strLt a b = true) :=
    hs.sublist (List.dropWhile_sublist _)
  have hhead : ∀ (B : List GoString), B.Pairwise (fun a b => strLt a b = true) →
      (∀ n ∈ B, strLt n c = false) → (∀ n ∈ B, n ∈ tx.names) → nc ∈ B →
      ∃ rest, visitOrder L B [] = c :: rest := by
    intro B
    induction B with
    | nil => intro _ _ _ h; simp at h
    | cons b B ih =>
      intro hsB hge hnames hmem
      unfold visitOrder parseContainerID
      cases hco : L.containerOf b with
      | none =>
        dsimp only
        have hne : nc ≠ b := fun h => by rw [h, hco] at hncc; cases hncc
        exact ih (List.pairwise_cons.1 hsB).2 (fun n hn => hge n (by simp [hn]))
          (fun n hn => hnames n (by simp [hn]))
          (by rcases List.mem_cons.1 hmem with h | h
              · exact absurd h hne
              · exact h)
      | some d =>
        simp only [List.not_mem_nil, if_false]
        have hcb : c <+: b := by
          rcases List.mem_cons.1 hmem with h | h
          · rw [← h]; exact hpre nc c hncc
          · have hlt : strLt b nc = true := (List.pairwise_cons.1 hsB).1 nc h
            refine prefix_convex c c nc b (List.prefix_refl c) (hpre nc c hncc)
              (hge b (by simp)) ?_
            cases hx : strLt nc b with
            | false => rfl
            | true =>
              have := strLt_trans b nc b hlt hx
              rw [strLt_irrefl] at this; cases this
        obtain ⟨r, hr⟩ := hcb
        have hcd : c <+: d := by
          rw [hL b d hco, ← hr]
          exact takeWhile_prefix_of c r _ hcnous
        have hdmem : d ∈ containers L tx := hmemC b (hnames b (by simp)) d hco
        rw [← hpf c hc d hdmem hcd]
        exact ⟨_, rfl⟩
  obtain ⟨rest, hrest⟩ := hhead (seek tx.names c) hsortedB hback
    (fun n hn => by rw [hsplit]; exact List.mem_append_right _ hn) hncback
  have hcont : containers L tx = visitOrder L front [] ++ c :: rest := by
    unfold containers
    rw [hsplit, happ, hign, hrest]
  rw [hcont, dropWhile_ne_head _ c rest hcfront, hrest]

theorem demoLayout_splitsAtUnderscore : demoLayout.SplitsAtUnderscore := by
  intro name c h
  simp only [demoLayout] at h
  split at h
  · cases h; rfl
  · cases h

/-- The index of the scenario meets the conditions under which a seek finds the
containers. -/
theorem demoTx_seekFindsContainer : demoTx.SeekFindsContainer demoLayout :=
  seekFindsContainer_of_prefixFree demoLayout demoTx demoLayout_splitsAtUnderscore
    (by decide) (by unfold Tx.PrefixFree; decide)

end Metabase

namespace Metabase

/-! ## Properties of a single listing call -/

/-- C7. Graveyard exclusion: for every index, count and cursor, no address of the
list returned by `ListWithCursor` has a positive graveyard marker. In the loop of
`selectNFromBucket` an inhumed key is passed without ending the loop and without
using a slot: the loop goes on with the keys behind it, the same result and the
same counter; and the loop returns the non-inhumed addresses of the keys (up to a
key that does not parse) as far as the limit allows. -/
theorem ListWithCursor_excludes_inhumed (L : Layout) (tx : Tx) (count : Nat)
    (cursor : GoString) :
    (∀ a ∈ (ListWithCursor L tx count cursor).1, ¬ inGraveyard tx a > 0) ∧
      (∀ (pfx k : GoString) (ks : List GoString) (dst : List Address) (cnt : Nat)
          (cur : GoString) (a : Address),
        cnt < count → parseAddress L (pfx ++ k) = some a → inGraveyard tx a > 0 →
        selectLoop L tx pfx count (k :: ks) dst cnt cur =
          selectLoop L tx pfx count ks dst cnt (pfx ++ k)) ∧
      (∀ (pfx : GoString) (ks : List GoString) (dst : List Address) (cur : GoString),
        (selectLoop L tx pfx count ks dst dst.length cur).1 =
          dst ++ (liveOf L tx pfx
            (ks.takeWhile (fun k => (parseAddress L (pfx ++ k)).isSome))).take
              (count - dst.length)) := by
  refine ⟨?_, ?_, ?_⟩
  · intro a ha
    rw [ListWithCursor_eq] at ha
    rcases listWithCursor_shape L tx count cursor with ⟨err, h⟩ | ⟨c, h, _⟩
    · rw [h] at ha; simp at ha
    · rw [h] at ha
      have := (scan_ok L tx count c).2 a ha
      omega
  · intro pfx k ks dst cnt cur a hcnt hp hg
    rw [selectLoop]
    simp [Nat.not_le.2 hcnt, hp, hg]
  · intro pfx ks dst cur
    exact selectLoop_result L tx pfx count ks dst cur

/-- C8. The count is a maximum: a call of `ListWithCursor` that succeeds returns at
least one and at most `count` addresses; a call that fails returns the nil list and
the empty cursor; and when the loops end with an empty result, for the empty cursor
or for a cursor that passed the checks, the call returns `ErrEndOfListing` with the
nil list and the empty cursor. -/
theorem ListWithCursor_count_bound (L : Layout) (tx : Tx) (count : Nat)
    (cursor : GoString) :
    ((ListWithCursor L tx count cursor).2.2 = none →
        1 ≤ (ListWithCursor L tx count cursor).1.length ∧
        (ListWithCursor L tx count cursor).1.length ≤ count) ∧
      (∀ err, (ListWithCursor L tx count cursor).2.2 = some err →
        ListWithCursor L tx count cursor = ([], [], some err)) ∧
      ((scan L tx count none).result = [] →
        ListWithCursor L tx count [] = ([], [], some .errEndOfListing)) ∧
      (∀ cp rest a,
        (cp = cursorPrefixPrimary ∨ cp = cursorPrefixSG ∨ cp = cursorPrefixTombstone) →
        parseAddress L rest = some a →
        (scan L tx count (some (cp, rest, a))).result = [] →
        ListWithCursor L tx count (cp :: rest) = ([], [], some .errEndOfListing)) := by
  refine ⟨?_, ?_, ?_, ?_⟩
  · intro hnone
    rw [ListWithCursor_eq] at hnone ⊢
    rcases listWithCursor_shape L tx count cursor with ⟨err, h⟩ | ⟨c, h, hne⟩
    · rw [h] at hnone; cases hnone
    · rw [h]
      refine ⟨?_, (scan_ok L tx count c).1⟩
      exact List.length_pos.2 hne
  · intro err herr
    rw [ListWithCursor_eq] at herr ⊢
    rcases listWithCursor_shape L tx count cursor with ⟨err2, h⟩ | ⟨c, h, _⟩
    · rw [h] at herr ⊢
      simp at herr
      rw [herr]
    · rw [h] at herr; cases herr
  · intro h
    rw [ListWithCursor_eq]
    simp [listWithCursor, finish, h]
  · intro cp rest a htag hp h
    rw [ListWithCursor_eq]
    simp [listWithCursor, finish, h, htag, hp]

/-- C9. Cursor validation: a non-empty cursor whose first byte is none of the three
partition tags, or whose remainder does not parse as an address, makes
`ListWithCursor` fail with a cursor-format error, which is not `ErrEndOfListing`,
with the nil list and the empty cursor, and the outcome is the same for every index
and count; the empty cursor never yields a cursor-format error. -/
theorem ListWithCursor_cursor_validation (L : Layout) (cp : Char) (rest : GoString) :
    (¬ (cp = cursorPrefixPrimary ∨ cp = cursorPrefixSG ∨ cp = cursorPrefixTombstone) →
        ∀ tx count, ListWithCursor L tx count (cp :: rest) =
          ([], [], some (.invalidCursorPrefix cp))) ∧
      ((cp = cursorPrefixPrimary ∨ cp = cursorPrefixSG ∨ cp = cursorPrefixTombstone) →
        parseAddress L rest = none →
        ∀ tx count, ListWithCursor L tx count (cp :: rest) =
          ([], [], some .invalidCursorAddress)) ∧
      ((¬ (cp = cursorPrefixPrimary ∨ cp = cursorPrefixSG ∨ cp = cursorPrefixTombstone) ∨
          parseAddress L rest = none) →
        ∃ err, isCursorFormatError err = true ∧ err ≠ .errEndOfListing ∧
          ∀ tx count, ListWithCursor L tx count (cp :: rest) = ([], [], some err)) ∧
      (∀ tx count err, (ListWithCursor L tx count []).2.2 = some err →
        err = .errEndOfListing ∧ isCursorFormatError err = false) := by
  have h1 : ¬ (cp = cursorPrefixPrimary ∨ cp = cursorPrefixSG ∨ cp = cursorPrefixTombstone) →
      ∀ tx count, ListWithCursor L tx count (cp :: rest) =
        ([], [], some (.invalidCursorPrefix cp)) := by
    intro h tx count
    rw [ListWithCursor_eq]
    simp only [listWithCursor, h, if_false]
  have h2 : (cp = cursorPrefixPrimary ∨ cp = cursorPrefixSG ∨ cp = cursorPrefixTombstone) →
      parseAddress L rest = none →
      ∀ tx count, ListWithCursor L tx count (cp :: rest) =
        ([], [], some .invalidCursorAddress) := by
    intro h hp tx count
    rw [ListWithCursor_eq]
    simp only [listWithCursor, h, if_true, hp]
  refine ⟨h1, h2, ?_, ?_⟩
  · intro h
    by_cases htag : cp = cursorPrefixPrimary ∨ cp = cursorPrefixSG ∨ cp = cursorPrefixTombstone
    · have hp : parseAddress L rest = none := by
        rcases h with h | h
        · exact absurd htag h
        · exact h
      exact ⟨.invalidCursorAddress, rfl, by simp, h2 htag hp⟩
    · exact ⟨.invalidCursorPrefix cp, rfl, by simp, h1 htag⟩
  · intro tx count err herr
    rw [ListWithCursor_eq] at herr
    simp only [listWithCursor, finish] at herr
    split at herr
    · simp at herr; subst herr; exact ⟨rfl, rfl⟩
    · simp at herr

end Metabase

namespace Metabase

/-! ## One call on any index: the cursor -/

theorem selectLoop_visit (L : Layout) (tx : Tx) (pfx : GoString) (limit : Nat) :
    ∀ (ks : List GoString) (dst : List Address) (cursor : GoString),
      (((selectLoop L tx pfx limit ks dst dst.length cursor).1 = dst ∧
          (selectLoop L tx pfx limit ks dst dst.length cursor).2 = cursor) ∨
        ∃ k ∈ ks, (selectLoop L tx pfx limit ks dst dst.length cursor).2 = pfx ++ k) ∧
      (dst.length < limit →
        limit ≤ (selectLoop L tx pfx limit ks dst dst.length cursor).1.length →
        ∃ k ∈ ks, ∃ a, parseAddress L (pfx ++ k) = some a ∧ inGraveyard tx a = 0 ∧
          (selectLoop L tx pfx limit ks dst dst.length cursor).1.getLast? = some a ∧
          (selectLoop L tx pfx limit ks dst dst.length cursor).2 = pfx ++ k ∧
          (selectLoop L tx pfx limit ks dst dst.length cursor).1.length = limit) := by
  intro ks
  induction ks with
  | nil =>
    intro dst cursor
    refine ⟨Or.inl ⟨rfl, rfl⟩, fun h1 h2 => ?_⟩
    simp only [selectLoop] at h2
    omega
  | cons k ks ih =>
    intro dst cursor
    by_cases hfull : limit ≤ dst.length
    · rw [selectLoop_full L tx pfx limit (k :: ks) dst dst.length cursor hfull]
      exact ⟨Or.inl ⟨rfl, rfl⟩, fun h1 _ => absurd hfull (by omega)⟩
    · have hlt : ¬ dst.length ≥ limit := hfull
      cases hp : parseAddress L (pfx ++ k) with
      | none =>
        have e : selectLoop L tx pfx limit (k :: ks) dst dst.length cursor = (dst, pfx ++ k) := by
          simp only [selectLoop, hlt, if_false, hp]
        rw [e]
        exact ⟨Or.inr ⟨k, List.mem_cons_self _ _, rfl⟩, fun _ h2 => absurd h2 hfull⟩
      | some a =>
        by_cases hg : inGraveyard tx a > 0
        · have e : selectLoop L tx pfx limit (k :: ks) dst dst.length cursor =
              selectLoop L tx pfx limit ks dst dst.length (pfx ++ k) := by
            simp only [selectLoop, hlt, if_false, hp, hg, if_true]
          rw [e]
          obtain ⟨i1, i2⟩ := ih dst (pfx ++ k)
          refine ⟨?_, fun h1 h2 => ?_⟩
          · rcases i1 with ⟨_, h⟩ | ⟨k1, hk1, h⟩
            · exact Or.inr ⟨k, List.mem_cons_self _ _, h⟩
            · exact Or.inr ⟨k1, List.mem_cons_of_mem _ hk1, h⟩
          · obtain ⟨k1, hk1, a1, h⟩ := i2 h1 h2
            exact ⟨k1, List.mem_cons_of_mem _ hk1, a1, h⟩
        · have hlen : (dst ++ [a]).length = dst.length + 1 := by simp
          have e : selectLoop L tx pfx limit (k :: ks) dst dst.length cursor =
              selectLoop L tx pfx limit ks (dst ++ [a]) (dst ++ [a]).length (pfx ++ k) := by
            rw [hlen]
            simp only [selectLoop, hlt, if_false, hp, hg]
          rw [e]
          obtain ⟨i1, i2⟩ := ih (dst ++ [a]) (pfx ++ k)
          refine ⟨?_, fun h1 h2 => ?_⟩
          · rcases i1 with ⟨_, h⟩ | ⟨k1, hk1, h⟩
            · exact Or.inr ⟨k, List.mem_cons_self _ _, h⟩
            · exact Or.inr ⟨k1, List.mem_cons_of_mem _ hk1, h⟩
          · by_cases hf2 : limit ≤ (dst ++ [a]).length
            · rw [selectLoop_full L tx pfx limit ks (dst ++ [a]) _ (pfx ++ k) hf2]
              refine ⟨k, List.mem_cons_self _ _, a, hp, by omega, by simp, rfl, ?_⟩
              show (dst ++ [a]).length = limit
              omega
            · obtain ⟨k1, hk1, a1, h⟩ := i2 (by omega) h2
              exact ⟨k1, List.mem_cons_of_mem _ hk1, a1, h⟩

theorem selectNFromBucket_as_loop (L : Layout) (tx : Tx) (name pfx : GoString)
    (dst : List Address) (limit : Nat) (cursor : GoString) (threshold : Bool) :
    ∃ ks, (∀ k ∈ ks, k ∈ tx.keysOf name) ∧
      selectNFromBucket L tx name pfx dst limit cursor threshold =
        selectLoop L tx pfx limit ks dst dst.length cursor := by
  cases threshold with
  | true => exact ⟨_, fun _ h => h, selectNFromBucket_true L tx name pfx dst limit cursor⟩
  | false =>
    refine ⟨_, fun k hk => ?_, selectNFromBucket_false L tx name pfx dst limit cursor⟩
    obtain ⟨front, hf⟩ := seek_next_suffix (tx.keysOf name) (stringsReplace1 cursor pfx)
    rw [hf]
    exact List.mem_append_right _ hk

theorem bucketsLoop_visit (L : Layout) (tx : Tx) (n : Nat) (c : GoString)
    (amb : List GoString) (hc : c ∈ amb) :
    ∀ (lbs : List (GoString × Char)) (st : ScanState),
      (∀ lb ∈ lbs, lb ∈ lookupBuckets L c) → st.result.length < n →
      (st.result ≠ [] → KeyCursor L tx amb st) →
      ((bucketsLoop L tx n (c ++ ['/']) lbs st).2 = true →
        FullPage L tx amb n (bucketsLoop L tx n (c ++ ['/']) lbs st).1) ∧
      ((bucketsLoop L tx n (c ++ ['/']) lbs st).2 = false →
        (bucketsLoop L tx n (c ++ ['/']) lbs st).1.result.length < n ∧
        ((bucketsLoop L tx n (c ++ ['/']) lbs st).1.result ≠ [] →
          KeyCursor L tx amb (bucketsLoop L tx n (c ++ ['/']) lbs st).1)) := by
  intro lbs
  induction lbs with
  | nil =>
    intro st _ hlt hkc
    exact ⟨fun h => by simp [bucketsLoop] at h, fun _ => ⟨hlt, hkc⟩⟩
  | cons lb lbs ih =>
    intro st hsub hlt hkc
    have hlb : lb ∈ lookupBuckets L c := hsub lb (List.mem_cons_self _ _)
    have hsub1 : ∀ x ∈ lbs, x ∈ lookupBuckets L c := fun x hx =>
      hsub x (List.mem_cons_of_mem _ hx)
    by_cases hskip : (!st.threshold && st.cursorPrefix != lb.2) = true
    · have e : bucketsLoop L tx n (c ++ ['/']) (lb :: lbs) st =
          bucketsLoop L tx n (c ++ ['/']) lbs st := by
        simp only [bucketsLoop, hskip, if_true]
      rw [e]
      exact ih st hsub1 hlt hkc
    · obtain ⟨ks, hks, hsel⟩ := selectNFromBucket_as_loop L tx lb.1 (c ++ ['/']) st.result n
        st.cursor st.threshold
      obtain ⟨v1, v2⟩ := selectLoop_visit L tx (c ++ ['/']) n ks st.result st.cursor
      rw [← hsel] at v1 v2
      by_cases hfull : (selectNFromBucket L tx lb.1 (c ++ ['/']) st.result n st.cursor
          st.threshold).1.length ≥ n
      · have e : bucketsLoop L tx n (c ++ ['/']) (lb :: lbs) st =
            (⟨(selectNFromBucket L tx lb.1 (c ++ ['/']) st.result n st.cursor st.threshold).1,
              (selectNFromBucket L tx lb.1 (c ++ ['/']) st.result n st.cursor st.threshold).2,
              lb.2, st.threshold, st.unique⟩, true) := by
          simp only [bucketsLoop, hskip, hfull, if_true, Bool.false_eq_true, if_false]
        rw [e]
        refine ⟨fun _ => ?_, fun h => by simp at h⟩
        obtain ⟨k, hk, a, h1, h2, h3, h4, h5⟩ := v2 hlt hfull
        exact ⟨c, hc, lb, hlb, k, hks k hk, a, h1, h2, h3, h4, rfl, h5⟩
      · have e : bucketsLoop L tx n (c ++ ['/']) (lb :: lbs) st =
            bucketsLoop L tx n (c ++ ['/']) lbs
              ⟨(selectNFromBucket L tx lb.1 (c ++ ['/']) st.result n st.cursor st.threshold).1,
                (selectNFromBucket L tx lb.1 (c ++ ['/']) st.result n st.cursor st.threshold).2,
                lb.2, true, st.unique⟩ := by
          simp only [bucketsLoop, hskip, hfull, if_false, Bool.false_eq_true]
        rw [e]
        refine ih _ hsub1 (by simpa using hfull) (fun hne => ?_)
        rcases v1 with ⟨h1, h2⟩ | ⟨k, hk, h⟩
        · obtain ⟨c1, hc1, lb1, hlb1, k1, hk1, hcur⟩ := hkc (by
            intro h0
            apply hne
            show (selectNFromBucket L tx lb.1 (c ++ ['/']) st.result n st.cursor
              st.threshold).1 = []
            rw [h1, h0])
          exact ⟨c1, hc1, lb1, hlb1, k1, hk1, by
            show (selectNFromBucket L tx lb.1 (c ++ ['/']) st.result n st.cursor
              st.threshold).2 = _
            rw [h2, hcur]⟩
        · exact ⟨c, hc, lb, hlb, k, hks k hk, h⟩

theorem bucketsLoop_tag (L : Layout) (tx : Tx) (n : Nat) (pfx : GoString) :
    ∀ (lbs : List (GoString × Char)) (st : ScanState),
      (st.threshold = true ∨ st.cursorPrefix ∈ lbs.map Prod.snd) →
      (bucketsLoop L tx n pfx lbs st).2 = false →
      (bucketsLoop L tx n pfx lbs st).1.threshold = true ∧
      ∀ d, (bucketsLoop L tx n pfx lbs st).1.cursorPrefix =
        ((lbs.getLast?).map Prod.snd).getD (if lbs = [] then st.cursorPrefix else d) := by
  intro lbs
  induction lbs with
  | nil =>
    intro st h _
    rcases h with h | h
    · exact ⟨h, fun d => by simp [bucketsLoop]⟩
    · simp at h
  | cons lb lbs ih =>
    intro st h hnb
    by_cases hskip : (!st.threshold && st.cursorPrefix != lb.2) = true
    · have e : bucketsLoop L tx n pfx (lb :: lbs) st = bucketsLoop L tx n pfx lbs st := by
        simp only [bucketsLoop, hskip, if_true]
      rw [e] at hnb ⊢
      simp only [Bool.and_eq_true, Bool.not_eq_true', bne_iff_ne, ne_eq] at hskip
      have hmem : st.cursorPrefix ∈ lbs.map Prod.snd := by
        rcases h with h | h
        · rw [hskip.1] at h
          exact absurd h (by simp)
        · simp only [List.map_cons, List.mem_cons] at h
          rcases h with h | h
          · exact absurd h hskip.2
          · exact h
      have hne : lbs ≠ [] := by
        intro h0
        rw [h0] at hmem
        simp at hmem
      obtain ⟨i1, i2⟩ := ih st (Or.inr hmem) hnb
      refine ⟨i1, fun d => ?_⟩
      rw [i2 lb.2, if_neg hne, lastTag_cons]
    · by_cases hfull : (selectNFromBucket L tx lb.1 pfx st.result n st.cursor
          st.threshold).1.length ≥ n
      · have e : bucketsLoop L tx n pfx (lb :: lbs) st =
            (⟨(selectNFromBucket L tx lb.1 pfx st.result n st.cursor st.threshold).1,
              (selectNFromBucket L tx lb.1 pfx st.result n st.cursor st.threshold).2,
              lb.2, st.threshold, st.unique⟩, true) := by
          simp only [bucketsLoop, hskip, hfull, if_true, Bool.false_eq_true, if_false]
        rw [e] at hnb
        simp at hnb
      · have e : bucketsLoop L tx n pfx (lb :: lbs) st =
            bucketsLoop L tx n pfx lbs
              ⟨(selectNFromBucket L tx lb.1 pfx st.result n st.cursor st.threshold).1,
                (selectNFromBucket L tx lb.1 pfx st.result n st.cursor st.threshold).2,
                lb.2, true, st.unique⟩ := by
          simp only [bucketsLoop, hskip, hfull, if_false, Bool.false_eq_true]
        rw [e] at hnb ⊢
        obtain ⟨i1, i2⟩ := ih _ (Or.inl rfl) hnb
        refine ⟨i1, fun d => ?_⟩
        rw [i2 lb.2, lastTag_cons, ite_self]

theorem contsLoop_visit (L : Layout) (tx : Tx) (n : Nat) (amb : List GoString) :
    ∀ (cs : List GoString) (st : ScanState),
      (∀ c ∈ cs, c ∈ amb) → ShortPage L tx amb n st →
      (st.threshold = true ∨ st.cursorPrefix = cursorPrefixPrimary ∨
        st.cursorPrefix = cursorPrefixSG ∨ st.cursorPrefix = cursorPrefixTombstone) →
      FullPage L tx amb n (contsLoop L tx n cs st) ∨
        ShortPage L tx amb n (contsLoop L tx n cs st) := by
  intro cs
  induction cs with
  | nil =>
    intro st _ hsp _
    exact Or.inr hsp
  | cons c cs ih =>
    intro st hsub hsp htag
    have hc : c ∈ amb := hsub c (List.mem_cons_self _ _)
    obtain ⟨b1, b2⟩ := bucketsLoop_visit L tx n c amb hc (lookupBuckets L c)
      ⟨st.result, st.cursor, st.cursorPrefix, st.threshold, c :: st.unique⟩
      (fun _ h => h) hsp.1 (fun hne => (hsp.2 hne).1)
    cases hb : (bucketsLoop L tx n (c ++ ['/']) (lookupBuckets L c)
        ⟨st.result, st.cursor, st.cursorPrefix, st.threshold, c :: st.unique⟩).2 with
    | true =>
      have e : contsLoop L tx n (c :: cs) st = (bucketsLoop L tx n (c ++ ['/'])
          (lookupBuckets L c)
          ⟨st.result, st.cursor, st.cursorPrefix, st.threshold, c :: st.unique⟩).1 := by
        simp only [contsLoop, hb, if_true]
      rw [e]
      exact Or.inl (b1 hb)
    | false =>
      have e : contsLoop L tx n (c :: cs) st = contsLoop L tx n cs (bucketsLoop L tx n
          (c ++ ['/']) (lookupBuckets L c)
          ⟨st.result, st.cursor, st.cursorPrefix, st.threshold, c :: st.unique⟩).1 := by
        simp only [contsLoop, hb, Bool.false_eq_true, if_false]
      rw [e]
      have hmem : st.threshold = true ∨
          st.cursorPrefix ∈ (lookupBuckets L c).map Prod.snd := by
        rcases htag with h | h | h | h
        · exact Or.inl h
        all_goals exact Or.inr (by simp [lookupBuckets, h])
      obtain ⟨t1, t2⟩ := bucketsLoop_tag L tx n (c ++ ['/']) (lookupBuckets L c)
        ⟨st.result, st.cursor, st.cursorPrefix, st.threshold, c :: st.unique⟩ hmem hb
      have t3 := t2 cursorPrefixSG
      rw [lookupBuckets_lastTag] at t3
      obtain ⟨s1, s2⟩ := b2 hb
      exact ih _ (fun x hx => hsub x (List.mem_cons_of_mem _ hx))
        ⟨s1, fun hne => ⟨s2 hne, t3⟩⟩ (Or.inl t1)

theorem seek_subset (keys : List GoString) (k x : GoString) (h : x ∈ seek keys k) :
    x ∈ keys :=
  (List.dropWhile_suffix _).subset h

theorem visitOrder_seek_subset (L : Layout) (tx : Tx) (k c : GoString)
    (h : c ∈ visitOrder L (seek tx.names k) []) : c ∈ containers L tx := by
  obtain ⟨⟨nm, hnm, hcn⟩, _⟩ := (mem_visitOrder L (seek tx.names k) [] c).mp h
  exact (mem_visitOrder L tx.names [] c).mpr
    ⟨⟨nm, seek_subset tx.names k nm hnm, hcn⟩, by simp⟩

theorem scan_visit (L : Layout) (tx : Tx) (n : Nat) (hn : 1 ≤ n)
    (dc : Option (Char × GoString × Address))
    (hdc : ∀ tag text a, dc = some (tag, text, a) →
      tag = cursorPrefixPrimary ∨ tag = cursorPrefixSG ∨ tag = cursorPrefixTombstone) :
    FullPage L tx (containers L tx) n (scan L tx n dc) ∨
      ShortPage L tx (containers L tx) n (scan L tx n dc) := by
  cases dc with
  | none =>
    show FullPage L tx (containers L tx) n (namesLoop L tx n tx.names _) ∨
      ShortPage L tx (containers L tx) n (namesLoop L tx n tx.names _)
    rw [namesLoop_eq_contsLoop]
    exact contsLoop_visit L tx n (containers L tx) _ _ (fun _ h => h)
      ⟨by simpa using hn, fun h => absurd rfl h⟩ (Or.inl rfl)
  | some p =>
    obtain ⟨tag, text, a⟩ := p
    show FullPage L tx (containers L tx) n (namesLoop L tx n (seek tx.names a.cid) _) ∨
      ShortPage L tx (containers L tx) n (namesLoop L tx n (seek tx.names a.cid) _)
    rw [namesLoop_eq_contsLoop]
    exact contsLoop_visit L tx n (containers L tx) _ _
      (fun c h => visitOrder_seek_subset L tx a.cid c h)
      ⟨by simpa using hn, fun h => absurd rfl h⟩ (Or.inr (hdc tag text a rfl))

theorem listWithCursor_visit (L : Layout) (tx : Tx) (n : Nat) (hn : 1 ≤ n)
    (cursor : GoString) (page : List Address) (cur : GoString)
    (h : listWithCursor L tx n cursor = (page, cur, none)) :
    ∃ st : ScanState, page = st.result ∧ cur = st.cursorPrefix :: st.cursor ∧ page ≠ [] ∧
      (FullPage L tx (containers L tx) n st ∨ ShortPage L tx (containers L tx) n st) := by
  have hfin : ∀ st : ScanState, finish st = (page, cur, none) →
      page = st.result ∧ cur = st.cursorPrefix :: st.cursor ∧ page ≠ [] := by
    intro st hf
    unfold finish at hf
    by_cases h0 : st.result.length = 0
    · rw [if_pos h0] at hf
      simp at hf
    · rw [if_neg h0] at hf
      simp only [Prod.mk.injEq, and_true] at hf
      refine ⟨hf.1.symm, hf.2.symm, ?_⟩
      rw [← hf.1]
      intro h1
      exact h0 (by rw [h1]; rfl)
  cases cursor with
  | nil =>
    have hf : finish (scan L tx n none) = (page, cur, none) := h
    obtain ⟨p1, p2, p3⟩ := hfin _ hf
    exact ⟨_, p1, p2, p3, scan_visit L tx n hn none (fun _ _ _ h => by simp at h)⟩
  | cons cp rest =>
    unfold listWithCursor at h
    dsimp only at h
    by_cases hv : cp = cursorPrefixPrimary ∨ cp = cursorPrefixSG ∨ cp = cursorPrefixTombstone
    · rw [if_pos hv] at h
      cases hp : parseAddress L rest with
      | none =>
        rw [hp] at h
        simp at h
      | some a =>
        rw [hp] at h
        obtain ⟨p1, p2, p3⟩ := hfin _ h
        refine ⟨_, p1, p2, p3, scan_visit L tx n hn _ (fun tag text b hb => ?_)⟩
        simp only [Option.some.injEq, Prod.mk.injEq] at hb
        rw [← hb.1]
        exact hv
    · rw [if_neg hv] at h
      simp at h

theorem listWithCursor_success_count (L : Layout) (tx : Tx) (n : Nat)
    (cursor : GoString) (page : List Address) (cur : GoString)
    (h : listWithCursor L tx n cursor = (page, cur, none)) : 1 ≤ n ∧ page.length ≤ n := by
  rcases listWithCursor_shape L tx n cursor with ⟨err, he⟩ | ⟨c, hc, hne⟩
  · rw [he] at h
    simp at h
  · rw [hc] at h
    simp only [Prod.mk.injEq, and_true] at h
    have hok := (scan_ok L tx n c).1
    rw [h.1] at hok hne
    have : 0 < page.length := List.length_pos.mpr hne
    omega

theorem fullPage_text (L : Layout) (tx : Tx) (amb : List GoString) (n : Nat) (st : ScanState)
    (h : FullPage L tx amb n st) :
    ∃ c ∈ amb, ∃ lb ∈ lookupBuckets L c, ∃ k ∈ tx.keysOf lb.1, ∃ a,
      st.result.getLast? = some a ∧ a = ⟨c, k⟩ ∧ inGraveyard tx a = 0 ∧
      parseAddress L (c ++ ['/'] ++ k) = some a ∧
      st.cursorPrefix :: st.cursor = lb.2 :: Address.String a := by
  obtain ⟨c, hc, lb, hlb, k, hk, a, h1, h2, h3, h4, h5, _⟩ := h
  have ha := parseAddress_text L c k a h1
  refine ⟨c, hc, lb, hlb, k, hk, a, h3, ha, h2, h1, ?_⟩
  rw [h4, h5, ha]
  simp [Address.String]

/-! ## One call on any index: the page -/

theorem take_append_step (a x y : List Address) (n : Nat) :
    a ++ (x ++ y).take (n - a.length) =
      (a ++ x.take (n - a.length)) ++ y.take (n - (a ++ x.take (n - a.length)).length) := by
  rw [List.take_append_eq_append_take, List.append_assoc]
  congr 2
  simp only [List.length_append, List.length_take]
  congr 1
  omega

theorem selectNFromBucket_scanned_true (L : Layout) (tx : Tx) (name pfx : GoString)
    (dst : List Address) (limit : Nat) (cursor : GoString) :
    (selectNFromBucket L tx name pfx dst limit cursor true).1 =
      dst ++ (scannedLive L tx pfx (tx.keysOf name)).take (limit - dst.length) := by
  rw [selectNFromBucket_true, selectLoop_result]
  rfl

theorem selectNFromBucket_scanned_false (L : Layout) (tx : Tx) (name pfx : GoString)
    (dst : List Address) (limit : Nat) (cursor : GoString) :
    (selectNFromBucket L tx name pfx dst limit cursor false).1 =
      dst ++ (scannedLive L tx pfx
        (next (seek (tx.keysOf name) (stringsReplace1 cursor pfx)))).take
          (limit - dst.length) := by
  rw [selectNFromBucket_false, selectLoop_result]
  rfl

theorem bucketsLoop_scanned (L : Layout) (tx : Tx) (n : Nat) (c : GoString) :
    ∀ (lbs : List (GoString × Char)) (st : ScanState), st.threshold = true →
      (bucketsLoop L tx n (c ++ ['/']) lbs st).1.result =
        st.result ++ (bucketsScanned L tx c lbs).take (n - st.result.length) ∧
      ((bucketsLoop L tx n (c ++ ['/']) lbs st).2 = true →
        n ≤ (bucketsLoop L tx n (c ++ ['/']) lbs st).1.result.length) ∧
      ((bucketsLoop L tx n (c ++ ['/']) lbs st).2 = false →
        (bucketsLoop L tx n (c ++ ['/']) lbs st).1.threshold = true) := by
  intro lbs
  induction lbs with
  | nil =>
    intro st hthr
    refine ⟨by simp [bucketsLoop, bucketsScanned], fun h => by simp [bucketsLoop] at h,
      fun _ => hthr⟩
  | cons lb lbs ih =>
    intro st hthr
    have hskip : ¬ (!st.threshold && st.cursorPrefix != lb.2) = true := by simp [hthr]
    have hsel := selectNFromBucket_scanned_true L tx lb.1 (c ++ ['/']) st.result n st.cursor
    have hsplit : bucketsScanned L tx c (lb :: lbs) =
        scannedLive L tx (c ++ ['/']) (tx.keysOf lb.1) ++ bucketsScanned L tx c lbs := by
      simp [bucketsScanned]
    rw [hsplit, take_append_step, ← hsel]
    by_cases hfull : (selectNFromBucket L tx lb.1 (c ++ ['/']) st.result n st.cursor
        st.threshold).1.length ≥ n
    · have e : bucketsLoop L tx n (c ++ ['/']) (lb :: lbs) st =
          (⟨(selectNFromBucket L tx lb.1 (c ++ ['/']) st.result n st.cursor st.threshold).1,
            (selectNFromBucket L tx lb.1 (c ++ ['/']) st.result n st.cursor st.threshold).2,
            lb.2, st.threshold, st.unique⟩, true) := by
        simp only [bucketsLoop, hskip, hfull, if_true, Bool.false_eq_true, if_false]
      rw [e]
      rw [hthr] at hfull ⊢
      refine ⟨?_, fun _ => hfull, fun h => by simp at h⟩
      have h0 : n - (selectNFromBucket L tx lb.1 (c ++ ['/']) st.result n st.cursor
          true).1.length = 0 := by omega
      simp [h0]
    · have e : bucketsLoop L tx n (c ++ ['/']) (lb :: lbs) st =
          bucketsLoop L tx n (c ++ ['/']) lbs
            ⟨(selectNFromBucket L tx lb.1 (c ++ ['/']) st.result n st.cursor st.threshold).1,
              (selectNFromBucket L tx lb.1 (c ++ ['/']) st.result n st.cursor st.threshold).2,
              lb.2, true, st.unique⟩ := by
        simp only [bucketsLoop, hskip, hfull, if_false, Bool.false_eq_true]
      rw [e]
      obtain ⟨i1, i2, i3⟩ := ih ⟨(selectNFromBucket L tx lb.1 (c ++ ['/']) st.result n
        st.cursor st.threshold).1, (selectNFromBucket L tx lb.1 (c ++ ['/']) st.result n
        st.cursor st.threshold).2, lb.2, true, st.unique⟩ rfl
      refine ⟨?_, i2, i3⟩
      rw [i1]
      simp only [hthr]

theorem bucketsScannedAfter_split (L : Layout) (tx : Tx) (c : GoString)
    (pre : List (GoString × Char)) (lb : GoString × Char) (rest : List (GoString × Char))
    (k : GoString) (hnodup : ((pre ++ lb :: rest).map Prod.snd).Nodup) :
    bucketsScannedAfter L tx c (pre ++ lb :: rest) lb.2 k =
      scannedLive L tx (c ++ ['/']) (next (seek (tx.keysOf lb.1) k)) ++
        bucketsScanned L tx c rest := by
  have hpre : ∀ x ∈ pre, (fun y : GoString × Char => y.2 != lb.2) x = true := by
    intro x hx
    rw [List.map_append, List.nodup_append] at hnodup
    have : x.2 ≠ lb.2 := fun heq =>
      hnodup.2.2 (List.mem_map_of_mem Prod.snd hx) (by rw [heq]; simp)
    simpa using this
  unfold bucketsScannedAfter
  rw [List.dropWhile_append_of_pos hpre]
  simp [List.dropWhile_cons]

theorem bucketsLoop_scanned_first (L : Layout) (tx : Tx) (n : Nat) (c : GoString)
    (pre : List (GoString × Char)) (lb : GoString × Char) (rest : List (GoString × Char))
    (st : ScanState) (hthr : st.threshold = false) (hcp : st.cursorPrefix = lb.2)
    (hnodup : ((pre ++ lb :: rest).map Prod.snd).Nodup) :
    (bucketsLoop L tx n (c ++ ['/']) (pre ++ lb :: rest) st).1.result =
        st.result ++ (bucketsScannedAfter L tx c (pre ++ lb :: rest) lb.2
          (stringsReplace1 st.cursor (c ++ ['/']))).take (n - st.result.length) ∧
      ((bucketsLoop L tx n (c ++ ['/']) (pre ++ lb :: rest) st).2 = true →
        n ≤ (bucketsLoop L tx n (c ++ ['/']) (pre ++ lb :: rest) st).1.result.length) ∧
      ((bucketsLoop L tx n (c ++ ['/']) (pre ++ lb :: rest) st).2 = false →
        (bucketsLoop L tx n (c ++ ['/']) (pre ++ lb :: rest) st).1.threshold = true) := by
  have hpre : ∀ x ∈ pre, x.2 ≠ st.cursorPrefix := by
    intro x hx heq
    rw [List.map_append, List.nodup_append] at hnodup
    exact hnodup.2.2 (List.mem_map_of_mem Prod.snd hx) (by rw [heq, hcp]; simp)
  rw [bucketsLoop_skip L tx n _ pre _ st hthr hpre, bucketsScannedAfter_split L tx c pre lb
    rest _ hnodup]
  have hskip : ¬ (!st.threshold && st.cursorPrefix != lb.2) = true := by simp [hcp]
  have hsel := selectNFromBucket_scanned_false L tx lb.1 (c ++ ['/']) st.result n st.cursor
  rw [take_append_step, ← hsel]
  by_cases hfull : (selectNFromBucket L tx lb.1 (c ++ ['/']) st.result n st.cursor
      st.threshold).1.length ≥ n
  · have e : bucketsLoop L tx n (c ++ ['/']) (lb :: rest) st =
        (⟨(selectNFromBucket L tx lb.1 (c ++ ['/']) st.result n st.cursor st.threshold).1,
          (selectNFromBucket L tx lb.1 (c ++ ['/']) st.result n st.cursor st.threshold).2,
          lb.2, st.threshold, st.unique⟩, true) := by
      simp only [bucketsLoop, hskip, hfull, if_true, Bool.false_eq_true, if_false]
    rw [e]
    rw [hthr] at hfull ⊢
    refine ⟨?_, fun _ => hfull, fun h => by simp at h⟩
    have h0 : n - (selectNFromBucket L tx lb.1 (c ++ ['/']) st.result n st.cursor
        false).1.length = 0 := by omega
    simp [h0]
  · have e : bucketsLoop L tx n (c ++ ['/']) (lb :: rest) st =
        bucketsLoop L tx n (c ++ ['/']) rest
          ⟨(selectNFromBucket L tx lb.1 (c ++ ['/']) st.result n st.cursor st.threshold).1,
            (selectNFromBucket L tx lb.1 (c ++ ['/']) st.result n st.cursor st.threshold).2,
            lb.2, true, st.unique⟩ := by
      simp only [bucketsLoop, hskip, hfull, if_false, Bool.false_eq_true]
    rw [e]
    obtain ⟨i1, i2, i3⟩ := bucketsLoop_scanned L tx n c rest
      ⟨(selectNFromBucket L tx lb.1 (c ++ ['/']) st.result n
      st.cursor st.threshold).1, (selectNFromBucket L tx lb.1 (c ++ ['/']) st.result n
      st.cursor st.threshold).2, lb.2, true, st.unique⟩ rfl
    refine ⟨?_, i2, i3⟩
    rw [i1]
    simp only [hthr]

theorem contsLoop_scanned (L : Layout) (tx : Tx) (n : Nat) :
    ∀ (cs : List GoString) (st : ScanState), st.threshold = true →
      (contsLoop L tx n cs st).result =
        st.result ++ (cs.flatMap (containerScanned L tx)).take (n - st.result.length) := by
  intro cs
  induction cs with
  | nil =>
    intro st _
    simp [contsLoop]
  | cons c cs ih =>
    intro st hthr
    obtain ⟨b1, b2, b3⟩ := bucketsLoop_scanned L tx n c (lookupBuckets L c)
      ⟨st.result, st.cursor, st.cursorPrefix, st.threshold, c :: st.unique⟩ hthr
    have hsplit : (c :: cs).flatMap (containerScanned L tx) =
        bucketsScanned L tx c (lookupBuckets L c) ++ cs.flatMap (containerScanned L tx) := by
      simp [containerScanned]
    rw [hsplit, take_append_step]
    dsimp only at b1 b2 b3
    rw [← b1]
    cases hb : (bucketsLoop L tx n (c ++ ['/']) (lookupBuckets L c)
        ⟨st.result, st.cursor, st.cursorPrefix, st.threshold, c :: st.unique⟩).2 with
    | true =>
      have e : contsLoop L tx n (c :: cs) st = (bucketsLoop L tx n (c ++ ['/'])
          (lookupBuckets L c)
          ⟨st.result, st.cursor, st.cursorPrefix, st.threshold, c :: st.unique⟩).1 := by
        simp only [contsLoop, hb, if_true]
      rw [e]
      have h0 : n - (bucketsLoop L tx n (c ++ ['/']) (lookupBuckets L c)
          ⟨st.result, st.cursor, st.cursorPrefix, st.threshold,
            c :: st.unique⟩).1.result.length = 0 := by
        have := b2 hb
        omega
      simp [h0]
    | false =>
      have e : contsLoop L tx n (c :: cs) st = contsLoop L tx n cs (bucketsLoop L tx n
          (c ++ ['/']) (lookupBuckets L c)
          ⟨st.result, st.cursor, st.cursorPrefix, st.threshold, c :: st.unique⟩).1 := by
        simp only [contsLoop, hb, Bool.false_eq_true, if_false]
      rw [e]
      exact ih _ (b3 hb)

theorem contsLoop_scanned_first (L : Layout) (tx : Tx) (n : Nat) (c : GoString)
    (cs : List GoString) (st : ScanState) (hthr : st.threshold = false)
    (htag : st.cursorPrefix = cursorPrefixPrimary ∨ st.cursorPrefix = cursorPrefixSG ∨
      st.cursorPrefix = cursorPrefixTombstone) :
    (contsLoop L tx n (c :: cs) st).result =
      st.result ++ (bucketsScannedAfter L tx c (lookupBuckets L c) st.cursorPrefix
          (stringsReplace1 st.cursor (c ++ ['/'])) ++
        cs.flatMap (containerScanned L tx)).take (n - st.result.length) := by
  obtain ⟨pre, lb, rest, hsp, hlb⟩ := lookupBuckets_split L c st.cursorPrefix htag
  have hnd := lookupBuckets_nodup L c
  rw [hsp] at hnd
  obtain ⟨b1, b2, b3⟩ := bucketsLoop_scanned_first L tx n c pre lb rest
    ⟨st.result, st.cursor, st.cursorPrefix, st.threshold, c :: st.unique⟩ hthr hlb.symm hnd
  rw [← hsp] at b1 b2 b3
  rw [hlb] at b1
  dsimp only at b1 b2 b3
  rw [take_append_step, ← b1]
  cases hb : (bucketsLoop L tx n (c ++ ['/']) (lookupBuckets L c)
      ⟨st.result, st.cursor, st.cursorPrefix, st.threshold, c :: st.unique⟩).2 with
  | true =>
    have e : contsLoop L tx n (c :: cs) st = (bucketsLoop L tx n (c ++ ['/'])
        (lookupBuckets L c)
        ⟨st.result, st.cursor, st.cursorPrefix, st.threshold, c :: st.unique⟩).1 := by
      simp only [contsLoop, hb, if_true]
    rw [e]
    have h0 : n - (bucketsLoop L tx n (c ++ ['/']) (lookupBuckets L c)
        ⟨st.result, st.cursor, st.cursorPrefix, st.threshold,
          c :: st.unique⟩).1.result.length = 0 := by
      have := b2 hb
      omega
    simp [h0]
  | false =>
    have e : contsLoop L tx n (c :: cs) st = contsLoop L tx n cs (bucketsLoop L tx n
        (c ++ ['/']) (lookupBuckets L c)
        ⟨st.result, st.cursor, st.cursorPrefix, st.threshold, c :: st.unique⟩).1 := by
      simp only [contsLoop, hb, Bool.false_eq_true, if_false]
    rw [e]
    exact contsLoop_scanned L tx n cs _ (b3 hb)

/-- The page of a call on any index: the first `n` of the addresses the scan
yields. -/
theorem scan_result (L : Layout) (tx : Tx) (n : Nat)
    (dc : Option (Char × GoString × Address))
    (hdc : ∀ tag text a, dc = some (tag, text, a) →
      tag = cursorPrefixPrimary ∨ tag = cursorPrefixSG ∨ tag = cursorPrefixTombstone) :
    (scan L tx n dc).result = (scanYield L tx dc).take n := by
  cases dc with
  | none =>
    show (namesLoop L tx n tx.names _).result = _
    rw [namesLoop_eq_contsLoop, contsLoop_scanned L tx n _ _ rfl]
    simp [scanYield, containers]
  | some p =>
    obtain ⟨tag, text, a⟩ := p
    show (namesLoop L tx n (seek tx.names a.cid) _).result = _
    rw [namesLoop_eq_contsLoop]
    simp only [scanYield]
    cases hv : visitOrder L (seek tx.names a.cid) [] with
    | nil => simp [contsLoop]
    | cons c cs =>
      rw [contsLoop_scanned_first L tx n c cs _ rfl (hdc tag text a rfl)]
      simp

theorem finish_page (st : ScanState) :
    (finish st).1 = st.result ∧ ((finish st).2.2 = none ↔ st.result ≠ []) ∧
      ((finish st).2.2 = none ∨ (finish st).2.2 = some .errEndOfListing) := by
  unfold finish
  by_cases h0 : st.result.length = 0
  · have h1 : st.result = [] := List.length_eq_zero.mp h0
    rw [if_pos h0]
    simp [h1]
  · have h1 : st.result ≠ [] := fun h => h0 (by rw [h]; rfl)
    rw [if_neg h0]
    simp [h1]

theorem listWithCursor_decoded (L : Layout) (tx : Tx) (n : Nat) (cursor : GoString)
    (dc : Option (Char × GoString × Address)) (hdc : CursorDecodes L cursor dc) :
    listWithCursor L tx n cursor = finish (scan L tx n dc) ∧
      ∀ tag text a, dc = some (tag, text, a) →
        tag = cursorPrefixPrimary ∨ tag = cursorPrefixSG ∨ tag = cursorPrefixTombstone := by
  rcases hdc with ⟨h1, h2⟩ | ⟨cp, rest, a, h1, h2, h3, h4⟩
  · subst h1 h2
    exact ⟨rfl, fun _ _ _ h => by simp at h⟩
  · subst h1 h4
    refine ⟨?_, fun tag text b hb => ?_⟩
    · unfold listWithCursor
      dsimp only
      rw [if_pos h2, h3]
    · simp only [Option.some.injEq, Prod.mk.injEq] at hb
      rw [← hb.1]
      exact h2

/-- The page of a call on any index, for a cursor that passes the checks: the first
`n` of the addresses the scan yields; the call fails only when there is none, and
then with the end-of-listing error. -/
theorem listWithCursor_page (L : Layout) (tx : Tx) (n : Nat) (cursor : GoString)
    (dc : Option (Char × GoString × Address)) (hdc : CursorDecodes L cursor dc) :
    (listWithCursor L tx n cursor).1 = (scanYield L tx dc).take n ∧
      ((listWithCursor L tx n cursor).2.2 = none ↔ (scanYield L tx dc).take n ≠ []) ∧
      ((listWithCursor L tx n cursor).2.2 = none ∨
        (listWithCursor L tx n cursor).2.2 = some .errEndOfListing) := by
  obtain ⟨h1, h2⟩ := listWithCursor_decoded L tx n cursor dc hdc
  rw [h1, ← scan_result L tx n dc h2]
  exact finish_page _

theorem scannedLive_stops (L : Layout) (tx : Tx) (pfx : GoString)
    (front : List GoString) (bad : GoString) (back : List GoString)
    (hfront : ∀ k ∈ front, (parseAddress L (pfx ++ k)).isSome = true)
    (hbad : parseAddress L (pfx ++ bad) = none) :
    scannedLive L tx pfx (front ++ bad :: back) = liveOf L tx pfx front := by
  unfold scannedLive
  rw [List.takeWhile_append_of_pos hfront, List.takeWhile_cons]
  simp [hbad]

theorem scannedLive_of_parse (L : Layout) (tx : Tx) (pfx : GoString) (ks : List GoString)
    (h : ∀ k ∈ ks, (parseAddress L (pfx ++ k)).isSome = true) :
    scannedLive L tx pfx ks = liveOf L tx pfx ks := by
  unfold scannedLive
  rw [List.takeWhile_eq_self_iff.mpr h]

/-! ## One call on any index: every container once -/

theorem scannedLive_sublist (L : Layout) (tx : Tx) (pfx : GoString) (ks : List GoString) :
    List.Sublist (scannedLive L tx pfx ks) (liveOf L tx pfx ks) :=
  (List.takeWhile_sublist _).filterMap _

theorem bucketsScanned_sublist (L : Layout) (tx : Tx) (c : GoString)
    (lbs : List (GoString × Char)) :
    List.Sublist (bucketsScanned L tx c lbs) (bucketsLive L tx c lbs) := by
  induction lbs with
  | nil => simp [bucketsScanned, bucketsLive]
  | cons lb lbs ih =>
    unfold bucketsScanned bucketsLive at ih ⊢
    rw [List.flatMap_cons, List.flatMap_cons]
    exact List.Sublist.append (scannedLive_sublist L tx _ _) ih

theorem bucketsScannedAfter_sublist (L : Layout) (tx : Tx) (c : GoString)
    (lbs : List (GoString × Char)) (tag : Char) (k : GoString) :
    List.Sublist (bucketsScannedAfter L tx c lbs tag k) (bucketsLive L tx c lbs) := by
  unfold bucketsScannedAfter
  cases h : lbs.dropWhile (fun lb => lb.2 != tag) with
  | nil => exact List.nil_sublist _
  | cons lb rest =>
    dsimp only
    obtain ⟨front, hf⟩ : ∃ front, front ++ lb :: rest = lbs := by
      have := List.dropWhile_suffix (fun lb : GoString × Char => lb.2 != tag) (l := lbs)
      rw [h] at this
      exact this
    have h1 : List.Sublist (scannedLive L tx (c ++ ['/']) (next (seek (tx.keysOf lb.1) k)))
        (liveOf L tx (c ++ ['/']) (tx.keysOf lb.1)) := by
      refine (scannedLive_sublist L tx _ _).trans ?_
      obtain ⟨fr, hfr⟩ := seek_next_suffix (tx.keysOf lb.1) k
      have hs : List.Sublist (next (seek (tx.keysOf lb.1) k)) (tx.keysOf lb.1) := by
        conv => rhs; rw [hfr]
        exact List.sublist_append_right _ _
      exact hs.filterMap _
    have h2 : List.Sublist
        (scannedLive L tx (c ++ ['/']) (next (seek (tx.keysOf lb.1) k)) ++
          bucketsScanned L tx c rest) (bucketsLive L tx c (lb :: rest)) := by
      have e : bucketsLive L tx c (lb :: rest) =
          liveOf L tx (c ++ ['/']) (tx.keysOf lb.1) ++ bucketsLive L tx c rest := by
        simp [bucketsLive]
      rw [e]
      exact List.Sublist.append h1 (bucketsScanned_sublist L tx c rest)
    refine h2.trans ?_
    rw [← hf]
    have e : bucketsLive L tx c (front ++ lb :: rest) =
        bucketsLive L tx c front ++ bucketsLive L tx c (lb :: rest) := by
      simp [bucketsLive]
    rw [e]
    exact List.sublist_append_right _ _

theorem flatMap_containerScanned_sublist (L : Layout) (tx : Tx) (cs : List GoString) :
    List.Sublist (cs.flatMap (containerScanned L tx)) (cs.flatMap (containerLive L tx)) := by
  induction cs with
  | nil => simp
  | cons c cs ih =>
    rw [List.flatMap_cons, List.flatMap_cons]
    exact List.Sublist.append (bucketsScanned_sublist L tx c _) ih

theorem scanYield_sublist (L : Layout) (tx : Tx) (dc : Option (Char × GoString × Address)) :
    List.Sublist (scanYield L tx dc) ((visited L tx dc).flatMap (containerLive L tx)) := by
  cases dc with
  | none => exact flatMap_containerScanned_sublist L tx _
  | some p =>
    obtain ⟨tag, text, a⟩ := p
    simp only [scanYield, visited]
    cases visitOrder L (seek tx.names a.cid) [] with
    | nil => exact List.nil_sublist _
    | cons c cs =>
      dsimp only
      rw [List.flatMap_cons]
      exact List.Sublist.append (bucketsScannedAfter_sublist L tx c _ _ _)
        (flatMap_containerScanned_sublist L tx cs)

theorem visited_nodup (L : Layout) (tx : Tx) (dc : Option (Char × GoString × Address)) :
    (visited L tx dc).Nodup ∧ ∀ c ∈ visited L tx dc, c ∈ containers L tx := by
  cases dc with
  | none => exact ⟨containers_nodup L tx, fun _ h => h⟩
  | some p =>
    obtain ⟨tag, text, a⟩ := p
    exact ⟨(visitOrder_nodup L _ []).1, fun c h => visitOrder_seek_subset L tx a.cid c h⟩

theorem flatMap_containerLive_nodup (L : Layout) (tx : Tx) (hd : tx.DisjointPartitions L)
    (cs : List GoString) (hnd : cs.Nodup) (hsub : ∀ c ∈ cs, c ∈ containers L tx) :
    (cs.flatMap (containerLive L tx)).Nodup := by
  rw [List.nodup_flatMap]
  refine ⟨?_, ?_⟩
  · intro c hc
    refine (bucketsLive_sublist L tx c (lookupBuckets L c)).nodup ?_
    refine List.Nodup.map ?_ (hd c (hsub c hc))
    intro k1 k2 h
    simpa using h
  · refine hnd.pairwise_of_forall_ne ?_
    intro c1 _ c2 _ hne a h1 h2
    exact hne ((containerLive_cid L tx c1 a h1).symm.trans (containerLive_cid L tx c2 a h2))

/-! ## The order of a page -/

theorem scanYield_of_parse (L : Layout) (tx : Tx) (hp : tx.AllKeysParse L) :
    scanYield L tx none = allLive L tx := by
  show (containers L tx).flatMap (containerScanned L tx) =
    (containers L tx).flatMap (containerLive L tx)
  refine List.flatMap_congr (fun c hc => ?_)
  unfold containerScanned containerLive bucketsScanned bucketsLive
  refine List.flatMap_congr (fun lb hlb => ?_)
  exact scannedLive_of_parse L tx _ _ (fun k hk => hp c hc lb hlb k hk)

theorem liveOf_eq_map_filter (L : Layout) (tx : Tx) (c : GoString) (ks : List GoString) :
    liveOf L tx (c ++ ['/']) ks =
      (ks.filter (fun k => (liveKey L tx (c ++ ['/']) k).isSome)).map
        (fun k => (⟨c, k⟩ : Address)) := by
  induction ks with
  | nil => rfl
  | cons k ks ih =>
    unfold liveOf at ih ⊢
    rw [List.filterMap_cons, List.filter_cons]
    cases h : liveKey L tx (c ++ ['/']) k with
    | none => simpa using ih
    | some a =>
      have ha := liveKey_text L tx c k a h
      simp only [Option.isSome_some, if_true, List.map_cons]
      rw [ih, ha]

theorem allLive_eq_entries (L : Layout) (tx : Tx) :
    allLive L tx = (liveEntries L tx).map entryAddress := by
  unfold allLive liveEntries containerLive bucketsLive
  rw [List.map_flatMap]
  refine List.flatMap_congr (fun c _ => ?_)
  rw [List.map_flatMap]
  refine List.flatMap_congr (fun lb _ => ?_)
  rw [liveOf_eq_map_filter, List.map_map]
  rfl

theorem pairwise_firstIndex (l : List GoString) (h : l.Nodup) :
    l.Pairwise (fun a b => firstIndex l a < firstIndex l b) := by
  induction l with
  | nil => exact List.Pairwise.nil
  | cons x t ih =>
    rw [List.nodup_cons] at h
    refine List.Pairwise.cons (fun b hb => ?_) ?_
    · have hne : x ≠ b := fun e => h.1 (e ▸ hb)
      simp [firstIndex, hne]
    · refine List.Pairwise.imp_of_mem ?_ (ih h.2)
      intro a b ha hb hab
      have hna : x ≠ a := fun e => h.1 (e ▸ ha)
      have hnb : x ≠ b := fun e => h.1 (e ▸ hb)
      simp only [firstIndex, hna, hnb, if_false]
      omega

theorem lookupBuckets_pairwise (L : Layout) (c : GoString) :
    (lookupBuckets L c).Pairwise (fun lb1 lb2 => tagRank lb1.2 < tagRank lb2.2) := by
  have h1 : tagRank cursorPrefixPrimary < tagRank cursorPrefixTombstone := by decide
  have h2 : tagRank cursorPrefixPrimary < tagRank cursorPrefixSG := by decide
  have h3 : tagRank cursorPrefixTombstone < tagRank cursorPrefixSG := by decide
  unfold lookupBuckets
  refine List.Pairwise.cons ?_ (List.Pairwise.cons ?_ (List.Pairwise.cons ?_ List.Pairwise.nil))
  · intro x hx
    simp only [List.mem_cons, List.mem_singleton, List.not_mem_nil, or_false] at hx
    rcases hx with rfl | rfl
    · exact h1
    · exact h2
  · intro x hx
    simp only [List.mem_cons, List.mem_singleton, List.not_mem_nil, or_false] at hx
    subst hx
    exact h3
  · intro x hx
    simp at hx

/-- On a sorted index the non-inhumed entries stand in the order of the listing:
every entry is before every later one. -/
theorem liveEntries_pairwise (L : Layout) (tx : Tx) (hs : tx.Sorted) :
    (liveEntries L tx).Pairwise (EntryLt L tx) := by
  unfold liveEntries
  rw [List.pairwise_flatMap]
  refine ⟨fun c _ => ?_, ?_⟩
  · rw [List.pairwise_flatMap]
    refine ⟨fun lb _ => ?_, ?_⟩
    · rw [List.pairwise_map]
      refine List.Pairwise.imp ?_ ((keysOf_sorted tx hs lb.1).sublist (List.filter_sublist _))
      intro a b hab
      exact Or.inr ⟨rfl, Or.inr ⟨rfl, hab⟩⟩
    · refine List.Pairwise.imp ?_ (lookupBuckets_pairwise L c)
      intro lb1 lb2 hlt x hx y hy
      obtain ⟨k1, _, rfl⟩ := List.mem_map.mp hx
      obtain ⟨k2, _, rfl⟩ := List.mem_map.mp hy
      exact Or.inr ⟨rfl, Or.inl hlt⟩
  · refine List.Pairwise.imp ?_ (pairwise_firstIndex _ (containers_nodup L tx))
    intro c1 c2 hlt x hx y hy
    obtain ⟨lb1, _, hx1⟩ := List.mem_flatMap.mp hx
    obtain ⟨k1, _, rfl⟩ := List.mem_map.mp hx1
    obtain ⟨lb2, _, hy1⟩ := List.mem_flatMap.mp hy
    obtain ⟨k2, _, rfl⟩ := List.mem_map.mp hy1
    exact Or.inl hlt

/-! ## The cursor of a short page -/

theorem lastD_nil (d : GoString) : lastD [] d = d := rfl

theorem lastD_cons (x : GoString) (l : List GoString) (d : GoString) :
    lastD (x :: l) d = lastD l x := by
  unfold lastD
  cases l with
  | nil => simp
  | cons y t =>
    rw [List.getLast?_cons_cons]
    cases h : (y :: t).getLast? with
    | none => simp at h
    | some z => simp

theorem lastD_append (a b : List GoString) (d : GoString) :
    lastD (a ++ b) d = lastD b (lastD a d) := by
  induction a generalizing d with
  | nil => rfl
  | cons x a ih => rw [List.cons_append, lastD_cons, lastD_cons, ih]

theorem lastD_of_ne_nil (l : List GoString) (d : GoString) (h : l ≠ []) :
    l.getLast? = some (lastD l d) := by
  unfold lastD
  cases hl : l.getLast? with
  | none => exact absurd (List.getLast?_eq_none_iff.mp hl) h
  | some x => rfl

/-- The key loop on keys that all parse, when the result stays below the limit: the
cursor ends on the last key. -/
theorem selectLoop_last (L : Layout) (tx : Tx) (pfx : GoString) (limit : Nat) :
    ∀ (ks : List GoString) (dst : List Address) (cursor : GoString),
      (∀ k ∈ ks, (parseAddress L (pfx ++ k)).isSome = true) →
      (selectLoop L tx pfx limit ks dst dst.length cursor).1.length < limit →
      (selectLoop L tx pfx limit ks dst dst.length cursor).2 =
        lastD (ks.map (fun k => pfx ++ k)) cursor := by
  intro ks
  induction ks with
  | nil =>
    intro dst cursor _ _
    rfl
  | cons k ks ih =>
    intro dst cursor hp hlt
    have hp2 : ∀ x ∈ ks, (parseAddress L (pfx ++ x)).isSome = true :=
      fun x hx => hp x (List.mem_cons_of_mem _ hx)
    by_cases hfull : limit ≤ dst.length
    · rw [selectLoop_full L tx pfx limit (k :: ks) dst dst.length cursor hfull] at hlt
      exact absurd hfull (by simpa using hlt)
    · have hnf : ¬ dst.length ≥ limit := hfull
      obtain ⟨a, ha⟩ := Option.isSome_iff_exists.1 (hp k (List.mem_cons_self _ _))
      rw [List.map_cons, lastD_cons]
      by_cases hg : inGraveyard tx a > 0
      · have e : selectLoop L tx pfx limit (k :: ks) dst dst.length cursor =
            selectLoop L tx pfx limit ks dst dst.length (pfx ++ k) := by
          simp only [selectLoop, hnf, if_false, ha, hg, if_true]
        rw [e] at hlt ⊢
        exact ih dst (pfx ++ k) hp2 hlt
      · have hlen : (dst ++ [a]).length = dst.length + 1 := by simp
        have e : selectLoop L tx pfx limit (k :: ks) dst dst.length cursor =
            selectLoop L tx pfx limit ks (dst ++ [a]) (dst ++ [a]).length (pfx ++ k) := by
          rw [hlen]
          simp only [selectLoop, hnf, if_false, ha, hg]
        rw [e] at hlt ⊢
        exact ih (dst ++ [a]) (pfx ++ k) hp2 hlt

theorem bucketsLoop_last (L : Layout) (tx : Tx) (n : Nat) (c : GoString) :
    ∀ (lbs : List (GoString × Char)) (st : ScanState), st.threshold = true →
      (∀ lb ∈ lbs, ∀ k ∈ tx.keysOf lb.1, (parseAddress L (c ++ ['/'] ++ k)).isSome = true) →
      (bucketsLoop L tx n (c ++ ['/']) lbs st).2 = false →
      (bucketsLoop L tx n (c ++ ['/']) lbs st).1.cursor =
        lastD (bucketsTexts tx c lbs) st.cursor := by
  intro lbs
  induction lbs with
  | nil =>
    intro st _ _ _
    rfl
  | cons lb lbs ih =>
    intro st hthr hp hnb
    have hskip : ¬ (!st.threshold && st.cursorPrefix != lb.2) = true := by simp [hthr]
    have hsplit : bucketsTexts tx c (lb :: lbs) =
        (tx.keysOf lb.1).map (fun k => c ++ ['/'] ++ k) ++ bucketsTexts tx c lbs := by
      simp [bucketsTexts]
    rw [hsplit, lastD_append]
    by_cases hfull : (selectNFromBucket L tx lb.1 (c ++ ['/']) st.result n st.cursor
        st.threshold).1.length ≥ n
    · have e : bucketsLoop L tx n (c ++ ['/']) (lb :: lbs) st =
          (⟨(selectNFromBucket L tx lb.1 (c ++ ['/']) st.result n st.cursor st.threshold).1,
            (selectNFromBucket L tx lb.1 (c ++ ['/']) st.result n st.cursor st.threshold).2,
            lb.2, st.threshold, st.unique⟩, true) := by
        simp only [bucketsLoop, hskip, hfull, if_true, Bool.false_eq_true, if_false]
      rw [e] at hnb
      simp at hnb
    · have e : bucketsLoop L tx n (c ++ ['/']) (lb :: lbs) st =
          bucketsLoop L tx n (c ++ ['/']) lbs
            ⟨(selectNFromBucket L tx lb.1 (c ++ ['/']) st.result n st.cursor st.threshold).1,
              (selectNFromBucket L tx lb.1 (c ++ ['/']) st.result n st.cursor st.threshold).2,
              lb.2, true, st.unique⟩ := by
        simp only [bucketsLoop, hskip, hfull, if_false, Bool.false_eq_true]
      rw [e] at hnb ⊢
      rw [ih _ rfl (fun x hx => hp x (List.mem_cons_of_mem _ hx)) hnb]
      dsimp only
      rw [hthr] at hfull ⊢
      rw [selectNFromBucket_true] at hfull ⊢
      rw [selectLoop_last L tx (c ++ ['/']) n (tx.keysOf lb.1) st.result st.cursor
        (hp lb (List.mem_cons_self _ _)) (by simpa using hfull)]

theorem bucketsTextsAfter_split (tx : Tx) (c : GoString)
    (pre : List (GoString × Char)) (lb : GoString × Char) (rest : List (GoString × Char))
    (k : GoString) (hnodup : ((pre ++ lb :: rest).map Prod.snd).Nodup) :
    bucketsTextsAfter tx c (pre ++ lb :: rest) lb.2 k =
      (next (seek (tx.keysOf lb.1) k)).map (fun x => c ++ ['/'] ++ x) ++
        bucketsTexts tx c rest := by
  have hpre : ∀ x ∈ pre, (fun y : GoString × Char => y.2 != lb.2) x = true := by
    intro x hx
    rw [List.map_append, List.nodup_append] at hnodup
    have : x.2 ≠ lb.2 := fun heq =>
      hnodup.2.2 (List.mem_map_of_mem Prod.snd hx) (by rw [heq]; simp)
    simpa using this
  unfold bucketsTextsAfter
  rw [List.dropWhile_append_of_pos hpre]
  simp [List.dropWhile_cons]

theorem bucketsLoop_last_first (L : Layout) (tx : Tx) (n : Nat) (c : GoString)
    (pre : List (GoString × Char)) (lb : GoString × Char) (rest : List (GoString × Char))
    (st : ScanState) (hthr : st.threshold = false) (hcp : st.cursorPrefix = lb.2)
    (hnodup : ((pre ++ lb :: rest).map Prod.snd).Nodup)
    (hp : ∀ x ∈ lb :: rest, ∀ k ∈ tx.keysOf x.1,
      (parseAddress L (c ++ ['/'] ++ k)).isSome = true)
    (hnb : (bucketsLoop L tx n (c ++ ['/']) (pre ++ lb :: rest) st).2 = false) :
    (bucketsLoop L tx n (c ++ ['/']) (pre ++ lb :: rest) st).1.cursor =
      lastD (bucketsTextsAfter tx c (pre ++ lb :: rest) lb.2
        (stringsReplace1 st.cursor (c ++ ['/']))) st.cursor := by
  have hpre : ∀ x ∈ pre, x.2 ≠ st.cursorPrefix := by
    intro x hx heq
    rw [List.map_append, List.nodup_append] at hnodup
    exact hnodup.2.2 (List.mem_map_of_mem Prod.snd hx) (by rw [heq, hcp]; simp)
  rw [bucketsLoop_skip L tx n _ pre _ st hthr hpre] at hnb ⊢
  rw [bucketsTextsAfter_split tx c pre lb rest _ hnodup, lastD_append]
  have hskip : ¬ (!st.threshold && st.cursorPrefix != lb.2) = true := by simp [hcp]
  by_cases hfull : (selectNFromBucket L tx lb.1 (c ++ ['/']) st.result n st.cursor
      st.threshold).1.length ≥ n
  · have e : bucketsLoop L tx n (c ++ ['/']) (lb :: rest) st =
        (⟨(selectNFromBucket L tx lb.1 (c ++ ['/']) st.result n st.cursor st.threshold).1,
          (selectNFromBucket L tx lb.1 (c ++ ['/']) st.result n st.cursor st.threshold).2,
          lb.2, st.threshold, st.unique⟩, true) := by
      simp only [bucketsLoop, hskip, hfull, if_true, Bool.false_eq_true, if_false]
    rw [e] at hnb
    simp at hnb
  · have e : bucketsLoop L tx n (c ++ ['/']) (lb :: rest) st =
        bucketsLoop L tx n (c ++ ['/']) rest
          ⟨(selectNFromBucket L tx lb.1 (c ++ ['/']) st.result n st.cursor st.threshold).1,
            (selectNFromBucket L tx lb.1 (c ++ ['/']) st.result n st.cursor st.threshold).2,
            lb.2, true, st.unique⟩ := by
      simp only [bucketsLoop, hskip, hfull, if_false, Bool.false_eq_true]
    rw [e] at hnb ⊢
    rw [bucketsLoop_last L tx n c rest _ rfl
      (fun x hx => hp x (List.mem_cons_of_mem _ hx)) hnb]
    dsimp only
    rw [hthr] at hfull ⊢
    rw [selectNFromBucket_false] at hfull ⊢
    have hsub : ∀ k ∈ next (seek (tx.keysOf lb.1) (stringsReplace1 st.cursor (c ++ ['/']))),
        (parseAddress L (c ++ ['/'] ++ k)).isSome = true := by
      intro k hk
      obtain ⟨front, hf⟩ := seek_next_suffix (tx.keysOf lb.1)
        (stringsReplace1 st.cursor (c ++ ['/']))
      exact hp lb (List.mem_cons_self _ _) k (by rw [hf]; exact List.mem_append_right _ hk)
    rw [selectLoop_last L tx (c ++ ['/']) n _ st.result st.cursor hsub (by simpa using hfull)]

theorem contsLoop_last (L : Layout) (tx : Tx) (n : Nat) :
    ∀ (cs : List GoString) (st : ScanState), st.threshold = true →
      (∀ c ∈ cs, ∀ lb ∈ lookupBuckets L c, ∀ k ∈ tx.keysOf lb.1,
        (parseAddress L (c ++ ['/'] ++ k)).isSome = true) →
      (contsLoop L tx n cs st).result.length < n →
      (contsLoop L tx n cs st).cursor = lastD (cs.flatMap (containerTexts L tx)) st.cursor := by
  intro cs
  induction cs with
  | nil =>
    intro st _ _ _
    rfl
  | cons c cs ih =>
    intro st hthr hp hlt
    obtain ⟨_, b2, b3⟩ := bucketsLoop_scanned L tx n c (lookupBuckets L c)
      ⟨st.result, st.cursor, st.cursorPrefix, st.threshold, c :: st.unique⟩ hthr
    have hl := bucketsLoop_last L tx n c (lookupBuckets L c)
      ⟨st.result, st.cursor, st.cursorPrefix, st.threshold, c :: st.unique⟩ hthr
      (hp c (List.mem_cons_self _ _))
    rw [List.flatMap_cons, lastD_append]
    cases hb : (bucketsLoop L tx n (c ++ ['/']) (lookupBuckets L c)
        ⟨st.result, st.cursor, st.cursorPrefix, st.threshold, c :: st.unique⟩).2 with
    | true =>
      have e : contsLoop L tx n (c :: cs) st = (bucketsLoop L tx n (c ++ ['/'])
          (lookupBuckets L c)
          ⟨st.result, st.cursor, st.cursorPrefix, st.threshold, c :: st.unique⟩).1 := by
        simp only [contsLoop, hb, if_true]
      rw [e] at hlt
      have := b2 hb
      omega
    | false =>
      have e : contsLoop L tx n (c :: cs) st = contsLoop L tx n cs (bucketsLoop L tx n
          (c ++ ['/']) (lookupBuckets L c)
          ⟨st.result, st.cursor, st.cursorPrefix, st.threshold, c :: st.unique⟩).1 := by
        simp only [contsLoop, hb, Bool.false_eq_true, if_false]
      rw [e] at hlt ⊢
      rw [ih _ (b3 hb) (fun x hx => hp x (List.mem_cons_of_mem _ hx)) hlt, hl hb]
      rfl

theorem contsLoop_last_first (L : Layout) (tx : Tx) (n : Nat) (c : GoString)
    (cs : List GoString) (st : ScanState) (hthr : st.threshold = false)
    (htag : st.cursorPrefix = cursorPrefixPrimary ∨ st.cursorPrefix = cursorPrefixSG ∨
      st.cursorPrefix = cursorPrefixTombstone)
    (hp : ∀ x ∈ c :: cs, ∀ lb ∈ lookupBuckets L x, ∀ k ∈ tx.keysOf lb.1,
      (parseAddress L (x ++ ['/'] ++ k)).isSome = true)
    (hlt : (contsLoop L tx n (c :: cs) st).result.length < n) :
    (contsLoop L tx n (c :: cs) st).cursor =
      lastD (bucketsTextsAfter tx c (lookupBuckets L c) st.cursorPrefix
          (stringsReplace1 st.cursor (c ++ ['/'])) ++
        cs.flatMap (containerTexts L tx)) st.cursor := by
  obtain ⟨pre, lb, rest, hsp, hlb⟩ := lookupBuckets_split L c st.cursorPrefix htag
  have hnd := lookupBuckets_nodup L c
  rw [hsp] at hnd
  obtain ⟨_, b2, b3⟩ := bucketsLoop_scanned_first L tx n c pre lb rest
    ⟨st.result, st.cursor, st.cursorPrefix, st.threshold, c :: st.unique⟩ hthr hlb.symm hnd
  have hl := bucketsLoop_last_first L tx n c pre lb rest
    ⟨st.result, st.cursor, st.cursorPrefix, st.threshold, c :: st.unique⟩ hthr hlb.symm hnd
    (fun x hx => hp c (List.mem_cons_self _ _) x (by
      rw [hsp]
      exact List.mem_append_right _ hx))
  rw [← hsp] at b2 b3 hl
  rw [hlb] at hl
  dsimp only at b2 b3 hl
  rw [lastD_append]
  cases hb : (bucketsLoop L tx n (c ++ ['/']) (lookupBuckets L c)
      ⟨st.result, st.cursor, st.cursorPrefix, st.threshold, c :: st.unique⟩).2 with
  | true =>
    have e : contsLoop L tx n (c :: cs) st = (bucketsLoop L tx n (c ++ ['/'])
        (lookupBuckets L c)
        ⟨st.result, st.cursor, st.cursorPrefix, st.threshold, c :: st.unique⟩).1 := by
      simp only [contsLoop, hb, if_true]
    rw [e] at hlt
    have := b2 hb
    omega
  | false =>
    have e : contsLoop L tx n (c :: cs) st = contsLoop L tx n cs (bucketsLoop L tx n
        (c ++ ['/']) (lookupBuckets L c)
        ⟨st.result, st.cursor, st.cursorPrefix, st.threshold, c :: st.unique⟩).1 := by
      simp only [contsLoop, hb, Bool.false_eq_true, if_false]
    rw [e] at hlt ⊢
    rw [contsLoop_last L tx n cs _ (b3 hb)
      (fun x hx => hp x (List.mem_cons_of_mem _ hx)) hlt, hl hb]

/-- The cursor text of a scan that ends below the count, on an index whose keys all
parse: the last of the key texts the scan goes through, or the text it started with
when it goes through none. -/
theorem scan_last (L : Layout) (tx : Tx) (n : Nat) (hp : tx.AllKeysParse L)
    (dc : Option (Char × GoString × Address))
    (hdc : ∀ tag text a, dc = some (tag, text, a) →
      tag = cursorPrefixPrimary ∨ tag = cursorPrefixSG ∨ tag = cursorPrefixTombstone)
    (hlt : (scan L tx n dc).result.length < n) :
    (scan L tx n dc).cursor = lastD (scanTexts L tx dc) (startText dc) := by
  cases dc with
  | none =>
    have e : scan L tx n none =
        contsLoop L tx n (containers L tx) ⟨[], [], Char.ofNat 0, true, []⟩ := by
      show namesLoop L tx n tx.names _ = _
      rw [namesLoop_eq_contsLoop]
      rfl
    rw [e] at hlt ⊢
    exact contsLoop_last L tx n _ _ rfl (fun c hc => hp c hc) hlt
  | some p =>
    obtain ⟨tag, text, a⟩ := p
    have e : scan L tx n (some (tag, text, a)) =
        contsLoop L tx n (visitOrder L (seek tx.names a.cid) [])
          ⟨[], text, tag, false, []⟩ := by
      show namesLoop L tx n (seek tx.names a.cid) _ = _
      rw [namesLoop_eq_contsLoop]
    rw [e] at hlt ⊢
    simp only [scanTexts, startText]
    have hsub : ∀ c ∈ visitOrder L (seek tx.names a.cid) [], c ∈ containers L tx :=
      fun c hc => visitOrder_seek_subset L tx a.cid c hc
    cases hv : visitOrder L (seek tx.names a.cid) [] with
    | nil => rfl
    | cons c cs =>
      rw [hv] at hlt hsub
      exact contsLoop_last_first L tx n c cs _ rfl (hdc tag text a rfl)
        (fun x hx => hp x (hsub x hx)) hlt

theorem scannedLive_length_le (L : Layout) (tx : Tx) (pfx : GoString) (ks : List GoString) :
    (scannedLive L tx pfx ks).length ≤ ks.length :=
  ((scannedLive_sublist L tx pfx ks).length_le.trans (List.length_filterMap_le _ _))

theorem bucketsScanned_length_le (L : Layout) (tx : Tx) (c : GoString)
    (lbs : List (GoString × Char)) :
    (bucketsScanned L tx c lbs).length ≤ (bucketsTexts tx c lbs).length := by
  induction lbs with
  | nil => simp [bucketsScanned, bucketsTexts]
  | cons lb lbs ih =>
    unfold bucketsScanned bucketsTexts at ih ⊢
    rw [List.flatMap_cons, List.flatMap_cons, List.length_append, List.length_append,
      List.length_map]
    have := scannedLive_length_le L tx (c ++ ['/']) (tx.keysOf lb.1)
    omega

theorem bucketsScannedAfter_length_le (L : Layout) (tx : Tx) (c : GoString)
    (lbs : List (GoString × Char)) (tag : Char) (k : GoString) :
    (bucketsScannedAfter L tx c lbs tag k).length ≤ (bucketsTextsAfter tx c lbs tag k).length := by
  unfold bucketsScannedAfter bucketsTextsAfter
  cases lbs.dropWhile (fun lb => lb.2 != tag) with
  | nil => simp
  | cons lb rest =>
    dsimp only
    rw [List.length_append, List.length_append, List.length_map]
    have h1 := scannedLive_length_le L tx (c ++ ['/']) (next (seek (tx.keysOf lb.1) k))
    have h2 := bucketsScanned_length_le L tx c rest
    omega

theorem flatMap_containerScanned_length_le (L : Layout) (tx : Tx) (cs : List GoString) :
    (cs.flatMap (containerScanned L tx)).length ≤ (cs.flatMap (containerTexts L tx)).length := by
  induction cs with
  | nil => simp
  | cons c cs ih =>
    rw [List.flatMap_cons, List.flatMap_cons, List.length_append, List.length_append]
    have h1 : (containerScanned L tx c).length ≤ (containerTexts L tx c).length :=
      bucketsScanned_length_le L tx c (lookupBuckets L c)
    omega

theorem scanYield_length_le (L : Layout) (tx : Tx) (dc : Option (Char × GoString × Address)) :
    (scanYield L tx dc).length ≤ (scanTexts L tx dc).length := by
  cases dc with
  | none => exact flatMap_containerScanned_length_le L tx _
  | some p =>
    obtain ⟨tag, text, a⟩ := p
    simp only [scanYield, scanTexts]
    cases visitOrder L (seek tx.names a.cid) [] with
    | nil => simp
    | cons c cs =>
      dsimp only
      rw [List.length_append, List.length_append]
      have h1 := bucketsScannedAfter_length_le L tx c (lookupBuckets L c) tag
        (stringsReplace1 text (c ++ ['/']))
      have h2 := flatMap_containerScanned_length_le L tx cs
      omega

/-- A short page on an index whose keys all parse: the cursor is the storage-group
tag followed by the last of the key texts the scan went through. -/
theorem listWithCursor_short_page (L : Layout) (tx : Tx) (n : Nat) (hp : tx.AllKeysParse L)
    (cursor : GoString) (dc : Option (Char × GoString × Address))
    (hdc : CursorDecodes L cursor dc) (page : List Address) (cur : GoString)
    (h : listWithCursor L tx n cursor = (page, cur, none)) (hshort : page.length < n) :
    ∃ text, (scanTexts L tx dc).getLast? = some text ∧ cur = cursorPrefixSG :: text := by
  obtain ⟨hn, _⟩ := listWithCursor_success_count L tx n cursor page cur h
  obtain ⟨e, hv⟩ := listWithCursor_decoded L tx n cursor dc hdc
  rw [e] at h
  have hres : (scan L tx n dc).result ≠ [] := by
    intro h0
    unfold finish at h
    rw [if_pos (by rw [h0]; rfl)] at h
    simp at h
  have hfin : page = (scan L tx n dc).result ∧
      cur = (scan L tx n dc).cursorPrefix :: (scan L tx n dc).cursor := by
    unfold finish at h
    rw [if_neg (fun h0 => hres (List.length_eq_zero.mp h0))] at h
    simp only [Prod.mk.injEq, and_true] at h
    exact ⟨h.1.symm, h.2.symm⟩
  have hlt : (scan L tx n dc).result.length < n := by rw [← hfin.1]; exact hshort
  have hcp : (scan L tx n dc).cursorPrefix = cursorPrefixSG := by
    rcases scan_visit L tx n hn dc hv with hf | hs
    · obtain ⟨_, _, _, _, _, _, _, _, _, _, _, _, hl⟩ := hf
      omega
    · exact (hs.2 hres).2
  have hne : scanTexts L tx dc ≠ [] := by
    intro h0
    have h1 := scanYield_length_le L tx dc
    rw [h0] at h1
    have h2 : scanYield L tx dc = [] := List.length_eq_zero.mp (by simpa using h1)
    have h3 := scan_result L tx n dc hv
    rw [h2] at h3
    exact hres (by simpa using h3)
  refine ⟨lastD (scanTexts L tx dc) (startText dc), lastD_of_ne_nil _ _ hne, ?_⟩
  rw [hfin.2, hcp, scan_last L tx n hp dc hv hlt]

end Metabase

namespace Metabase

/-! ## Properties of pagination -/

/-- One call from a place of the index: the first `n` addresses behind it and a
cursor at the place behind them, or `ErrEndOfListing` when nothing lies behind
it. -/
theorem ListWithCursor_at (L : Layout) (tx : Tx) (n : Nat) (hn : 1 ≤ n)
    (hs : tx.Sorted) (hp : tx.AllKeysParse L) (hr : tx.SeekFindsContainer L)
    (cursor : GoString) (rest : List Address) (h : CursorAt L tx cursor rest) :
    (rest = [] → ListWithCursor L tx n cursor = ([], [], some .errEndOfListing)) ∧
      (rest ≠ [] → ∃ cur, ListWithCursor L tx n cursor = (rest.take n, cur, none) ∧
        CursorAt L tx cur (rest.drop n)) := by
  rw [ListWithCursor_eq]
  rcases h with ⟨hc, hrest⟩ | ⟨tag, c, k, hpos, hc, hrest⟩
  · rw [hc, hrest]
    obtain ⟨h1, h2⟩ := listWithCursor_start L tx n hn hs hp
    refine ⟨h1, fun hne => ?_⟩
    obtain ⟨tag, c, k, hpos, hcall, hafter⟩ := h2 hne
    exact ⟨_, hcall, Or.inr ⟨tag, c, k, hpos, rfl, hafter.symm⟩⟩
  · rw [hc, hrest]
    obtain ⟨h1, h2⟩ := listWithCursor_resume L tx n hn hs hp hr tag c k hpos
    refine ⟨h1, fun hne => ?_⟩
    obtain ⟨tag2, c2, k2, hpos2, hcall, hafter⟩ := h2 hne
    exact ⟨_, hcall, Or.inr ⟨tag2, c2, k2, hpos2, rfl, hafter.symm⟩⟩

theorem paginate_from (L : Layout) (tx : Tx) (n : Nat) (hn : 1 ≤ n)
    (hs : tx.Sorted) (hp : tx.AllKeysParse L) (hr : tx.SeekFindsContainer L)
    (fuel : Nat) :
    ∀ (cursor : GoString) (rest : List Address), CursorAt L tx cursor rest →
      rest.length < fuel →
      ∃ pages, paginate L tx n fuel cursor = some pages ∧ pages.flatten = rest ∧
        ∀ p ∈ pages, 1 ≤ p.length ∧ p.length ≤ n := by
  induction fuel with
  | zero => intro _ _ _ h; omega
  | succ fuel ih =>
    intro cursor rest hat hlen
    obtain ⟨h1, h2⟩ := ListWithCursor_at L tx n hn hs hp hr cursor rest hat
    by_cases hrest : rest = []
    · refine ⟨[], ?_, by simp [hrest], by simp⟩
      rw [paginate, h1 hrest]
    · obtain ⟨cur, hcall, hat2⟩ := h2 hrest
      have hpos : 0 < rest.length := List.length_pos.2 hrest
      obtain ⟨pages, hpg, hflat, hsz⟩ := ih cur (rest.drop n) hat2
        (by rw [List.length_drop]; omega)
      refine ⟨rest.take n :: pages, ?_, ?_, ?_⟩
      · rw [paginate, hcall]
        simp [hpg]
      · rw [List.flatten_cons, hflat, List.take_append_drop]
      · intro p hp
        rcases List.mem_cons.1 hp with hp | hp
        · rw [hp, List.length_take]
          omega
        · exact hsz p hp

/-- C6 as amended. Listing determinism: on an index whose keys are sorted, whose
partition keys all parse as addresses and in which a seek to a container identifier
finds that container, for every count `n >= 1` a client that starts from the empty
cursor and follows the returned cursors reaches `ErrEndOfListing` after at most
as many successful calls as there are non-inhumed entries; the pages hold between
1 and `n` addresses each, and their concatenation is the list of the addresses of
the non-inhumed entries (container, partition, key) of the index, each entry once,
every entry before every later one in the order by container, partition (primary,
tombstone, storage-group) and key, the same for every `n`; no address occurs twice
in it when no key occurs twice among the partitions of a container. -/
theorem pagination_lists_every_address (L : Layout) (tx : Tx) (n : Nat) (hn : 1 ≤ n)
    (hs : tx.Sorted) (hp : tx.AllKeysParse L) (hr : tx.SeekFindsContainer L) :
    ∃ pages, paginate L tx n ((allLive L tx).length + 1) [] = some pages ∧
      pages.flatten = allLive L tx ∧ (∀ p ∈ pages, 1 ≤ p.length ∧ p.length ≤ n) ∧
      pages.flatten = (liveEntries L tx).map entryAddress ∧
      (liveEntries L tx).Pairwise (EntryLt L tx) ∧
      (tx.DisjointPartitions L → pages.flatten.Nodup) := by
  obtain ⟨pages, h1, h2, h3⟩ := paginate_from L tx n hn hs hp hr _ [] (allLive L tx)
    (Or.inl ⟨rfl, rfl⟩) (Nat.lt_succ_self _)
  exact ⟨pages, h1, h2, h3, by rw [h2]; exact allLive_eq_entries L tx,
    liveEntries_pairwise L tx hs, fun hd => by rw [h2]; exact allLive_nodup L tx hd⟩

/-- The scenario of the specification: pages `[a1, a3]` and `[t1, b1]` with the
cursors `pC1/a3` and `pC2/b1`, then the end of the listing. -/
theorem pagination_lists_every_address_witness :
    (∃ pages, paginate demoLayout demoTx 2 ((allLive demoLayout demoTx).length + 1) []
          = some pages ∧
        pages.flatten = allLive demoLayout demoTx ∧
        (∀ p ∈ pages, 1 ≤ p.length ∧ p.length ≤ 2) ∧
        pages.flatten = (liveEntries demoLayout demoTx).map entryAddress ∧
        (liveEntries demoLayout demoTx).Pairwise (EntryLt demoLayout demoTx) ∧
        (demoTx.DisjointPartitions demoLayout → pages.flatten.Nodup)) ∧
      ListWithCursor demoLayout demoTx 2 [] =
        ([⟨['C', '1'], ['a', '1']⟩, ⟨['C', '1'], ['a', '3']⟩],
          ['p', 'C', '1', '/', 'a', '3'], none) ∧
      ListWithCursor demoLayout demoTx 2 ['p', 'C', '1', '/', 'a', '3'] =
        ([⟨['C', '1'], ['t', '1']⟩, ⟨['C', '2'], ['b', '1']⟩],
          ['p', 'C', '2', '/', 'b', '1'], none) ∧
      ListWithCursor demoLayout demoTx 2 ['p', 'C', '2', '/', 'b', '1'] =
        ([], [], some .errEndOfListing) ∧
      demoTx.DisjointPartitions demoLayout :=
  ⟨pagination_lists_every_address demoLayout demoTx 2 (by decide) (by decide) (by decide)
    (by decide), by decide, by decide, by decide, by decide⟩

/-- C6 as stated fails, in three ways. In the index with the primary keys `!` and
`a1` of container `C1` the first call ends the listing, so the pages are empty, while
`C1/a1` is a non-inhumed address of the primary partition. In the index in which
`a1` is a key of the primary and of the tombstone partition of `C1`, whose keys all
parse, the pages hold the address `C1/a1` twice. In the index with the containers
`C1` and `C1A`, whose keys all parse, the top-level key `C1_TS` lies behind `C1A`;
with count 2 the call with the cursor `sC1A/b1` of the second page walks on from
`C1A` to `C1_TS` and returns the first page again with its cursor `tC1/t1`, so the
client never reaches the end of the listing. -/
theorem pagination_misses_or_repeats_addresses :
    (demoTxMalformedFirst.Sorted ∧
      ListWithCursor demoLayout demoTxMalformedFirst 5 [] =
        ([], [], some .errEndOfListing) ∧
      paginate demoLayout demoTxMalformedFirst 5 2 [] = some [] ∧
      allLive demoLayout demoTxMalformedFirst = [⟨['C', '1'], ['a', '1']⟩]) ∧
    (demoTxTwice.Sorted ∧ demoTxTwice.AllKeysParse demoLayout ∧
      demoTxTwice.SeekFindsContainer demoLayout ∧
      paginate demoLayout demoTxTwice 1 3 [] =
        some [[⟨['C', '1'], ['a', '1']⟩], [⟨['C', '1'], ['a', '1']⟩]]) ∧
    (demoTxPrefix.Sorted ∧ demoTxPrefix.AllKeysParse demoLayout ∧
      demoTxPrefix.DisjointPartitions demoLayout ∧
      ListWithCursor demoLayout demoTxPrefix 2 [] =
        ([⟨['C', '1'], ['a', '1']⟩, ⟨['C', '1'], ['t', '1']⟩],
          ['t', 'C', '1', '/', 't', '1'], none) ∧
      ListWithCursor demoLayout demoTxPrefix 2 ['t', 'C', '1', '/', 't', '1'] =
        ([⟨['C', '1', 'A'], ['b', '1']⟩], ['s', 'C', '1', 'A', '/', 'b', '1'], none) ∧
      ListWithCursor demoLayout demoTxPrefix 2 ['s', 'C', '1', 'A', '/', 'b', '1'] =
        ([⟨['C', '1'], ['a', '1']⟩, ⟨['C', '1'], ['t', '1']⟩],
          ['t', 'C', '1', '/', 't', '1'], none) ∧
      paginate demoLayout demoTxPrefix 2 9 [] = none) := by
  decide

theorem reach_cursorAt (L : Layout) (tx : Tx) (n : Nat) (hn : 1 ≤ n)
    (hs : tx.Sorted) (hp : tx.AllKeysParse L) (hr : tx.SeekFindsContainer L)
    (cursor : GoString) (acc : List Address) (h : Reach L tx n cursor acc) :
    ∃ rest, CursorAt L tx cursor rest ∧ allLive L tx = acc ++ rest := by
  induction h with
  | start => exact ⟨allLive L tx, Or.inl ⟨rfl, rfl⟩, rfl⟩
  | step cursor acc page cur _ hcall ih =>
    obtain ⟨rest, hat, hall⟩ := ih
    obtain ⟨h1, h2⟩ := ListWithCursor_at L tx n hn hs hp hr cursor rest hat
    by_cases hrest : rest = []
    · rw [h1 hrest] at hcall
      simp at hcall
    · obtain ⟨cur2, hcall2, hat2⟩ := h2 hrest
      rw [hcall2] at hcall
      simp only [Prod.mk.injEq, and_true] at hcall
      rw [← hcall.1, ← hcall.2]
      refine ⟨rest.drop n, hat2, ?_⟩
      rw [hall, List.append_assoc, List.take_append_drop]

/-- The end of the listing on a well-formed index. On an index whose keys are
sorted, whose partition keys all parse as addresses and in which a seek to a
container identifier finds that container, for every count `n >= 1`, when a client
that started from the empty cursor and followed the cursors of successful calls has
been returned every non-inhumed address of the index, the call with the cursor it
holds returns `ErrEndOfListing` with the nil list and the empty cursor, which is no
cursor-format error. -/
theorem end_of_listing_after_last_address (L : Layout) (tx : Tx) (n : Nat) (hn : 1 ≤ n)
    (hs : tx.Sorted) (hp : tx.AllKeysParse L) (hr : tx.SeekFindsContainer L)
    (cursor : GoString) (acc : List Address) (hreach : Reach L tx n cursor acc)
    (hall : acc = allLive L tx) :
    ListWithCursor L tx n cursor = ([], [], some .errEndOfListing) ∧
      isCursorFormatError .errEndOfListing = false := by
  obtain ⟨rest, hat, hsum⟩ := reach_cursorAt L tx n hn hs hp hr cursor acc hreach
  have hrest : rest = [] := by
    rw [← hall] at hsum
    have := congrArg List.length hsum
    rw [List.length_append] at this
    exact List.length_eq_zero.1 (by omega)
  exact ⟨(ListWithCursor_at L tx n hn hs hp hr cursor rest hat).1 hrest, rfl⟩

/-- The scenario of the specification with count 4: the first call returns all four
addresses with the cursor `pC2/b1`, and the call with that cursor ends the
listing. -/
theorem end_of_listing_after_last_address_witness :
    ListWithCursor demoLayout demoTx 4 ['p', 'C', '2', '/', 'b', '1'] =
        ([], [], some .errEndOfListing) ∧
      isCursorFormatError .errEndOfListing = false :=
  end_of_listing_after_last_address demoLayout demoTx 4 (by decide) (by decide)
    (by decide) (by decide) ['p', 'C', '2', '/', 'b', '1']
    [⟨['C', '1'], ['a', '1']⟩, ⟨['C', '1'], ['a', '3']⟩, ⟨['C', '1'], ['t', '1']⟩,
      ⟨['C', '2'], ['b', '1']⟩]
    (Reach.step [] [] _ _ Reach.start (by decide)) (by decide)

/-- C10 fails on the code when the last key visited does not parse: in the index
with the primary keys `a1` and `a~` of container `C1` the first call with count 5
returns `C1/a1`, the only non-inhumed address, with the cursor `sC1/a~`, since the
key loop stores a key in the cursor before it parses it; the call with that cursor
fails with the cursor-format error for an invalid address. -/
theorem cursor_format_error_after_last_address :
    demoTxMalformedLast.Sorted ∧
      allLive demoLayout demoTxMalformedLast = [⟨['C', '1'], ['a', '1']⟩] ∧
      ListWithCursor demoLayout demoTxMalformedLast 5 [] =
        ([⟨['C', '1'], ['a', '1']⟩], ['s', 'C', '1', '/', 'a', '~'], none) ∧
      ListWithCursor demoLayout demoTxMalformedLast 5 ['s', 'C', '1', '/', 'a', '~'] =
        ([], [], some .invalidCursorAddress) := by
  decide

end Metabase

namespace Metabase

/-! ## Properties of the cursor and of the order of a page -/

/-- C11: when a call with count at least 1 returns exactly `count` addresses, the
last of them is the non-inhumed address of a key `k` of a partition `lb` of a
container `c` of the index, and the returned cursor is the tag of that partition
followed by the string encoding `c/k` of that address. The cursor text is the last
key the scan visited, so no key behind `k` was visited: once the result holds
`count` addresses the key loop returns at once. -/
theorem ListWithCursor_full_page_cursor (L : Layout) (tx : Tx) (count : Nat)
    (cursor : GoString) (page : List Address) (cur : GoString) (hn : 1 ≤ count)
    (h : ListWithCursor L tx count cursor = (page, cur, none))
    (hfull : page.length = count) :
    (∃ c ∈ containers L tx, ∃ lb ∈ lookupBuckets L c, ∃ k ∈ tx.keysOf lb.1, ∃ a,
      page.getLast? = some a ∧ a = ⟨c, k⟩ ∧ inGraveyard tx a = 0 ∧
      parseAddress L (c ++ ['/'] ++ k) = some a ∧
      cur = lb.2 :: Address.String a) ∧
    ∀ (pfx : GoString) (ks : List GoString) (dst : List Address) (c0 : GoString),
      count ≤ dst.length → selectLoop L tx pfx count ks dst dst.length c0 = (dst, c0) := by
  refine ⟨?_, fun pfx ks dst c0 hd => selectLoop_full L tx pfx count ks dst _ c0 hd⟩
  rw [ListWithCursor_eq] at h
  obtain ⟨st, h1, h2, h3, h4⟩ := listWithCursor_visit L tx count hn cursor page cur h
  rcases h4 with hf | hs
  · obtain ⟨c, hc, lb, hlb, k, hk, a, t1, t2, t3, t4, t5⟩ := fullPage_text L tx _ count st hf
    exact ⟨c, hc, lb, hlb, k, hk, a, by rw [h1]; exact t1, t2, t3, t4, by rw [h2]; exact t5⟩
  · have := hs.1
    rw [← h1] at this
    omega

/-- C11 at work: with count 2 the first page of the scenario is `[C1/a1, C1/a3]` and
its cursor is `pC1/a3`. -/
theorem ListWithCursor_full_page_cursor_witness :
    (∃ c ∈ containers demoLayout demoTx, ∃ lb ∈ lookupBuckets demoLayout c,
      ∃ k ∈ demoTx.keysOf lb.1, ∃ a,
      [(⟨['C', '1'], ['a', '1']⟩ : Address), ⟨['C', '1'], ['a', '3']⟩].getLast? = some a ∧
      a = ⟨c, k⟩ ∧ inGraveyard demoTx a = 0 ∧
      parseAddress demoLayout (c ++ ['/'] ++ k) = some a ∧
      ['p', 'C', '1', '/', 'a', '3'] = lb.2 :: Address.String a) ∧
    ListWithCursor demoLayout demoTx 2 [] =
      ([⟨['C', '1'], ['a', '1']⟩, ⟨['C', '1'], ['a', '3']⟩],
        ['p', 'C', '1', '/', 'a', '3'], none) :=
  ⟨(ListWithCursor_full_page_cursor demoLayout demoTx 2 []
      [⟨['C', '1'], ['a', '1']⟩, ⟨['C', '1'], ['a', '3']⟩] ['p', 'C', '1', '/', 'a', '3']
      (by decide) (by decide) (by decide)).1, by decide⟩

/-- C12 as amended. A successful call returns between 1 and `count` addresses. On a
full page the cursor is the tag of the partition that holds the last returned
address followed by the string encoding of that address. On a short page, on an
index whose partition keys all parse, the cursor is the storage-group tag followed
by the last of the key texts `c/k` the scan went through: the last key of the last
partition with a key among those the scan reads from the cursor position on. -/
theorem ListWithCursor_cursor_content (L : Layout) (tx : Tx) (count : Nat)
    (cursor : GoString) (dc : Option (Char × GoString × Address))
    (hdc : CursorDecodes L cursor dc) (page : List Address) (cur : GoString)
    (h : ListWithCursor L tx count cursor = (page, cur, none)) :
    page ≠ [] ∧ page.length ≤ count ∧
    (page.length = count →
      ∃ c ∈ containers L tx, ∃ lb ∈ lookupBuckets L c, ∃ k ∈ tx.keysOf lb.1, ∃ a,
        page.getLast? = some a ∧ a = ⟨c, k⟩ ∧ inGraveyard tx a = 0 ∧
        parseAddress L (c ++ ['/'] ++ k) = some a ∧
        cur = lb.2 :: Address.String a) ∧
    (tx.AllKeysParse L → page.length < count →
      ∃ text, (scanTexts L tx dc).getLast? = some text ∧ cur = cursorPrefixSG :: text) := by
  rw [ListWithCursor_eq] at h
  obtain ⟨hn, hle⟩ := listWithCursor_success_count L tx count cursor page cur h
  obtain ⟨st, h1, h2, h3, h4⟩ := listWithCursor_visit L tx count hn cursor page cur h
  refine ⟨h3, hle, fun hfull => ?_, fun hp hshort =>
    listWithCursor_short_page L tx count hp cursor dc hdc page cur h hshort⟩
  rcases h4 with hf | hs
  · obtain ⟨c, hc, lb, hlb, k, hk, a, t1, t2, t3, t4, t5⟩ :=
      fullPage_text L tx _ count st hf
    exact ⟨c, hc, lb, hlb, k, hk, a, by rw [h1]; exact t1, t2, t3, t4, by rw [h2]; exact t5⟩
  · have := hs.1
    rw [← h1] at this
    omega

/-- C12 at work: with count 5 the scenario gives the short page of all four
addresses; the last key text the scan goes through is `C2/b1`, and the cursor is the
storage-group tag before it. -/
theorem ListWithCursor_cursor_content_witness :
    (∃ text, (scanTexts demoLayout demoTx none).getLast? = some text ∧
      ['s', 'C', '2', '/', 'b', '1'] = cursorPrefixSG :: text) ∧
    (scanTexts demoLayout demoTx none).getLast? = some ['C', '2', '/', 'b', '1'] ∧
    ListWithCursor demoLayout demoTx 5 [] =
      ([⟨['C', '1'], ['a', '1']⟩, ⟨['C', '1'], ['a', '3']⟩, ⟨['C', '1'], ['t', '1']⟩,
         ⟨['C', '2'], ['b', '1']⟩], ['s', 'C', '2', '/', 'b', '1'], none) :=
  ⟨(ListWithCursor_cursor_content demoLayout demoTx 5 [] none (Or.inl ⟨rfl, rfl⟩)
      [⟨['C', '1'], ['a', '1']⟩, ⟨['C', '1'], ['a', '3']⟩, ⟨['C', '1'], ['t', '1']⟩,
        ⟨['C', '2'], ['b', '1']⟩] ['s', 'C', '2', '/', 'b', '1'] (by decide)).2.2.2
      (by decide) (by decide),
    by decide, by decide⟩

/-- C12 as stated fails on short pages. With count 5 the scenario returns all four
addresses with the cursor `sC2/b1`: the tag is the storage-group tag although the
last address `C2/b1` lies in the primary partition of `C2`, whose storage-group
partition is empty. In the index with the primary keys `a1` and `a2` and `C1/a2`
inhumed the page is `[C1/a1]` and the cursor `sC1/a2` holds the text of the inhumed
address, not the encoding of the last returned address. In the index with the
primary keys `a1` and `a~` the cursor text `C1/a~` of the short page is the encoding
of no address. -/
theorem short_page_cursor_has_other_tag_and_key :
    ListWithCursor demoLayout demoTx 5 [] =
        ([⟨['C', '1'], ['a', '1']⟩, ⟨['C', '1'], ['a', '3']⟩, ⟨['C', '1'], ['t', '1']⟩,
           ⟨['C', '2'], ['b', '1']⟩], ['s', 'C', '2', '/', 'b', '1'], none) ∧
      ['b', '1'] ∈ demoTx.keysOf (demoLayout.primaryBucketName ['C', '2']) ∧
      demoTx.keysOf (demoLayout.storageGroupBucketName ['C', '2']) = [] ∧
      cursorPrefixSG ≠ cursorPrefixPrimary ∧
      ListWithCursor demoLayout demoTxInhumedLast 5 [] =
        ([⟨['C', '1'], ['a', '1']⟩], ['s', 'C', '1', '/', 'a', '2'], none) ∧
      Address.String ⟨['C', '1'], ['a', '1']⟩ ≠ ['C', '1', '/', 'a', '2'] ∧
      demoTxInhumedLast.AllKeysParse demoLayout ∧
      ListWithCursor demoLayout demoTxMalformedLast 5 [] =
        ([⟨['C', '1'], ['a', '1']⟩], ['s', 'C', '1', '/', 'a', '~'], none) ∧
      parseAddress demoLayout ['C', '1', '/', 'a', '~'] = none := by
  decide

/-- C13: on an index whose keys all parse, a call with the empty cursor and count
at least 1 returns the first `min(count, total)` elements of the list of all
non-inhumed addresses in (container, partition, key) order, and fails (with the end
of the listing) only when there is none. The page is the image of the first entries
of the index, and on a sorted index each of these entries is before every later one
in the order by container (first appearance), partition (primary, tombstone,
storage-group) and key. -/
theorem ListWithCursor_single_call_order (L : Layout) (tx : Tx) (count : Nat)
    (hn : 1 ≤ count) (hp : tx.AllKeysParse L) :
    (ListWithCursor L tx count []).1 = (allLive L tx).take count ∧
    (ListWithCursor L tx count []).1.length = min count (allLive L tx).length ∧
    ((ListWithCursor L tx count []).2.2 = none ↔ allLive L tx ≠ []) ∧
    (allLive L tx ≠ [] → (ListWithCursor L tx count []).1.head? = (allLive L tx).head?) ∧
    (ListWithCursor L tx count []).1 = ((liveEntries L tx).take count).map entryAddress ∧
    (tx.Sorted → ((liveEntries L tx).take count).Pairwise (EntryLt L tx)) := by
  obtain ⟨h1, h2, _⟩ := listWithCursor_page L tx count [] none (Or.inl ⟨rfl, rfl⟩)
  rw [← ListWithCursor_eq, scanYield_of_parse L tx hp] at h1 h2
  have hne : (allLive L tx).take count ≠ [] ↔ allLive L tx ≠ [] := by
    cases hl : allLive L tx with
    | nil => simp
    | cons a l =>
      obtain ⟨m, rfl⟩ : ∃ m, count = m + 1 := ⟨count - 1, by omega⟩
      simp
  refine ⟨h1, by rw [h1, List.length_take], h2.trans hne, fun _ => ?_, ?_,
    fun hs => (liveEntries_pairwise L tx hs).take⟩
  · rw [h1]
    obtain ⟨m, rfl⟩ : ∃ m, count = m + 1 := ⟨count - 1, by omega⟩
    cases allLive L tx <;> simp
  · rw [h1, allLive_eq_entries, List.map_take]

/-- C13 at work: the scenario with count 3 gives `[C1/a1, C1/a3, C1/t1]`, the first
three of its four non-inhumed addresses. -/
theorem ListWithCursor_single_call_order_witness :
    (ListWithCursor demoLayout demoTx 3 []).1 = (allLive demoLayout demoTx).take 3 ∧
      (allLive demoLayout demoTx).take 3 =
        [⟨['C', '1'], ['a', '1']⟩, ⟨['C', '1'], ['a', '3']⟩, ⟨['C', '1'], ['t', '1']⟩] ∧
      ((liveEntries demoLayout demoTx).take 3).Pairwise (EntryLt demoLayout demoTx) :=
  ⟨(ListWithCursor_single_call_order demoLayout demoTx 3 (by decide) (by decide)).1,
    by decide,
    (ListWithCursor_single_call_order demoLayout demoTx 3 (by decide) (by decide)).2.2.2.2.2
      (by decide)⟩

/-- C14, amended: on every index, for every count and every cursor that passes the
checks, a key that does not parse ends the scan of its partition only. The call
fails with no other error than the end of the listing, the partition contributes the
non-inhumed addresses of the keys before its first key that does not parse, and the
page is the first `count` addresses of what the partitions contribute, the later
partitions and containers included. -/
theorem ListWithCursor_malformed_key_ends_partition (L : Layout) (tx : Tx) (count : Nat)
    (cursor : GoString) (dc : Option (Char × GoString × Address))
    (hdc : CursorDecodes L cursor dc) :
    (ListWithCursor L tx count cursor).1 = (scanYield L tx dc).take count ∧
    ((ListWithCursor L tx count cursor).2.2 = none ∨
      (ListWithCursor L tx count cursor).2.2 = some .errEndOfListing) ∧
    ((ListWithCursor L tx count cursor).2.2 = none ↔ (scanYield L tx dc).take count ≠ []) ∧
    ∀ (pfx : GoString) (front : List GoString) (bad : GoString) (back : List GoString),
      (∀ k ∈ front, (parseAddress L (pfx ++ k)).isSome = true) →
      parseAddress L (pfx ++ bad) = none →
      scannedLive L tx pfx (front ++ bad :: back) = liveOf L tx pfx front := by
  rw [ListWithCursor_eq]
  obtain ⟨h1, h2, h3⟩ := listWithCursor_page L tx count cursor dc hdc
  exact ⟨h1, h3, h2, scannedLive_stops L tx⟩

/-- C14 at work: in the index with the primary keys `a1 < a~ < b1` and the tombstone
key `t1` of container `C1` and the primary key `b1` of `C2`, the scan yields `C1/a1`,
leaves the primary partition at `a~`, and goes on with `C1/t1` and `C2/b1`. -/
theorem ListWithCursor_malformed_key_ends_partition_witness :
    (ListWithCursor demoLayout demoTxMalformedMiddle 5 []).1 =
        (scanYield demoLayout demoTxMalformedMiddle none).take 5 ∧
      scanYield demoLayout demoTxMalformedMiddle none =
        [⟨['C', '1'], ['a', '1']⟩, ⟨['C', '1'], ['t', '1']⟩, ⟨['C', '2'], ['b', '1']⟩] :=
  ⟨(ListWithCursor_malformed_key_ends_partition demoLayout demoTxMalformedMiddle 5 [] none
      (Or.inl ⟨rfl, rfl⟩)).1, by decide⟩

/-- C14 as stated fails: in the index with the primary keys `a1 < a~ < b1` and the
tombstone key `t1` of container `C1` and the primary key `b1` of `C2`, the key `a~`
does not parse and `C1/a1` is what was accumulated before it, but the page of a call
with count 5 also holds `C1/t1` of the later partition and `C2/b1` of the later
container. -/
theorem page_grows_behind_malformed_key :
    demoTxMalformedMiddle.Sorted ∧
      parseAddress demoLayout (['C', '1'] ++ ['/'] ++ ['a', '1']) =
        some ⟨['C', '1'], ['a', '1']⟩ ∧
      parseAddress demoLayout (['C', '1'] ++ ['/'] ++ ['a', '~']) = none ∧
      ListWithCursor demoLayout demoTxMalformedMiddle 5 [] =
        ([⟨['C', '1'], ['a', '1']⟩, ⟨['C', '1'], ['t', '1']⟩, ⟨['C', '2'], ['b', '1']⟩],
          ['s', 'C', '2', '/', 'b', '1'], none) := by
  decide

/-- C15 fails on the code when the object of the cursor is no key of the tagged
partition: in the index with the primary keys `a1 < a3 < a5` of container `C1` a call
with the cursor `pC1/a2` returns `C1/a5` only, while `a3` is a key above `a2` whose
address is not inhumed. -/
theorem resume_skips_key_behind_absent_cursor_object :
    demoTxGap.Sorted ∧
      parseAddress demoLayout ['C', '1', '/', 'a', '2'] = some ⟨['C', '1'], ['a', '2']⟩ ∧
      ['C', '1'] ∈ containers demoLayout demoTxGap ∧
      ['a', '2'] ∉ demoTxGap.keysOf (demoLayout.primaryBucketName ['C', '1']) ∧
      ['a', '3'] ∈ demoTxGap.keysOf (demoLayout.primaryBucketName ['C', '1']) ∧
      strLt ['a', '2'] ['a', '3'] = true ∧
      liveKey demoLayout demoTxGap (['C', '1'] ++ ['/']) ['a', '3'] =
        some ⟨['C', '1'], ['a', '3']⟩ ∧
      seek (demoTxGap.keysOf (demoLayout.primaryBucketName ['C', '1'])) ['a', '2'] =
        [['a', '3'], ['a', '5']] ∧
      ListWithCursor demoLayout demoTxGap 5 ['p', 'C', '1', '/', 'a', '2'] =
        ([⟨['C', '1'], ['a', '5']⟩], ['s', 'C', '1', '/', 'a', '5'], none) := by
  decide

/-- C16: the loop over the top-level keys is a walk over the containers in order of
first encounter, in which no container occurs twice and none that was seen before;
each of them has its three partitions scanned once. So the page of a call is the
first `count` addresses of a list that takes from each container visited, once, a
part of its non-inhumed addresses, and no address occurs twice in it when no key
occurs twice among the partitions of a container. -/
theorem ListWithCursor_visits_container_once (L : Layout) (tx : Tx) (count : Nat)
    (cursor : GoString) (dc : Option (Char × GoString × Address))
    (hdc : CursorDecodes L cursor dc) :
    (∀ (names : List GoString) (st : ScanState),
      namesLoop L tx count names st =
        contsLoop L tx count (visitOrder L names st.unique) st ∧
      (visitOrder L names st.unique).Nodup ∧
      ∀ c ∈ visitOrder L names st.unique, c ∉ st.unique) ∧
    (visited L tx dc).Nodup ∧
    (ListWithCursor L tx count cursor).1 = (scanYield L tx dc).take count ∧
    List.Sublist (scanYield L tx dc) ((visited L tx dc).flatMap (containerLive L tx)) ∧
    (tx.DisjointPartitions L → (ListWithCursor L tx count cursor).1.Nodup) := by
  have hpage := (listWithCursor_page L tx count cursor dc hdc).1
  rw [← ListWithCursor_eq] at hpage
  refine ⟨fun names st => ⟨namesLoop_eq_contsLoop L tx count names st,
    visitOrder_nodup L names st.unique⟩, (visited_nodup L tx dc).1, hpage,
    scanYield_sublist L tx dc, fun hd => ?_⟩
  rw [hpage]
  exact ((List.take_sublist _ _).trans (scanYield_sublist L tx dc)).nodup
    (flatMap_containerLive_nodup L tx hd _ (visited_nodup L tx dc).1
      (visited_nodup L tx dc).2)

/-- C16 at work: the top-level keys of the scenario name container `C1` twice (its
primary and its tombstone bucket); the walk visits `C1` and `C2` once each and the
page of four addresses has no address twice. -/
theorem ListWithCursor_visits_container_once_witness :
    (visited demoLayout demoTx none).Nodup ∧
      visited demoLayout demoTx none = [['C', '1'], ['C', '2']] ∧
      demoTx.names = [['C', '1'], ['C', '1', '_', 'T', 'S'], ['C', '2'],
        ['_', 'G', 'r', 'a', 'v', 'e', 'y', 'a', 'r', 'd']] ∧
      (ListWithCursor demoLayout demoTx 5 []).1.Nodup :=
  ⟨(ListWithCursor_visits_container_once demoLayout demoTx 5 [] none
      (Or.inl ⟨rfl, rfl⟩)).2.1, by decide, by decide,
    (ListWithCursor_visits_container_once demoLayout demoTx 5 [] none
      (Or.inl ⟨rfl, rfl⟩)).2.2.2.2 (by decide)⟩

/-- C17: with count 0 a call with a cursor that passes the checks returns the
end-of-listing error, no address and the empty cursor, whatever the index holds. -/
theorem ListWithCursor_zero_count (L : Layout) (tx : Tx) (cursor : GoString)
    (dc : Option (Char × GoString × Address)) (hdc : CursorDecodes L cursor dc) :
    ListWithCursor L tx 0 cursor = ([], [], some .errEndOfListing) := by
  rw [ListWithCursor_eq, (listWithCursor_decoded L tx 0 cursor dc hdc).1]
  have h := scan_result L tx 0 dc (listWithCursor_decoded L tx 0 cursor dc hdc).2
  rw [List.take_zero] at h
  unfold finish
  rw [if_pos (by rw [h]; rfl)]

/-- C17 at work: the scenario holds four non-inhumed addresses, and a call with
count 0 reports the end of the listing, from the empty cursor and from the cursor
`pC1/a1`. -/
theorem ListWithCursor_zero_count_witness :
    ListWithCursor demoLayout demoTx 0 [] = ([], [], some .errEndOfListing) ∧
      ListWithCursor demoLayout demoTx 0 ['p', 'C', '1', '/', 'a', '1'] =
        ([], [], some .errEndOfListing) ∧
      (allLive demoLayout demoTx).length = 4 :=
  ⟨ListWithCursor_zero_count demoLayout demoTx [] none (Or.inl ⟨rfl, rfl⟩),
    ListWithCursor_zero_count demoLayout demoTx ['p', 'C', '1', '/', 'a', '1']
      (some ('p', ['C', '1', '/', 'a', '1'], ⟨['C', '1'], ['a', '1']⟩))
      (Or.inr ⟨'p', ['C', '1', '/', 'a', '1'], ⟨['C', '1'], ['a', '1']⟩, rfl, Or.inl rfl,
        by decide, rfl⟩),
    by decide⟩

end Metabase

namespace Morph

/-! ## Network settings and contract versions -/

theorem splitN2_no_eq (s : GoString) (h : '=' ∉ s) : splitN2 s = [s] := by
  have hd : s.dropWhile (fun c => c != '=') = [] := by
    rw [List.dropWhile_eq_nil_iff]
    intro x hx
    have : x ≠ '=' := fun e => h (e ▸ hx)
    simpa using this
  simp [splitN2, hd]

theorem splitN2_at_eq (key valRaw : GoString) (h : '=' ∉ key) :
    splitN2 (key ++ '=' :: valRaw) = [key, valRaw] := by
  have hall : ∀ x ∈ key, (fun c : Char => c != '=') x = true := by
    intro x hx
    have : x ≠ '=' := fun e => h (e ▸ hx)
    simpa using this
  have hd : (key ++ '=' :: valRaw).dropWhile (fun c => c != '=') = '=' :: valRaw := by
    rw [List.dropWhile_append_of_pos hall]
    simp [List.dropWhile]
  have ht : (key ++ '=' :: valRaw).takeWhile (fun c => c != '=') = key := by
    rw [List.takeWhile_append_of_pos hall]
    simp [List.takeWhile]
  simp [splitN2, hd, ht]

theorem strconvParseInt_range (t : GoString) (h : (strconvParseInt t).2 = none) :
    -(2 ^ 63 : Int) ≤ (strconvParseInt t).1 ∧ (strconvParseInt t).1 ≤ 2 ^ 63 - 1 := by
  cases t with
  | nil => simp [strconvParseInt] at h
  | cons c rest =>
    simp only [strconvParseInt] at h ⊢
    generalize (if (c == '+' || c == '-') = true then rest else c :: rest) = ds at h ⊢
    cases ds with
    | nil => simp at h
    | cons d ds1 =>
      simp only at h ⊢
      cases hp : parseDigits (d :: ds1) 0 with
      | none => simp [hp] at h
      | some un =>
        simp only [hp] at h ⊢
        by_cases hneg : (c == '-') = true
        · simp only [hneg, Bool.not_true, Bool.false_and, Bool.true_and, if_true,
            Bool.false_eq_true, if_false] at h ⊢
          by_cases hlt : 2 ^ 63 < un
          · have hlt1 : 9223372036854775808 < un := by omega
            simp [hlt1] at h
          · simp only [hlt, decide_False, Bool.false_eq_true, if_false]
            have : (un : Int) ≤ 2 ^ 63 := by exact_mod_cast Nat.le_of_not_lt hlt
            constructor <;> omega
        · simp only [hneg, Bool.not_false, Bool.true_and, Bool.false_and,
            Bool.false_eq_true, if_false] at h ⊢
          by_cases hle : 2 ^ 63 ≤ un
          · have hle1 : 9223372036854775808 ≤ un := by omega
            simp [hle1] at h
          · simp only [hle, decide_False, Bool.false_eq_true, if_false]
            have : (un : Int) < 2 ^ 63 := by exact_mod_cast Nat.lt_of_not_le hle
            constructor <;> omega

theorem parseConfigPair_split (K : NetmapKeys) (key valRaw : GoString) (force : Bool)
    (h : '=' ∉ key) :
    parseConfigPair K (key ++ '=' :: valRaw) force =
      if key ∈ K.intKeys then
        (key, .int (strconvParseInt valRaw).1,
          (strconvParseInt valRaw).2.map (ConfigError.notInt key valRaw))
      else if key = K.netmapEigenTrustAlphaKey then
        (key, .str valRaw,
          if K.parseFloatFails valRaw then some (.notFloat key valRaw) else none)
      else if key = K.netmapHomomorphicHashDisabledKey then
        (key, .bool (strconvParseBool valRaw).1,
          (strconvParseBool valRaw).2.map (ConfigError.notBool key valRaw))
      else if !force then ([], .null, some (.notWellKnown key))
      else (key, .str valRaw, none) := by
  unfold parseConfigPair
  rw [splitN2_at_eq key valRaw h]

/-- C18: `parseConfigPair` fails on a string without `=`; otherwise the key is the
text before the first `=` and the raw value all the text after it. A key outside
the well-known settings fails without `force` and yields the raw value unchanged
with `force`; an integer setting succeeds exactly when `strconv.ParseInt` accepts
the raw value as a base-10 `int64`, and then yields that integer. -/
theorem parseConfigPair_cases (K : NetmapKeys) (s : GoString) (force : Bool) :
    ('=' ∉ s → parseConfigPair K s force = ([], .null, some (.invalidFormat s))) ∧
    (∀ key valRaw : GoString, '=' ∉ key → s = key ++ '=' :: valRaw →
      (key ∉ K.wellKnown →
        parseConfigPair K s false = ([], .null, some (.notWellKnown key)) ∧
        parseConfigPair K s true = (key, .str valRaw, none)) ∧
      (key ∈ K.intKeys →
        ((parseConfigPair K s force).2.2 = none ↔ (strconvParseInt valRaw).2 = none) ∧
        ((strconvParseInt valRaw).2 = none →
          parseConfigPair K s force = (key, .int (strconvParseInt valRaw).1, none) ∧
          -(2 ^ 63 : Int) ≤ (strconvParseInt valRaw).1 ∧
          (strconvParseInt valRaw).1 ≤ 2 ^ 63 - 1))) := by
  refine ⟨fun h => ?_, fun key valRaw hk hs => ⟨fun hwk => ?_, fun hint => ?_⟩⟩
  · unfold parseConfigPair
    rw [splitN2_no_eq s h]
  · subst hs
    have h1 : key ∉ K.intKeys := fun hm => hwk (by simp [NetmapKeys.wellKnown, hm])
    have h2 : key ≠ K.netmapEigenTrustAlphaKey := fun e =>
      hwk (by simp [NetmapKeys.wellKnown, e])
    have h3 : key ≠ K.netmapHomomorphicHashDisabledKey := fun e =>
      hwk (by simp [NetmapKeys.wellKnown, e])
    constructor
    · rw [parseConfigPair_split K key valRaw false hk, if_neg h1, if_neg h2, if_neg h3]
      rfl
    · rw [parseConfigPair_split K key valRaw true hk, if_neg h1, if_neg h2, if_neg h3]
      rfl
  · subst hs
    rw [parseConfigPair_split K key valRaw force hk, if_pos hint]
    refine ⟨?_, fun hok => ⟨?_, strconvParseInt_range valRaw hok⟩⟩
    · cases (strconvParseInt valRaw).2 <;> simp
    · rw [hok]
      rfl

/-- C18 at work: with `force` unset, `MaxObjectSize=-12` yields the integer `-12`,
`Foo=1` fails, and with `force` set `Foo=a=b` yields the text `a=b`. -/
theorem parseConfigPair_cases_witness :
    parseConfigPair demoKeys
        (['M', 'a', 'x', 'O', 'b', 'j', 'e', 'c', 't', 'S', 'i', 'z', 'e'] ++
          '=' :: ['-', '1', '2']) false =
      (['M', 'a', 'x', 'O', 'b', 'j', 'e', 'c', 't', 'S', 'i', 'z', 'e'], .int (-12), none) ∧
    parseConfigPair demoKeys (['F', 'o', 'o'] ++ '=' :: ['a', '=', 'b']) false =
      ([], .null, some (.notWellKnown ['F', 'o', 'o'])) ∧
    parseConfigPair demoKeys (['F', 'o', 'o'] ++ '=' :: ['a', '=', 'b']) true =
      (['F', 'o', 'o'], .str ['a', '=', 'b'], none) ∧
    parseConfigPair demoKeys ['F', 'o', 'o'] true =
      ([], .null, some (.invalidFormat ['F', 'o', 'o'])) :=
  ⟨((((parseConfigPair_cases demoKeys _ false).2
        ['M', 'a', 'x', 'O', 'b', 'j', 'e', 'c', 't', 'S', 'i', 'z', 'e'] ['-', '1', '2']
        (by decide) rfl).2 (by decide)).2 (by decide)).1,
   (((parseConfigPair_cases demoKeys _ false).2 ['F', 'o', 'o'] ['a', '=', 'b']
        (by decide) rfl).1 (by decide)).1,
   (((parseConfigPair_cases demoKeys _ false).2 ['F', 'o', 'o'] ['a', '=', 'b']
        (by decide) rfl).1 (by decide)).2,
   (parseConfigPair_cases demoKeys ['F', 'o', 'o'] true).1 (by decide)⟩

theorem tdiv_tmod_of_pos (v : Int) (h : 0 ≤ v) :
    v.tdiv 1000000 = v / 1000000 ∧ (v.tmod 1000000).tdiv 1000 = v % 1000000 / 1000 ∧
      v.tmod 1000 = v % 1000 := by
  have h1 : v.tmod 1000000 = v % 1000000 := Int.tmod_eq_emod h (by norm_num)
  have h2 : (0 : Int) ≤ v % 1000000 := Int.emod_nonneg v (by norm_num)
  refine ⟨Int.tdiv_eq_ediv h (by norm_num), ?_, Int.tmod_eq_emod h (by norm_num)⟩
  rw [h1]
  exact Int.tdiv_eq_ediv h2 (by norm_num)

/-- C19: for `1 ≤ v ≤ 2^63 - 1` the version text is `v<major>.<minor>.<patch>` with
`major = v / 1000000`, `minor = (v mod 1000000) / 1000`, `patch = v mod 1000`; minor
and patch lie in `[0, 1000)`, the three components give `v` back, so values with
equal components are equal. Zero, a value outside `int64` and an item that is no
integer give `unknown`. -/
theorem parseContractVersion_components (v : Int) :
    (1 ≤ v → v ≤ 2 ^ 63 - 1 →
      parseContractVersion (.integer v) =
        'v' :: fmtInt (v / 1000000) ++ '.' :: fmtInt (v % 1000000 / 1000) ++
          '.' :: fmtInt (v % 1000) ∧
      0 ≤ v % 1000000 / 1000 ∧ v % 1000000 / 1000 < 1000 ∧
      0 ≤ v % 1000 ∧ v % 1000 < 1000 ∧
      v / 1000000 * 1000000 + v % 1000000 / 1000 * 1000 + v % 1000 = v ∧
      ∀ w : Int, w / 1000000 = v / 1000000 → w % 1000000 / 1000 = v % 1000000 / 1000 →
        w % 1000 = v % 1000 → w = v) ∧
    parseContractVersion (.integer 0) = unknownVersion ∧
    ((v < -(2 ^ 63) ∨ 2 ^ 63 - 1 < v) → parseContractVersion (.integer v) = unknownVersion) ∧
    parseContractVersion .notInteger = unknownVersion ∧
    parseContractVersion (.integer 1002003) = ['v', '1', '.', '2', '.', '3'] := by
  refine ⟨fun h1 h2 => ?_, by decide, fun h => ?_, rfl, by decide⟩
  · obtain ⟨e1, e2, e3⟩ := tdiv_tmod_of_pos v (by omega)
    have hne : v ≠ 0 := by omega
    have hin : isInt64 v = true := by
      simp only [isInt64, Bool.and_eq_true, decide_eq_true_eq]
      constructor <;> omega
    refine ⟨?_, by omega, by omega, by omega, by omega, by omega, fun w a b c => by omega⟩
    simp only [parseContractVersion, hin, hne, decide_False, Bool.not_true, Bool.or_false,
      Bool.false_eq_true, if_false, e1, e2, e3]
  · have hin : isInt64 v = false := by
      simp only [isInt64, Bool.and_eq_false_iff, decide_eq_false_iff_not]
      rcases h with h | h
      · left; omega
      · right; omega
    simp [parseContractVersion, hin]

end Morph
